import Mathlib

/-!
# Simplelang: lexer, parser and code generator

A shallow embedding of `lexer1.c`, `parser.c` and `AssemblyCode.c`.

* The input file is a list of characters; one `Char` stands for one byte
  handed out by `fgetc`, and the empty list is end of file.
* `parser.c` only declares `getNextToken(file)`: the lexer is its token
  supplier.  The parser state therefore holds the global `current_token`
  and the tokens the lexer has still to deliver; when they are used up the
  lexer delivers `TOKEN_EOF` for ever.
* `error(...)` and the `exit(1)` paths of the generator end the run; they are
  explicit results here.  Lines printed before `exit(1)` stay printed, so the
  generator returns the state it has reached together with its outcome.
* `createNode` does not clear the child slots, so reading `children[i]` with
  `i >= child_count` reads memory that was never written.  The generator stops
  there with the outcome `undefinedBehaviour`; nothing is claimed about what
  follows.
* The buffers have the sizes of the source.  `symbol_table` has 100 slots and
  `addSymbol` does not check the count: the declaration met with 100 entries
  in the table writes past the array.  `instruction` has 50 bytes and
  `sprintf(instruction, "LOADI R0, %s", text)` writes ten bytes, the text and
  the closing NUL: an operand text of 40 characters or more writes past the
  buffer.  Both are undefined behaviour and end the run with the outcome
  `undefinedBehaviour`, in the state reached just before the write.  The
  bounds the source does check, `MAX_TOKEN_LEN` and `MAX_CHILDREN`, are
  checked here as well.
* `label_count`, `symbol_count` and addresses are natural numbers: wrapping
  the `int` counter would need 2^31 `If` nodes in one tree, and the other
  lines built in `instruction` and `label` hold any `int`.
-/

namespace Vicharak

/-! ## Lexer (`lexer1.c`) -/

def MAX_TOKEN_LEN : Nat := 100

inductive TokenType where
  | TOKEN_INT
  | TOKEN_IF
  | TOKEN_IDENTIFIER
  | TOKEN_NUMBER
  | TOKEN_ASSIGN
  | TOKEN_PLUS
  | TOKEN_MINUS
  | TOKEN_EQUAL
  | TOKEN_LBRACE
  | TOKEN_RBRACE
  | TOKEN_SEMICOLON
  | TOKEN_UNKNOWN
  | TOKEN_EOF
deriving DecidableEq

structure Token where
  type : TokenType
  text : String
deriving DecidableEq

/-- The `isspace` of the C locale: space, `\t`, `\n`, `\v`, `\f`, `\r`. -/
def isspace (c : Char) : Bool :=
  c == ' ' || (9 ≤ c.toNat && c.toNat ≤ 13)

/-- The `isalpha` of the C locale: the 52 ASCII letters. -/
def isalpha (c : Char) : Bool := c.isAlpha

/-- The `isdigit` of C: `0` to `9`. -/
def isdigit (c : Char) : Bool := c.isDigit

/-- The `isalnum` of the C locale. -/
def isalnum (c : Char) : Bool := isalpha c || isdigit c

/-- The loop `while (p(c = fgetc(file))) { if (len < MAX_TOKEN_LEN - 1) text[len++] = c; }`
followed by `ungetc(c, file)`: `text` is the buffer filled so far, the result is
the buffer and the file after the push-back.  At end of file `fgetc` yields
`EOF`, which no class accepts and which `ungetc` does not push back. -/
def readRun (p : Char → Bool) : List Char → List Char → List Char × List Char
  | text, [] => (text, [])
  | text, c :: file =>
    if p c then
      readRun p (if text.length < MAX_TOKEN_LEN - 1 then text ++ [c] else text) file
    else (text, c :: file)

/-- The function `getNextToken` of `lexer1.c`: the token and the file left behind.
After `=` the next character is read; it is kept when it is a second `=` and
pushed back (nothing to push back at the end of the file) when it is not.  In the
default case the buffer is `c` followed by NUL, so that a NUL byte read from the
file gives the empty text. -/
def getNextToken : List Char → Token × List Char
  | [] => (⟨.TOKEN_EOF, ""⟩, [])
  | c :: file =>
    if isspace c then getNextToken file
    else if isalpha c then
      let r := readRun isalnum [c] file
      let text := String.mk r.1
      (⟨if text = "int" then .TOKEN_INT
        else if text = "if" then .TOKEN_IF
        else .TOKEN_IDENTIFIER, text⟩, r.2)
    else if isdigit c then
      let r := readRun isdigit [c] file
      (⟨.TOKEN_NUMBER, String.mk r.1⟩, r.2)
    else if c = '=' then
      if file.head? = some '=' then (⟨.TOKEN_EQUAL, "=="⟩, file.tail)
      else (⟨.TOKEN_ASSIGN, "="⟩, file)
    else if c = '+' then (⟨.TOKEN_PLUS, "+"⟩, file)
    else if c = '-' then (⟨.TOKEN_MINUS, "-"⟩, file)
    else if c = Char.ofNat 123 then (⟨.TOKEN_LBRACE, String.mk [Char.ofNat 123]⟩, file)
    else if c = Char.ofNat 125 then (⟨.TOKEN_RBRACE, String.mk [Char.ofNat 125]⟩, file)
    else if c = ';' then (⟨.TOKEN_SEMICOLON, ";"⟩, file)
    else (⟨.TOKEN_UNKNOWN, if c = Char.ofNat 0 then "" else String.mk [c]⟩, file)

/-- The tokens the lexer delivers for a file, up to and without `TOKEN_EOF`
(the loop of `main` in `lexer1.c`, with a bound on the number of rounds). -/
def tokenize : Nat → List Char → List Token
  | 0, _ => []
  | fuel + 1, file =>
    let r := getNextToken file
    if r.1.type = .TOKEN_EOF then [] else r.1 :: tokenize fuel r.2

/-- Every token but `TOKEN_EOF` uses up a character, so `file.length` rounds reach
the end of the file. -/
def tokens (file : List Char) : List Token := tokenize file.length file

/-! ## Parser (`parser.c`) -/

def MAX_CHILDREN : Nat := 3

inductive NodeType where
  | NODE_PROGRAM
  | NODE_VAR_DECL
  | NODE_ASSIGN
  | NODE_EXPRESSION
  | NODE_IF
  | NODE_BLOCK
  | NODE_UNKNOWN
deriving DecidableEq

/-- An AST node: `children` holds the first `child_count` slots of the C array.
A node made by `createNode(type, NULL)` has its text unwritten; it is the empty
text here. -/
inductive ASTNode where
  | mk (type : NodeType) (text : String) (children : List ASTNode)

mutual

/-- Equality of trees is structural and can be decided. -/
def ASTNode.decEq : (a b : ASTNode) → Decidable (a = b)
  | .mk t1 s1 c1, .mk t2 s2 c2 =>
    if ht : t1 = t2 then
      if hs : s1 = s2 then
        match ASTNode.decEqList c1 c2 with
        | isTrue hc => isTrue (by rw [ht, hs, hc])
        | isFalse hc => isFalse (fun h => hc (by cases h; rfl))
      else isFalse (fun h => hs (by cases h; rfl))
    else isFalse (fun h => ht (by cases h; rfl))

/-- Equality of lists of trees. -/
def ASTNode.decEqList : (a b : List ASTNode) → Decidable (a = b)
  | [], [] => isTrue rfl
  | [], _ :: _ => isFalse (fun h => by cases h)
  | _ :: _, [] => isFalse (fun h => by cases h)
  | x :: xs, y :: ys =>
    match ASTNode.decEq x y with
    | isTrue hx =>
      match ASTNode.decEqList xs ys with
      | isTrue hl => isTrue (by rw [hx, hl])
      | isFalse hl => isFalse (fun h => hl (by cases h; rfl))
    | isFalse hx => isFalse (fun h => hx (by cases h; rfl))

end

instance : DecidableEq ASTNode := ASTNode.decEq

def ASTNode.type : ASTNode → NodeType
  | .mk t _ _ => t

def ASTNode.text : ASTNode → String
  | .mk _ s _ => s

def ASTNode.children : ASTNode → List ASTNode
  | .mk _ _ cs => cs

def ASTNode.child_count (n : ASTNode) : Nat := n.children.length

/-- The global `current_token` and the tokens the lexer has still to deliver. -/
structure PState where
  current_token : Token
  file : List Token
deriving DecidableEq

/-- What a parsing function does: return a value, or stop the run in `error`
(`exit(1)`), or use up the recursion bound of the model. -/
inductive ParseResult (α : Type) where
  | ok (a : α) (p : PState)
  | error (message : String)
  | outOfFuel
deriving DecidableEq

/-- The call `getNextToken(file)` of the parser: the next token of the lexer
becomes `current_token`. -/
def PState.getNextToken (p : PState) : PState :=
  match p.file with
  | [] => ⟨⟨.TOKEN_EOF, ""⟩, []⟩
  | t :: ts => ⟨t, ts⟩

def createNode (type : NodeType) (text : String) : ASTNode := .mk type text []

/-- The function `addChild`: `none` is the call of
`error("Exceeded maximum number of child nodes")`. -/
def addChild (parent child : ASTNode) : Option ASTNode :=
  if parent.child_count < MAX_CHILDREN then
    some (.mk parent.type parent.text (parent.children ++ [child]))
  else none

def parseVarDecl (p : PState) : ParseResult ASTNode :=
  let p1 := p.getNextToken
  if p1.current_token.type ≠ .TOKEN_IDENTIFIER then
    .error "Expected variable name after \x27int\x27"
  else
    let node := createNode .NODE_VAR_DECL p1.current_token.text
    let p2 := p1.getNextToken
    if p2.current_token.type ≠ .TOKEN_SEMICOLON then
      .error "Expected \x27;\x27 after variable declaration"
    else .ok node p2.getNextToken

def parseExpression (p : PState) : ParseResult ASTNode :=
  let node := createNode .NODE_EXPRESSION ""
  if p.current_token.type = .TOKEN_IDENTIFIER ∨ p.current_token.type = .TOKEN_NUMBER then
    match addChild node (createNode .NODE_UNKNOWN p.current_token.text) with
    | none => .error "Exceeded maximum number of child nodes"
    | some node1 =>
      let p1 := p.getNextToken
      if p1.current_token.type = .TOKEN_PLUS ∨ p1.current_token.type = .TOKEN_MINUS then
        match addChild node1 (createNode .NODE_UNKNOWN p1.current_token.text) with
        | none => .error "Exceeded maximum number of child nodes"
        | some node2 =>
          let p2 := p1.getNextToken
          if p2.current_token.type = .TOKEN_IDENTIFIER ∨
              p2.current_token.type = .TOKEN_NUMBER then
            match addChild node2 (createNode .NODE_UNKNOWN p2.current_token.text) with
            | none => .error "Exceeded maximum number of child nodes"
            | some node3 => .ok node3 p2.getNextToken
          else .error "Expected identifier or number after operator"
      else .ok node1 p1
  else .error "Invalid expression"

def parseAssignment (p : PState) : ParseResult ASTNode :=
  let node := createNode .NODE_ASSIGN p.current_token.text
  let p1 := p.getNextToken
  if p1.current_token.type ≠ .TOKEN_ASSIGN then
    .error "Expected \x27=\x27 in assignment"
  else
    match parseExpression p1.getNextToken with
    | .error m => .error m
    | .outOfFuel => .outOfFuel
    | .ok expr p2 =>
      match addChild node expr with
      | none => .error "Exceeded maximum number of child nodes"
      | some node1 =>
        if p2.current_token.type ≠ .TOKEN_SEMICOLON then
          .error "Expected \x27;\x27 after assignment"
        else .ok node1 p2.getNextToken

mutual

/-- The function `parseStatement`; the first argument bounds the recursion. -/
def parseStatement : Nat → PState → ParseResult ASTNode
  | 0, _ => .outOfFuel
  | fuel + 1, p =>
    if p.current_token.type = .TOKEN_INT then parseVarDecl p
    else if p.current_token.type = .TOKEN_IDENTIFIER then parseAssignment p
    else if p.current_token.type = .TOKEN_IF then parseIf fuel p
    else .error "Unexpected token in statement"

/-- The loop `while (type != TOKEN_RBRACE && type != TOKEN_EOF) addChild(block, parseStatement(file));`
of `parseIf`. -/
def parseBlock : Nat → ASTNode → PState → ParseResult ASTNode
  | 0, _, _ => .outOfFuel
  | fuel + 1, block, p =>
    if p.current_token.type ≠ .TOKEN_RBRACE ∧ p.current_token.type ≠ .TOKEN_EOF then
      match parseStatement fuel p with
      | .error m => .error m
      | .outOfFuel => .outOfFuel
      | .ok stmt p1 =>
        match addChild block stmt with
        | none => .error "Exceeded maximum number of child nodes"
        | some block1 => parseBlock fuel block1 p1
    else .ok block p

/-- The function `parseIf`. -/
def parseIf : Nat → PState → ParseResult ASTNode
  | 0, _ => .outOfFuel
  | fuel + 1, p =>
    let node := createNode .NODE_IF "if"
    let p1 := p.getNextToken
    if p1.current_token.type ≠ .TOKEN_LBRACE then
      .error "Expected \x27\x7b\x27 after \x27if\x27"
    else
      match parseBlock fuel (createNode .NODE_BLOCK "Block") p1.getNextToken with
      | .error m => .error m
      | .outOfFuel => .outOfFuel
      | .ok block p2 =>
        if p2.current_token.type ≠ .TOKEN_RBRACE then
          .error "Expected \x27\x7d\x27 at the end of if block"
        else
          match addChild node block with
          | none => .error "Exceeded maximum number of child nodes"
          | some node1 => .ok node1 p2.getNextToken

end

/-- The loop `while (current_token.type != TOKEN_EOF)` of `parseProgram`, with
`root` the tree built so far. -/
def parseProgramLoop : Nat → ASTNode → PState → ParseResult ASTNode
  | 0, _, _ => .outOfFuel
  | fuel + 1, root, p =>
    if p.current_token.type ≠ .TOKEN_EOF then
      match parseStatement fuel p with
      | .error m => .error m
      | .outOfFuel => .outOfFuel
      | .ok stmt p1 =>
        match addChild root stmt with
        | none => .error "Exceeded maximum number of child nodes"
        | some root1 => parseProgramLoop fuel root1 p1
    else .ok root p

/-- The function `parseProgram`. -/
def parseProgram (fuel : Nat) (p : PState) : ParseResult ASTNode :=
  parseProgramLoop fuel (createNode .NODE_PROGRAM "Program") p

/-- The parser run of `main`: the first token is read into `current_token`, then
`parseProgram` runs.  Every round of a loop and every nested call uses up a
token, so a bound of three times the number of tokens plus three is never reached. -/
def parse (toks : List Token) : ParseResult ASTNode :=
  parseProgram (3 * toks.length + 3) (PState.getNextToken ⟨⟨.TOKEN_INT, ""⟩, toks⟩)

/-! ## Code generator (`AssemblyCode.c`) -/

structure Symbol where
  name : String
  address : Nat
deriving DecidableEq

/-- The globals of a generation run: `symbol_table` holds the first
`symbol_count` entries of the C array, `label_count` is the static counter of
the `NODE_IF` case and `output` the lines printed by `emit`, oldest first. -/
structure GenState where
  symbol_table : List Symbol
  label_count : Nat
  output : List String
deriving DecidableEq

/-- How a call of `generateCode` ends: it returns (`ok`), or it prints one of the
three error messages and calls `exit(1)`, or it runs into undefined behaviour:
it reads a child slot that was never written, or writes past the 100 slots of
`symbol_table` or past the 50 bytes of `instruction`. -/
inductive Outcome where
  | ok
  | undefinedVariable (name : String)
  | unsupportedOperator (text : String)
  | unknownNode
  | undefinedBehaviour
deriving DecidableEq

def GenState.symbol_count (s : GenState) : Nat := s.symbol_table.length

/-- The function `emit`: one more line on the standard output. -/
def emit (instruction : String) (s : GenState) : GenState :=
  { s with output := s.output ++ [instruction] }

/-- The function `getSymbolAddress`: the address of the first entry with the
name, `none` where the C code reports the undefined variable and exits. -/
def getSymbolAddress : List Symbol → String → Option Nat
  | [], _ => none
  | sym :: rest, name =>
    if sym.name = name then some sym.address else getSymbolAddress rest name

/-- The function `addSymbol`: the new entry takes the slot `symbol_count` and
the address `symbol_count`.  The array is `Symbol symbol_table[100]` and the
function does not compare `symbol_count` with 100: with 100 entries in the table
the write goes past the array, which is `none` here. -/
def addSymbol (table : List Symbol) (name : String) : Option (List Symbol) :=
  if table.length < 100 then some (table ++ [⟨name, table.length⟩]) else none

/-- The test `isdigit(text[0])`; the first byte of the empty text is NUL. -/
def firstIsDigit (text : String) : Bool :=
  match text.data with
  | [] => false
  | c :: _ => isdigit c

/-- Sequencing: what follows a call is run only when the call has returned; after
an `exit(1)` or a read of an unwritten slot the run is over. -/
def andThen (r : Outcome × GenState) (k : GenState → Outcome × GenState) :
    Outcome × GenState :=
  match r.1 with
  | .ok => k r.2
  | _ => r

mutual

/-- The function `generateCode`.  The tree is never `NULL` here: the parser
stores no `NULL` child.  In the one-child `NODE_EXPRESSION` case the line
`LOADI R0, ` with the operand text is built in `char instruction[50]`: ten bytes,
the text and the closing NUL have to fit. -/
def generateCode : ASTNode → GenState → Outcome × GenState
  | .mk .NODE_PROGRAM _ children, s => generateChildren children s
  | .mk .NODE_VAR_DECL text _, s =>
    match addSymbol s.symbol_table text with
    | none => (.undefinedBehaviour, s)
    | some table => (.ok, { s with symbol_table := table })
  | .mk .NODE_ASSIGN text children, s =>
    match getSymbolAddress s.symbol_table text with
    | none => (.undefinedVariable text, s)
    | some address =>
      match children with
      | [] => (.undefinedBehaviour, s)
      | c :: _ =>
        andThen (generateCode c s) fun s1 =>
          (.ok, emit ("STORE R0, " ++ toString address) s1)
  | .mk .NODE_EXPRESSION _ [c], s =>
    if firstIsDigit c.text then
      if 10 + c.text.length + 1 ≤ 50 then (.ok, emit ("LOADI R0, " ++ c.text) s)
      else (.undefinedBehaviour, s)
    else
      match getSymbolAddress s.symbol_table c.text with
      | none => (.undefinedVariable c.text, s)
      | some address => (.ok, emit ("LOAD R0, " ++ toString address) s)
  | .mk .NODE_EXPRESSION _ [l, op, r], s =>
    andThen (generateCode l s) fun s1 =>
      andThen (generateCode r (emit "PUSH R0" s1)) fun s2 =>
        let s3 := emit "POP R1" s2
        if op.text = "+" then (.ok, emit "ADD R0, R1" s3)
        else if op.text = "-" then (.ok, emit "SUB R0, R1" s3)
        else (.unsupportedOperator op.text, s3)
  | .mk .NODE_EXPRESSION _ _, s => (.ok, s)
  | .mk .NODE_IF _ [], s => (.undefinedBehaviour, s)
  | .mk .NODE_IF _ (c :: rest), s =>
    andThen (generateCode c s) fun s1 =>
      let s2 := emit "CMP R0, 1" s1
      let label := "LABEL_" ++ toString s2.label_count
      let s3 := emit ("JNE " ++ label) { s2 with label_count := s2.label_count + 1 }
      match rest with
      | [] => (.undefinedBehaviour, s3)
      | b :: _ => andThen (generateCode b s3) fun s4 => (.ok, emit label s4)
  | .mk .NODE_BLOCK _ children, s => generateChildren children s
  | .mk .NODE_UNKNOWN _ _, s => (.unknownNode, s)

/-- The loop `for (i = 0; i < node->child_count; i++) generateCode(node->children[i]);`. -/
def generateChildren : List ASTNode → GenState → Outcome × GenState
  | [], s => (.ok, s)
  | c :: cs, s => andThen (generateCode c s) fun s1 => generateChildren cs s1

end

/-- The state in which a generation run starts: `symbol_count = 0`,
`label_count = 0`, nothing printed. -/
def GenState.init : GenState := ⟨[], 0, []⟩

/-- The pipeline: the lexer feeds the parser, and the tree, when there is one,
is handed to `generateCode` in the initial state. -/
def compile (source : String) : Option (Outcome × GenState) :=
  match parse (tokens source.data) with
  | .ok tree _ => some (generateCode tree GenState.init)
  | _ => none

/-! ## Notions used to state the properties -/

/-- The primitive effects of the generator on its state: one per place where
`generateCode` prints a line, enters a symbol or takes a label. -/
inductive Step : GenState → GenState → Prop where
  | declare (s : GenState) (text : String) (room : s.symbol_table.length < 100) :
      Step s { s with symbol_table := s.symbol_table ++ [⟨text, s.symbol_table.length⟩] }
  | store (s : GenState) (address : Nat) : Step s (emit ("STORE R0, " ++ toString address) s)
  | loadi (s : GenState) (text : String) : Step s (emit ("LOADI R0, " ++ text) s)
  | load (s : GenState) (address : Nat) : Step s (emit ("LOAD R0, " ++ toString address) s)
  | push (s : GenState) : Step s (emit "PUSH R0" s)
  | pop (s : GenState) : Step s (emit "POP R1" s)
  | add (s : GenState) : Step s (emit "ADD R0, R1" s)
  | sub (s : GenState) : Step s (emit "SUB R0, R1" s)
  | cmp (s : GenState) : Step s (emit "CMP R0, 1" s)
  | jump (s : GenState) :
      Step s (emit ("JNE " ++ ("LABEL_" ++ toString s.label_count))
        { s with label_count := s.label_count + 1 })
  | mark (s : GenState) (k : Nat) : Step s (emit ("LABEL_" ++ toString k) s)

/-- The state `t` is reached from `s` by primitive effects. -/
def Steps (s t : GenState) : Prop := Relation.ReflTransGen Step s t

/-- A line is a conditional jump when it starts with `JNE ` . -/
def isJump (line : String) : Bool := line.data.take 4 == ['J', 'N', 'E', ' ']

/-- The conditional jumps of an output, in the order in which they were printed. -/
def jumpLines (output : List String) : List String := output.filter isJump

mutual

/-- The node itself and all nodes below it. -/
def ASTNode.nodes : ASTNode → List ASTNode
  | .mk type text children => .mk type text children :: nodesOfList children

/-- The nodes of the trees of a list. -/
def nodesOfList : List ASTNode → List ASTNode
  | [] => []
  | c :: cs => c.nodes ++ nodesOfList cs

end

/-- The state of the parser in front of a token sequence: its first token is
`current_token`, or `TOKEN_EOF` when there is none. -/
def feed (toks : List Token) : PState :=
  match toks with
  | [] => ⟨⟨.TOKEN_EOF, ""⟩, []⟩
  | t :: ts => ⟨t, ts⟩

/-! ### The grammar of the language, as the specification writes it

`Program := Statement* EOF`, `Statement := VarDecl | Assignment | IfStmt`,
`VarDecl := 'int' IDENTIFIER ';'`, `Assignment := IDENTIFIER '=' Expression ';'`,
`Expression := Operand (('+' | '-') Operand)?`, `Operand := IDENTIFIER | NUMBER`,
`IfStmt := 'if' '{' Statement* '}'`.  A derivation is a value of `Grammar.Statement`
(a list of them for a program); `tokens` is the token sequence it derives and
`tree` the tree the specification attaches to it. -/

namespace Grammar

inductive Operand where
  | identifier (name : String)
  | number (digits : String)

inductive Operator where
  | plus
  | minus

inductive Expression where
  | single (a : Operand)
  | binary (a : Operand) (op : Operator) (b : Operand)

inductive Statement where
  | varDecl (name : String)
  | assignment (target : String) (e : Expression)
  | ifStmt (body : List Statement)

def Operand.token : Operand → Token
  | .identifier name => ⟨.TOKEN_IDENTIFIER, name⟩
  | .number digits => ⟨.TOKEN_NUMBER, digits⟩

def Operator.token : Operator → Token
  | .plus => ⟨.TOKEN_PLUS, "+"⟩
  | .minus => ⟨.TOKEN_MINUS, "-"⟩

def Expression.tokens : Expression → List Token
  | .single a => [a.token]
  | .binary a op b => [a.token, op.token, b.token]

mutual

/-- The token sequence a statement derives. -/
def Statement.tokens : Statement → List Token
  | .varDecl name => [⟨.TOKEN_INT, "int"⟩, ⟨.TOKEN_IDENTIFIER, name⟩, ⟨.TOKEN_SEMICOLON, ";"⟩]
  | .assignment target e =>
    ⟨.TOKEN_IDENTIFIER, target⟩ :: ⟨.TOKEN_ASSIGN, "="⟩ :: (e.tokens ++ [⟨.TOKEN_SEMICOLON, ";"⟩])
  | .ifStmt body =>
    ⟨.TOKEN_IF, "if"⟩ :: ⟨.TOKEN_LBRACE, "\x7b"⟩ :: (tokensOfList body ++ [⟨.TOKEN_RBRACE, "\x7d"⟩])

/-- The token sequence a sequence of statements derives. -/
def tokensOfList : List Statement → List Token
  | [] => []
  | st :: sts => st.tokens ++ tokensOfList sts

end

/-- The Expression node of an expression: one operand leaf, or operand, operator
and operand leaves. -/
def Expression.tree : Expression → ASTNode
  | .single a => .mk .NODE_EXPRESSION "" [.mk .NODE_UNKNOWN a.token.text []]
  | .binary a op b =>
    .mk .NODE_EXPRESSION ""
      [.mk .NODE_UNKNOWN a.token.text [], .mk .NODE_UNKNOWN op.token.text [],
       .mk .NODE_UNKNOWN b.token.text []]

mutual

/-- The node of a statement: a VarDecl with the name, an Assign with the target and
the Expression as only child, an If whose only child is the Block of the nested
statements. -/
def Statement.tree : Statement → ASTNode
  | .varDecl name => .mk .NODE_VAR_DECL name []
  | .assignment target e => .mk .NODE_ASSIGN target [e.tree]
  | .ifStmt body => .mk .NODE_IF "if" [.mk .NODE_BLOCK "Block" (treesOfList body)]

/-- The nodes of a sequence of statements, in order. -/
def treesOfList : List Statement → List ASTNode
  | [] => []
  | st :: sts => st.tree :: treesOfList sts

end

mutual

/-- No `if` block of the statement, at any depth, holds more than `k` statements. -/
def Statement.Fits (k : Nat) : Statement → Prop
  | .varDecl _ => True
  | .assignment _ _ => True
  | .ifStmt body => body.length ≤ k ∧ FitsList k body

/-- Every statement of the sequence fits. -/
def FitsList (k : Nat) : List Statement → Prop
  | [] => True
  | st :: sts => st.Fits k ∧ FitsList k sts

end

end Grammar

/-- The texts the lexer gives to the operator tokens: a `TOKEN_PLUS` token reads `+`
and a `TOKEN_MINUS` token reads `-`. -/
def Token.OperatorText (t : Token) : Prop :=
  (t.type = .TOKEN_PLUS → t.text = "+") ∧ (t.type = .TOKEN_MINUS → t.text = "-")

/-- The current token and the tokens still to come are tokens as the lexer forms
them. -/
def PState.Lexed (p : PState) : Prop :=
  p.current_token.OperatorText ∧ ∀ t ∈ p.file, t.OperatorText

/-- The shape of an Expression node: one child, or three children of which the
middle one reads `+` or `-`. -/
def ASTNode.ExpressionShape (n : ASTNode) : Prop :=
  n.child_count = 1 ∨
  (n.child_count = 3 ∧ ∃ l op r, n.children = [l, op, r] ∧ (op.text = "+" ∨ op.text = "-"))

/-- The lines a call of `generateCode` prints: what its output has more than the
output it started with. -/
def emitted (node : ASTNode) (s : GenState) : List String :=
  (generateCode node s).2.output.drop s.output.length

/-- The state of the `NODE_IF` case once the condition has left the state `s1`:
`CMP R0, 1` is printed, the label `LABEL_k` with `k` the counter of `s1` is taken,
the counter is advanced and the jump to the label is printed. -/
def afterJump (s1 : GenState) : GenState :=
  emit ("JNE " ++ ("LABEL_" ++ toString (emit "CMP R0, 1" s1).label_count))
    { emit "CMP R0, 1" s1 with label_count := (emit "CMP R0, 1" s1).label_count + 1 }

/-- The names of the `NODE_VAR_DECL` nodes of a list of nodes, in order. -/
def declaredIn (nodes : List ASTNode) : List String :=
  nodes.filterMap fun n => if n.type = .NODE_VAR_DECL then some n.text else none

/-- The names declared in a tree, in the order of its nodes. -/
def ASTNode.declaredNames (node : ASTNode) : List String := declaredIn node.nodes

/-- From `s` to `t` the table has taken entries whose names are, in order, some of
the names `D`. -/
def Declares (D : List String) (s t : GenState) : Prop :=
  ∃ names : List String, names.Sublist D ∧
    t.symbol_table.map Symbol.name = s.symbol_table.map Symbol.name ++ names

/-! ### The output vocabulary, as the specification writes it

`LOADI Rd, imm | LOAD Rd, addr | STORE Rd, addr | PUSH Rd | POP Rd | ADD Rd, Rs |
SUB Rd, Rs | CMP Rd, imm | JNE label | label:`, with the registers `R0` and `R1`,
decimal numbers for `imm` and `addr`, and the labels `LABEL_0`, `LABEL_1`, ... -/

namespace Vocabulary

end Vocabulary

/-- The lines `generateCode` prints: the load-immediate of an operand text that
begins with a digit and fits the buffer, the load and the store of an address, the
five fixed lines, the jump to a label and the label on a line of its own. -/
inductive EmittedLine : String → Prop where
  | loadi (text : String) : firstIsDigit text = true → 10 + text.length + 1 ≤ 50 →
      EmittedLine ("LOADI R0, " ++ text)
  | load (address : Nat) : EmittedLine ("LOAD R0, " ++ toString address)
  | store (address : Nat) : EmittedLine ("STORE R0, " ++ toString address)
  | push : EmittedLine "PUSH R0"
  | pop : EmittedLine "POP R1"
  | add : EmittedLine "ADD R0, R1"
  | sub : EmittedLine "SUB R0, R1"
  | cmp : EmittedLine "CMP R0, 1"
  | jne (k : Nat) : EmittedLine ("JNE LABEL_" ++ toString k)
  | label (k : Nat) : EmittedLine ("LABEL_" ++ toString k)

/-- From `s` to `t` the output has only grown, by lines that `generateCode` prints. -/
def Prints (s t : GenState) : Prop :=
  ∃ lines : List String, t.output = s.output ++ lines ∧ ∀ l ∈ lines, EmittedLine l

/-- The text the lexer gives to the tokens of a kind that has one text only. -/
def fixedText : TokenType → Option String
  | .TOKEN_INT => some "int"
  | .TOKEN_IF => some "if"
  | .TOKEN_ASSIGN => some "="
  | .TOKEN_PLUS => some "+"
  | .TOKEN_MINUS => some "-"
  | .TOKEN_EQUAL => some "=="
  | .TOKEN_LBRACE => some "\x7b"
  | .TOKEN_RBRACE => some "\x7d"
  | .TOKEN_SEMICOLON => some ";"
  | _ => none

/-- A token as the lexer delivers it before the end of the file: it is not
`TOKEN_EOF`, and a keyword, operator or punctuation token carries its text. -/
def Token.lexical (t : Token) : Bool :=
  t.type != .TOKEN_EOF &&
    match fixedText t.type with
    | some s => t.text == s
    | none => true

/-- In the token sequence `l`, what comes after a token with the property `p` has
the property `q`. -/
def Follows (p : Token → Prop) (q : List Token → Prop) (l : List Token) : Prop :=
  ∀ (A : List Token) (o : Token) (B : List Token), l = A ++ o :: B → p o → q B

/-- The token is an operator. -/
def Token.isOperator (t : Token) : Prop := t.type = .TOKEN_PLUS ∨ t.type = .TOKEN_MINUS

/-- The token is an operand. -/
def Token.isOperand (t : Token) : Prop :=
  t.type = .TOKEN_IDENTIFIER ∨ t.type = .TOKEN_NUMBER

/-- The tokens begin with a `TOKEN_LBRACE`. -/
def StartsWithBrace (B : List Token) : Prop :=
  ∃ b B', B = b :: B' ∧ b.type = .TOKEN_LBRACE

/-- The second of the tokens is a `TOKEN_SEMICOLON`. -/
def SemicolonSecond (B : List Token) : Prop :=
  ∃ y z B', B = y :: z :: B' ∧ z.type = .TOKEN_SEMICOLON

/-- No node of the tree has more than three children. -/
def ASTNode.Small (n : ASTNode) : Prop := ∀ m ∈ n.nodes, m.child_count ≤ 3

/-- What the generator is running: `generateCode` on a node, or the loop
`for (i = 0; i < node->child_count; i++) generateCode(node->children[i]);` of a
`NODE_PROGRAM` or `NODE_BLOCK` node on the children still to come. -/
inductive Run where
  | node (n : ASTNode)
  | children (cs : List ASTNode)

/-- The outcome and the state in which a run started in the state `s` ends. -/
def Run.result : Run → GenState → Outcome × GenState
  | .node n, s => generateCode n s
  | .children cs, s => generateChildren cs s

/-- The calls of `generateCode` made in a run: `Calls run s p m t` says that the
run started in the state `s` calls `generateCode` on the node `m`, the node at the
position `p`, in the state `t`.  A position is the list of the child indices that
lead from the root of the run to the node; in a loop the first index counts from the
child the loop starts with.  There is one rule for the call that is the run itself
and one for each place where `generateCode` calls itself; a call is made only when
the calls before it have returned: the right operand is generated after `PUSH R0`,
the second child of a `NODE_IF` node after the jump, a later child of a loop in the
state the earlier one has left. -/
inductive Calls : Run → GenState → List Nat → ASTNode → GenState → Prop where
  | self (n : ASTNode) (s : GenState) : Calls (.node n) s [] n s
  | program {text : String} {cs : List ASTNode} {s : GenState} {p : List Nat} {m : ASTNode}
      {t : GenState} :
      Calls (.children cs) s p m t → Calls (.node (.mk .NODE_PROGRAM text cs)) s p m t
  | block {text : String} {cs : List ASTNode} {s : GenState} {p : List Nat} {m : ASTNode}
      {t : GenState} :
      Calls (.children cs) s p m t → Calls (.node (.mk .NODE_BLOCK text cs)) s p m t
  | assign {text : String} {c : ASTNode} {rest : List ASTNode} {s : GenState} {address : Nat}
      {p : List Nat} {m : ASTNode} {t : GenState} :
      getSymbolAddress s.symbol_table text = some address →
      Calls (.node c) s p m t → Calls (.node (.mk .NODE_ASSIGN text (c :: rest))) s (0 :: p) m t
  | left {text : String} {l op r : ASTNode} {s : GenState} {p : List Nat} {m : ASTNode}
      {t : GenState} :
      Calls (.node l) s p m t →
      Calls (.node (.mk .NODE_EXPRESSION text [l, op, r])) s (0 :: p) m t
  | right {text : String} {l op r : ASTNode} {s s1 : GenState} {p : List Nat} {m : ASTNode}
      {t : GenState} :
      generateCode l s = (.ok, s1) → Calls (.node r) (emit "PUSH R0" s1) p m t →
      Calls (.node (.mk .NODE_EXPRESSION text [l, op, r])) s (2 :: p) m t
  | condition {text : String} {c : ASTNode} {rest : List ASTNode} {s : GenState}
      {p : List Nat} {m : ASTNode} {t : GenState} :
      Calls (.node c) s p m t → Calls (.node (.mk .NODE_IF text (c :: rest))) s (0 :: p) m t
  | ifBlock {text : String} {c b : ASTNode} {rest : List ASTNode} {s s1 : GenState}
      {p : List Nat} {m : ASTNode} {t : GenState} :
      generateCode c s = (.ok, s1) → Calls (.node b) (afterJump s1) p m t →
      Calls (.node (.mk .NODE_IF text (c :: b :: rest))) s (1 :: p) m t
  | first {c : ASTNode} {cs : List ASTNode} {s : GenState} {p : List Nat} {m : ASTNode}
      {t : GenState} :
      Calls (.node c) s p m t → Calls (.children (c :: cs)) s (0 :: p) m t
  | later {c : ASTNode} {cs : List ASTNode} {s s1 : GenState} {i : Nat} {p : List Nat}
      {m : ASTNode} {t : GenState} :
      generateCode c s = (.ok, s1) → Calls (.children cs) s1 (i :: p) m t →
      Calls (.children (c :: cs)) s ((i + 1) :: p) m t

/-- The `NODE_IF` node `m`, on which `generateCode` is called in the state `t`,
receives the label `LABEL_k`: its first child returns with the counter at `k`, and
`sprintf(label, "LABEL_%d", label_count++)` takes that number. -/
def ReceivesLabel (m : ASTNode) (t : GenState) (k : Nat) : Prop :=
  ∃ (text : String) (c : ASTNode) (rest : List ASTNode) (t1 : GenState),
    m = .mk .NODE_IF text (c :: rest) ∧ generateCode c t = (.ok, t1) ∧ k = t1.label_count

/-- C1 (as stated it fails): the text is not compiled to the eight instructions. -/
theorem C1_roundtrip_rejected :
    ¬ ∃ s : GenState, compile "int a; int b; a = 5; b = a + 3;" = some (.ok, s) ∧
      s.output = ["LOADI R0, 5", "STORE R0, 0", "LOAD R0, 0", "PUSH R0", "LOADI R0, 3",
        "POP R1", "ADD R0, R1", "STORE R0, 1"] := by
  have h : compile "int a; int b; a = 5; b = a + 3;" = none := by decide
  rintro ⟨s, hs, -⟩
  rw [h] at hs
  cases hs

/-- C1 (amended): the four statements are one more than a Program node can hold, so
the parser stops with the syntax error of `addChild` and no tree reaches the
generator; the first three statements compile, with nothing emitted for the two
declarations and a load-immediate and a store to address 0 for `a = 5`. -/
theorem C1_roundtrip_amended :
    parse (tokens "int a; int b; a = 5; b = a + 3;".data)
        = .error "Exceeded maximum number of child nodes" ∧
      compile "int a; int b; a = 5; b = a + 3;" = none ∧
      compile "int a; int b; a = 5;"
        = some (.ok, ⟨[⟨"a", 0⟩, ⟨"b", 1⟩], 0, ["LOADI R0, 5", "STORE R0, 0"]⟩) := by
  refine ⟨?_, ?_, ?_⟩ <;> decide

/-- What `parseExpression` returns: one operand leaf, or operand, operator and
operand leaves, the texts being those of the tokens read. -/
theorem parseExpression_ok {p p' : PState} {node : ASTNode}
    (h : parseExpression p = .ok node p') :
    (node = .mk .NODE_EXPRESSION "" [.mk .NODE_UNKNOWN p.current_token.text []] ∧
        p' = p.getNextToken) ∨
    (node = .mk .NODE_EXPRESSION ""
        [.mk .NODE_UNKNOWN p.current_token.text [],
         .mk .NODE_UNKNOWN p.getNextToken.current_token.text [],
         .mk .NODE_UNKNOWN p.getNextToken.getNextToken.current_token.text []] ∧
      (p.getNextToken.current_token.type = .TOKEN_PLUS ∨
        p.getNextToken.current_token.type = .TOKEN_MINUS) ∧
      p' = p.getNextToken.getNextToken.getNextToken) := by
  unfold parseExpression at h
  simp only [addChild, createNode, ASTNode.child_count, ASTNode.children, ASTNode.type,
    ASTNode.text, MAX_CHILDREN, List.length_nil, List.nil_append, List.length_cons,
    List.cons_append, Nat.lt_irrefl, show (0 < 3) from by decide, show (0 + 1 < 3) from by decide,
    show (0 + 1 + 1 < 3) from by decide, if_true] at h
  split_ifs at h with h1 h2 h4
  · right
    cases h
    exact ⟨rfl, h2, rfl⟩
  · left
    cases h
    exact ⟨rfl, rfl⟩

/-- C2 (the code fails it): an Expression node that `parseExpression` builds with
three children has `NODE_UNKNOWN` leaves as operands, and `generateCode` called on
the left one ends in the unknown-node error before anything is emitted. -/
theorem C2_binary_expression_unknown_node (p p' : PState) (node : ASTNode)
    (h : parseExpression p = .ok node p') (h3 : node.child_count = 3) (s : GenState) :
    generateCode node s = (.unknownNode, s) := by
  rcases parseExpression_ok h with ⟨rfl, -⟩ | ⟨rfl, -, -⟩
  · simp [ASTNode.child_count, ASTNode.children] at h3
  · simp [generateCode, andThen]

theorem C2_binary_expression_unknown_node_witness :
    generateCode (.mk .NODE_EXPRESSION ""
        [.mk .NODE_UNKNOWN "a" [], .mk .NODE_UNKNOWN "+" [], .mk .NODE_UNKNOWN "3" []])
      ⟨[⟨"a", 0⟩], 0, []⟩ = (.unknownNode, ⟨[⟨"a", 0⟩], 0, []⟩) :=
  C2_binary_expression_unknown_node
    ⟨⟨.TOKEN_IDENTIFIER, "a"⟩, [⟨.TOKEN_PLUS, "+"⟩, ⟨.TOKEN_NUMBER, "3"⟩, ⟨.TOKEN_SEMICOLON, ";"⟩]⟩
    ⟨⟨.TOKEN_SEMICOLON, ";"⟩, []⟩ _ (by decide) (by decide) _

theorem getSymbolAddress_eq_none {table : List Symbol} {name : String}
    (h : ∀ sym ∈ table, sym.name ≠ name) : getSymbolAddress table name = none := by
  induction table with
  | nil => rfl
  | cons sym rest ih =>
    simp only [getSymbolAddress]
    rw [if_neg (h sym (List.mem_cons_self _ _))]
    exact ih fun x hx => h x (List.mem_cons_of_mem _ hx)

/-- C5: an Assign node whose target is not in the symbol table ends the run with the
undefined-variable error, and the state, the output with it, is the one before. -/
theorem C5_assign_undeclared (text : String) (children : List ASTNode) (s : GenState)
    (h : ∀ sym ∈ s.symbol_table, sym.name ≠ text) :
    generateCode (.mk .NODE_ASSIGN text children) s = (.undefinedVariable text, s) := by
  simp [generateCode, getSymbolAddress_eq_none h]

theorem C5_assign_undeclared_witness :
    generateCode (.mk .NODE_ASSIGN "x"
        [.mk .NODE_EXPRESSION "" [.mk .NODE_UNKNOWN "1" []]]) ⟨[⟨"a", 0⟩], 0, ["PUSH R0"]⟩
      = (.undefinedVariable "x", ⟨[⟨"a", 0⟩], 0, ["PUSH R0"]⟩) :=
  C5_assign_undeclared "x" _ ⟨[⟨"a", 0⟩], 0, ["PUSH R0"]⟩ (by decide)

/-- C6 (as stated it fails): with the operator `*` the two operands are loaded,
pushed and popped before the error is raised. -/
theorem C6_operator_checked_last :
    generateCode (.mk .NODE_EXPRESSION ""
        [.mk .NODE_EXPRESSION "" [.mk .NODE_UNKNOWN "1" []], .mk .NODE_UNKNOWN "*" [],
         .mk .NODE_EXPRESSION "" [.mk .NODE_UNKNOWN "2" []]]) GenState.init
      = (.unsupportedOperator "*",
          ⟨[], 0, ["LOADI R0, 1", "PUSH R0", "LOADI R0, 2", "POP R1"]⟩) := by
  decide

theorem andThen_ok (s : GenState) (k : GenState → Outcome × GenState) :
    andThen (.ok, s) k = k s := rfl

theorem andThen_fail {r : Outcome × GenState} (h : r.1 ≠ .ok)
    (k : GenState → Outcome × GenState) : andThen r k = r := by
  obtain ⟨o, s⟩ := r
  cases o <;> first | rfl | exact absurd rfl h

/-- C6 (amended): a three-child Expression node whose operator is neither `+` nor
`-` never generates successfully.  A failing operand ends the run with its own
error; when both operands generate, the unsupported-operator error comes after the
left code, `PUSH R0`, the right code and `POP R1`, and no `ADD` or `SUB` follows. -/
theorem C6_unsupported_operator (t : String) (l op r : ASTNode) (s : GenState)
    (hplus : op.text ≠ "+") (hminus : op.text ≠ "-") :
    (generateCode (.mk .NODE_EXPRESSION t [l, op, r]) s).1 ≠ .ok ∧
    ((generateCode l s).1 ≠ .ok →
      generateCode (.mk .NODE_EXPRESSION t [l, op, r]) s = generateCode l s) ∧
    (∀ s1, generateCode l s = (.ok, s1) →
      (generateCode r (emit "PUSH R0" s1)).1 ≠ .ok →
      generateCode (.mk .NODE_EXPRESSION t [l, op, r]) s
        = generateCode r (emit "PUSH R0" s1)) ∧
    (∀ s1 s2, generateCode l s = (.ok, s1) →
      generateCode r (emit "PUSH R0" s1) = (.ok, s2) →
      generateCode (.mk .NODE_EXPRESSION t [l, op, r]) s
        = (.unsupportedOperator op.text, emit "POP R1" s2)) := by
  have key : ∀ s1 s2, generateCode l s = (.ok, s1) →
      generateCode r (emit "PUSH R0" s1) = (.ok, s2) →
      generateCode (.mk .NODE_EXPRESSION t [l, op, r]) s
        = (.unsupportedOperator op.text, emit "POP R1" s2) := by
    intro s1 s2 h1 h2
    simp [generateCode, h1, h2, andThen_ok, hplus, hminus]
  have left : (generateCode l s).1 ≠ .ok →
      generateCode (.mk .NODE_EXPRESSION t [l, op, r]) s = generateCode l s := by
    intro h
    simp only [generateCode]
    exact andThen_fail h _
  have right : ∀ s1, generateCode l s = (.ok, s1) →
      (generateCode r (emit "PUSH R0" s1)).1 ≠ .ok →
      generateCode (.mk .NODE_EXPRESSION t [l, op, r]) s
        = generateCode r (emit "PUSH R0" s1) := by
    intro s1 h1 h
    simp only [generateCode, h1, andThen_ok]
    exact andThen_fail h _
  refine ⟨?_, left, right, key⟩
  by_cases hl : (generateCode l s).1 = .ok
  · obtain ⟨s1, h1⟩ : ∃ s1, generateCode l s = (.ok, s1) := ⟨_, Prod.ext hl rfl⟩
    by_cases hr : (generateCode r (emit "PUSH R0" s1)).1 = .ok
    · obtain ⟨s2, h2⟩ : ∃ s2, generateCode r (emit "PUSH R0" s1) = (.ok, s2) :=
        ⟨_, Prod.ext hr rfl⟩
      rw [key s1 s2 h1 h2]
      simp
    · rw [right s1 h1 hr]
      exact hr
  · rw [left hl]
    exact hl

theorem C6_unsupported_operator_witness :
    generateCode (.mk .NODE_EXPRESSION ""
        [.mk .NODE_EXPRESSION "" [.mk .NODE_UNKNOWN "1" []], .mk .NODE_UNKNOWN "*" [],
         .mk .NODE_EXPRESSION "" [.mk .NODE_UNKNOWN "2" []]]) GenState.init
      = (.unsupportedOperator "*",
          emit "POP R1" ⟨[], 0, ["LOADI R0, 1", "PUSH R0", "LOADI R0, 2"]⟩) :=
  (C6_unsupported_operator "" (.mk .NODE_EXPRESSION "" [.mk .NODE_UNKNOWN "1" []])
    (.mk .NODE_UNKNOWN "*" []) (.mk .NODE_EXPRESSION "" [.mk .NODE_UNKNOWN "2" []])
    GenState.init (by decide) (by decide)).2.2.2 ⟨[], 0, ["LOADI R0, 1"]⟩
    ⟨[], 0, ["LOADI R0, 1", "PUSH R0", "LOADI R0, 2"]⟩ (by decide) (by decide)

theorem isalpha_not_isspace {c : Char} (h : isalpha c = true) : isspace c = false := by
  simp only [isalpha, Char.isAlpha, Char.isUpper, Char.isLower, Bool.or_eq_true,
    Bool.and_eq_true, decide_eq_true_eq] at h
  simp only [isspace, Bool.or_eq_false_iff, Bool.and_eq_false_iff, beq_eq_false_iff_ne,
    decide_eq_false_iff_not, ne_eq]
  have h' : (65 ≤ c.toNat ∧ c.toNat ≤ 90) ∨ (97 ≤ c.toNat ∧ c.toNat ≤ 122) := by
    rcases h with ⟨h1, h2⟩ | ⟨h1, h2⟩
    · left; exact ⟨h1, h2⟩
    · right; exact ⟨h1, h2⟩
  constructor
  · rintro rfl
    revert h'
    decide
  · omega

/-- The run loop on a run of accepted characters that ends at the end of the file
or before a character that is not accepted: the buffer takes the characters for
which it has room, the file is left at the end of the run. -/
theorem readRun_run (p : Char → Bool) (run : List Char) :
    ∀ (text rest : List Char), (∀ x ∈ run, p x = true) →
      (∀ x, rest.head? = some x → p x = false) →
      readRun p text (run ++ rest)
        = (text ++ run.take (MAX_TOKEN_LEN - 1 - text.length), rest) := by
  induction run with
  | nil =>
    intro text rest _ hrest
    cases rest with
    | nil => simp [readRun]
    | cons d rest =>
      have := hrest d rfl
      simp [readRun, this]
  | cons x run ih =>
    intro text rest hrun hrest
    have hx : p x = true := hrun x (List.mem_cons_self _ _)
    have hrun' : ∀ y ∈ run, p y = true := fun y hy => hrun y (List.mem_cons_of_mem _ hy)
    rw [List.cons_append, readRun, if_pos hx, ih _ rest hrun' hrest]
    by_cases hlen : text.length < MAX_TOKEN_LEN - 1
    · simp only [hlen, if_true, List.length_append, List.length_singleton]
      have : MAX_TOKEN_LEN - 1 - text.length = (MAX_TOKEN_LEN - 1 - (text.length + 1)) + 1 := by
        omega
      rw [this, List.take_succ_cons]
      simp
    · simp only [hlen, if_false]
      have : MAX_TOKEN_LEN - 1 - text.length = 0 := by omega
      rw [this]
      simp

theorem getNextToken_skip (ws : List Char) (hws : ∀ c ∈ ws, isspace c = true)
    (file : List Char) : getNextToken (ws ++ file) = getNextToken file := by
  induction ws with
  | nil => rfl
  | cons c ws ih =>
    have hc : isspace c = true := hws c (List.mem_cons_self _ _)
    rw [List.cons_append, getNextToken, if_pos hc]
    exact ih fun x hx => hws x (List.mem_cons_of_mem _ hx)

/-- C7: a letter followed by a maximal run of letters and digits, at most 99
characters in all, is one token whose text is the run; it is `TOKEN_INT` exactly
when the text is `int`, `TOKEN_IF` exactly when it is `if`, and
`TOKEN_IDENTIFIER` otherwise, and the file is left at the end of the run. -/
theorem C7_identifier_or_keyword (c : Char) (run rest : List Char)
    (hc : isalpha c = true) (hrun : ∀ x ∈ run, isalnum x = true)
    (hrest : ∀ x, rest.head? = some x → isalnum x = false)
    (hlen : (c :: run).length ≤ 99) :
    (getNextToken (c :: run ++ rest)).2 = rest ∧
    (getNextToken (c :: run ++ rest)).1.text = String.mk (c :: run) ∧
    ((getNextToken (c :: run ++ rest)).1.type = .TOKEN_INT ↔ String.mk (c :: run) = "int") ∧
    ((getNextToken (c :: run ++ rest)).1.type = .TOKEN_IF ↔ String.mk (c :: run) = "if") ∧
    ((getNextToken (c :: run ++ rest)).1.type = .TOKEN_IDENTIFIER ↔
      (String.mk (c :: run) ≠ "int" ∧ String.mk (c :: run) ≠ "if")) := by
  have hr : readRun isalnum [c] (run ++ rest) = (c :: run, rest) := by
    rw [readRun_run isalnum run [c] rest hrun hrest]
    have : run.length ≤ MAX_TOKEN_LEN - 1 - [c].length := by
      simp only [List.length_cons, List.length_nil, MAX_TOKEN_LEN] at hlen ⊢
      omega
    rw [List.take_of_length_le this]
    rfl
  have hne : ("int" : String) ≠ "if" := by decide
  rw [List.cons_append, getNextToken, if_neg (by rw [isalpha_not_isspace hc]; simp), if_pos hc]
  simp only [hr]
  refine ⟨trivial, trivial, ?_, ?_, ?_⟩
  · by_cases h1 : String.mk (c :: run) = "int"
    · simp [h1]
    · by_cases h2 : String.mk (c :: run) = "if" <;> simp [h1, h2]
  · by_cases h1 : String.mk (c :: run) = "int"
    · simp [h1, hne]
    · by_cases h2 : String.mk (c :: run) = "if" <;> simp [h1, h2]
  · by_cases h1 : String.mk (c :: run) = "int"
    · simp [h1]
    · by_cases h2 : String.mk (c :: run) = "if" <;> simp [h1, h2]

theorem C7_identifier_or_keyword_witness :
    (getNextToken "integer;".data).2 = [';'] ∧
    (getNextToken "integer;".data).1.text = "integer" ∧
    (getNextToken "integer;".data).1.type = .TOKEN_IDENTIFIER :=
  have h := C7_identifier_or_keyword 'i' ['n', 't', 'e', 'g', 'e', 'r'] [';']
    (by decide) (by decide) (by decide) (by decide)
  ⟨h.1, h.2.1, h.2.2.2.2.mpr (by decide)⟩

/-- C8: after any whitespace, `==` is one `TOKEN_EQUAL` token with text `==`; a
single `=` before another character or before the end of the file is `TOKEN_ASSIGN`
with text `=`, and the character after it is still the first one of the file. -/
theorem C8_equal_and_assign (ws rest : List Char) (hws : ∀ c ∈ ws, isspace c = true) :
    getNextToken (ws ++ '=' :: '=' :: rest) = (⟨.TOKEN_EQUAL, "=="⟩, rest) ∧
    ((∀ d, rest.head? = some d → d ≠ '=') →
      getNextToken (ws ++ '=' :: rest) = (⟨.TOKEN_ASSIGN, "="⟩, rest)) := by
  have e1 : isspace '=' = false := by decide
  have e2 : isalpha '=' = false := by decide
  have e3 : isdigit '=' = false := by decide
  constructor
  · rw [getNextToken_skip ws hws, getNextToken]
    simp [e1, e2, e3]
  · intro h
    rw [getNextToken_skip ws hws, getNextToken]
    cases rest with
    | nil => simp [e1, e2, e3]
    | cons d rest =>
      have hd : d ≠ '=' := h d rfl
      simp [e1, e2, e3, hd]

theorem C8_equal_and_assign_witness :
    getNextToken " \t== 1".data = (⟨.TOKEN_EQUAL, "=="⟩, " 1".data) ∧
    getNextToken " \t=1".data = (⟨.TOKEN_ASSIGN, "="⟩, "1".data) :=
  ⟨(C8_equal_and_assign [' ', '\t'] " 1".data (by decide)).1,
   (C8_equal_and_assign [' ', '\t'] "1".data (by decide)).2 (by decide)⟩

theorem Steps.refl (s : GenState) : Steps s s := Relation.ReflTransGen.refl

theorem Steps.trans {s t u : GenState} (h1 : Steps s t) (h2 : Steps t u) : Steps s u :=
  Relation.ReflTransGen.trans h1 h2

theorem Steps.step {s t u : GenState} (h1 : Steps s t) (h2 : Step t u) : Steps s u :=
  Relation.ReflTransGen.tail h1 h2

theorem Steps.single {s t : GenState} (h : Step s t) : Steps s t :=
  Relation.ReflTransGen.single h

/-- Sequencing keeps a relation that holds of the call and of what follows it. -/
theorem andThen_rel (R : GenState → GenState → Prop)
    (htrans : ∀ a b c, R a b → R b c → R a c) (s : GenState)
    (r : Outcome × GenState) (k : GenState → Outcome × GenState)
    (hr : R s r.2) (hk : ∀ s1, R s1 (k s1).2) : R s (andThen r k).2 := by
  obtain ⟨o, s1⟩ := r
  cases o
  case ok => exact htrans _ _ _ hr (hk s1)
  all_goals exact hr

theorem andThen_steps (s : GenState) (r : Outcome × GenState)
    (k : GenState → Outcome × GenState)
    (hr : Steps s r.2) (hk : ∀ s1, Steps s1 (k s1).2) : Steps s (andThen r k).2 :=
  andThen_rel Steps (fun _ _ _ => Steps.trans) s r k hr hk

/-- A declaration met with fewer than 100 entries in the table adds its entry at the
end, with the number of entries as address, and `generateCode` returns. -/
theorem generateCode_var_decl (text : String) (children : List ASTNode) (s : GenState)
    (room : s.symbol_table.length < 100) :
    generateCode (.mk .NODE_VAR_DECL text children) s
      = (.ok, { s with symbol_table :=
          s.symbol_table ++ [⟨text, s.symbol_table.length⟩] }) := by
  rw [generateCode, addSymbol, if_pos room]

/-- A declaration met with 100 entries in the table writes past the array. -/
theorem generateCode_var_decl_full (text : String) (children : List ASTNode) (s : GenState)
    (full : ¬ s.symbol_table.length < 100) :
    generateCode (.mk .NODE_VAR_DECL text children) s = (.undefinedBehaviour, s) := by
  rw [generateCode, addSymbol, if_neg full]

mutual

/-- Whatever the tree and however the run ends, the state `generateCode` leaves is
reached from the initial one by primitive effects. -/
theorem generateCode_steps : ∀ (node : ASTNode) (s : GenState),
    Steps s (generateCode node s).2
  | .mk .NODE_PROGRAM _ children, s => by
    rw [generateCode]; exact generateChildren_steps children s
  | .mk .NODE_VAR_DECL text children, s => by
    by_cases room : s.symbol_table.length < 100
    · rw [generateCode_var_decl text children s room]
      exact Steps.single (Step.declare s text room)
    · rw [generateCode_var_decl_full text children s room]
      exact Steps.refl s
  | .mk .NODE_ASSIGN text [], s => by
    rw [generateCode]
    cases getSymbolAddress s.symbol_table text <;> exact Steps.refl s
  | .mk .NODE_ASSIGN text (c :: _), s => by
    rw [generateCode]
    cases getSymbolAddress s.symbol_table text with
    | none => exact Steps.refl s
    | some address =>
      exact andThen_steps s _ _ (generateCode_steps c s)
        fun s1 => Steps.single (Step.store s1 address)
  | .mk .NODE_EXPRESSION _ [], s => by
    rw [generateCode]; exact Steps.refl s
    all_goals simp
  | .mk .NODE_EXPRESSION _ [c], s => by
    rw [generateCode]
    split_ifs
    · exact Steps.single (Step.loadi s _)
    · exact Steps.refl s
    · cases getSymbolAddress s.symbol_table c.text with
      | none => exact Steps.refl s
      | some address => exact Steps.single (Step.load s address)
  | .mk .NODE_EXPRESSION _ [_, _], s => by
    rw [generateCode]; exact Steps.refl s
    all_goals simp
  | .mk .NODE_EXPRESSION _ [l, op, r], s => by
    rw [generateCode]
    refine andThen_steps s _ _ (generateCode_steps l s) fun s1 => ?_
    refine andThen_steps s1 _ _
      ((Steps.single (Step.push s1)).trans (generateCode_steps r _)) fun s2 => ?_
    dsimp only
    split_ifs
    · exact (Steps.single (Step.pop s2)).step (Step.add _)
    · exact (Steps.single (Step.pop s2)).step (Step.sub _)
    · exact Steps.single (Step.pop s2)
  | .mk .NODE_EXPRESSION _ (_ :: _ :: _ :: _ :: _), s => by
    rw [generateCode]; exact Steps.refl s
    all_goals simp
  | .mk .NODE_IF _ [], s => by
    rw [generateCode]; exact Steps.refl s
  | .mk .NODE_IF _ [c], s => by
    rw [generateCode]
    refine andThen_steps s _ _ (generateCode_steps c s) fun s1 => ?_
    exact (Steps.single (Step.cmp s1)).step (Step.jump _)
  | .mk .NODE_IF _ (c :: b :: _), s => by
    rw [generateCode]
    refine andThen_steps s _ _ (generateCode_steps c s) fun s1 => ?_
    dsimp only
    refine andThen_steps s1 _ _
      (((Steps.single (Step.cmp s1)).step (Step.jump _)).trans (generateCode_steps b _))
      fun s4 => ?_
    exact Steps.single (Step.mark s4 _)
  | .mk .NODE_BLOCK _ children, s => by
    rw [generateCode]; exact generateChildren_steps children s
  | .mk .NODE_UNKNOWN _ _, s => by
    rw [generateCode]; exact Steps.refl s

theorem generateChildren_steps : ∀ (children : List ASTNode) (s : GenState),
    Steps s (generateChildren children s).2
  | [], s => by rw [generateChildren]; exact Steps.refl s
  | c :: cs, s => by
    rw [generateChildren]
    exact andThen_steps s _ _ (generateCode_steps c s) fun s1 => generateChildren_steps cs s1

end

/-- The number a decimal text stands for. -/
theorem digitChar_value (k : Nat) (hk : k < 10) : (Nat.digitChar k).toNat - 48 = k := by
  interval_cases k <;> rfl

theorem toDigitsCore_value : ∀ (fuel n : Nat) (ds : List Char), n < fuel →
    List.foldl (fun a c => 10 * a + (c.toNat - 48)) 0 (Nat.toDigitsCore 10 fuel n ds)
      = List.foldl (fun a c => 10 * a + (c.toNat - 48)) n ds := by
  intro fuel
  induction fuel with
  | zero => intro n ds h; omega
  | succ fuel ih =>
    intro n ds h
    simp only [Nat.toDigitsCore]
    split_ifs with h0
    · have hn : n < 10 := by
        by_contra hge
        have : 1 ≤ n / 10 := Nat.div_pos (by omega) (by decide)
        omega
      simp only [List.foldl_cons, Nat.mul_zero, Nat.zero_add]
      rw [digitChar_value _ (Nat.mod_lt _ (by decide)), Nat.mod_eq_of_lt hn]
    · have hlt : n / 10 < fuel := by
        have : n / 10 < n := Nat.div_lt_self (by omega) (by decide)
        omega
      rw [ih (n / 10) _ hlt]
      simp only [List.foldl_cons]
      rw [digitChar_value _ (Nat.mod_lt _ (by decide)), Nat.div_add_mod]

/-- Two numbers with the same decimal text are equal, so labels with different
numbers are different texts. -/
theorem toString_nat_injective {m n : Nat} (h : toString m = toString n) : m = n := by
  have h1 : Nat.toDigits 10 m = Nat.toDigits 10 n := by
    have := congrArg String.data h
    simpa [toString, instToStringNat, Nat.repr, List.asString] using this
  have hm := toDigitsCore_value (m + 1) m [] (Nat.lt_succ_self m)
  have hn := toDigitsCore_value (n + 1) n [] (Nat.lt_succ_self n)
  simp only [List.foldl_nil] at hm hn
  rw [← hm, ← hn]
  exact congrArg _ h1

theorem jumpLines_emit (output : List String) (line : String) :
    jumpLines (output ++ [line]) = jumpLines output ++ (if isJump line then [line] else []) := by
  unfold jumpLines
  rw [List.filter_append]
  by_cases h : isJump line = true <;> simp [List.filter, h]

/-- One primitive effect either leaves the counter and the jumps alone, or takes the
label of the counter, prints the jump to it and advances the counter by one. -/
theorem Step.label_effect {s t : GenState} (h : Step s t) :
    (t.label_count = s.label_count ∧ jumpLines t.output = jumpLines s.output) ∨
    (t.label_count = s.label_count + 1 ∧
      jumpLines t.output = jumpLines s.output ++ ["JNE LABEL_" ++ toString s.label_count]) := by
  cases h
  case declare => left; exact ⟨rfl, rfl⟩
  case jump =>
    right
    refine ⟨rfl, ?_⟩
    simp only [emit, jumpLines_emit]
    have : isJump ("JNE " ++ ("LABEL_" ++ toString s.label_count)) = true := by
      simp [isJump, String.data_append]
    rw [if_pos this, ← String.append_assoc]
    rfl
  all_goals
    left
    refine ⟨rfl, ?_⟩
    simp only [emit, jumpLines_emit]
    rw [if_neg (by simp [isJump, String.data_append])]
    simp

theorem Steps.label_run {s t : GenState} (h : Steps s t) :
    s.label_count ≤ t.label_count ∧
    jumpLines t.output = jumpLines s.output ++
      (List.range' s.label_count (t.label_count - s.label_count)).map
        (fun n => "JNE LABEL_" ++ toString n) := by
  induction h with
  | refl => simp
  | tail _ hstep ih =>
    obtain ⟨hle, hj⟩ := ih
    rcases hstep.label_effect with ⟨h1, h2⟩ | ⟨h1, h2⟩
    · rw [h1, h2]
      exact ⟨hle, hj⟩
    · rw [h1, h2, hj]
      refine ⟨by omega, ?_⟩
      rename_i b _ _
      have : s.label_count + (b.label_count - s.label_count) = b.label_count := by omega
      rw [show b.label_count + 1 - s.label_count = (b.label_count - s.label_count) + 1 by omega,
        List.range'_concat, List.map_append, List.append_assoc]
      simp [this]

/-- In a run of `generateCode`, on any tree and from any state, the label counter
never goes down, and the conditional jumps printed by the run are the jumps to
`LABEL_k`, `LABEL_k+1`, ... up to the final counter, `k` being the counter at the
start. -/
theorem generateCode_jump_lines (node : ASTNode) (s : GenState) :
    s.label_count ≤ (generateCode node s).2.label_count ∧
    jumpLines (generateCode node s).2.output = jumpLines s.output ++
      (List.range' s.label_count ((generateCode node s).2.label_count - s.label_count)).map
        (fun n => "JNE LABEL_" ++ toString n) ∧
    (List.range' s.label_count ((generateCode node s).2.label_count - s.label_count)).Pairwise
        (fun m n => m < n ∧ "JNE LABEL_" ++ toString m ≠ "JNE LABEL_" ++ toString n) := by
  obtain ⟨h1, h2⟩ := (generateCode_steps node s).label_run
  refine ⟨h1, h2, ?_⟩
  refine (List.pairwise_lt_range' _ _).imp ?_
  intro m n hmn
  refine ⟨hmn, fun h => ?_⟩
  have h' : toString m = toString n := by
    have := congrArg String.data h
    simp only [String.data_append, List.append_cancel_left_eq] at this
    exact String.ext this
  exact absurd (toString_nat_injective h') (by omega)

/-- A run with a nested and a following `If` node: the outer block takes `LABEL_0`,
the block inside it `LABEL_1` and the block after it `LABEL_2`. -/
theorem labels_of_nested_and_following_if :
    generateCode (.mk .NODE_PROGRAM "Program"
        [.mk .NODE_IF "if" [.mk .NODE_BLOCK "Block" [],
          .mk .NODE_BLOCK "Block" [.mk .NODE_IF "if"
            [.mk .NODE_BLOCK "Block" [], .mk .NODE_BLOCK "Block" []]]],
         .mk .NODE_IF "if" [.mk .NODE_BLOCK "Block" [], .mk .NODE_BLOCK "Block" []]])
      GenState.init
      = (.ok, ⟨[], 3, ["CMP R0, 1", "JNE LABEL_0", "CMP R0, 1", "JNE LABEL_1", "LABEL_1",
          "LABEL_0", "CMP R0, 1", "JNE LABEL_2", "LABEL_2"]⟩) := by
  decide

theorem mem_nodes_self (node : ASTNode) : node ∈ node.nodes := by
  cases node with
  | mk type text children => simp [ASTNode.nodes]

theorem nodes_child {type : NodeType} {text : String} {children : List ASTNode}
    {c n : ASTNode} (hc : c ∈ children) (hn : n ∈ c.nodes) :
    n ∈ (ASTNode.mk type text children).nodes := by
  rw [ASTNode.nodes]
  refine List.mem_cons_of_mem _ ?_
  induction children with
  | nil => cases hc
  | cons d ds ih =>
    rw [nodesOfList, List.mem_append]
    rcases List.mem_cons.mp hc with rfl | h
    · exact Or.inl hn
    · exact Or.inr (ih h)

theorem andThen_same_table (s : GenState) (r : Outcome × GenState)
    (k : GenState → Outcome × GenState)
    (hr : r.2.symbol_table = s.symbol_table)
    (hk : ∀ s1, (k s1).2.symbol_table = s1.symbol_table) :
    (andThen r k).2.symbol_table = s.symbol_table :=
  andThen_rel (fun a b => b.symbol_table = a.symbol_table)
    (fun _ _ _ h1 h2 => h2.trans h1) s r k hr hk

mutual

/-- A tree without a `NODE_VAR_DECL` node leaves the symbol table as it is. -/
theorem generateCode_same_table : ∀ (node : ASTNode) (s : GenState),
    (∀ n ∈ node.nodes, n.type ≠ .NODE_VAR_DECL) →
    (generateCode node s).2.symbol_table = s.symbol_table
  | .mk .NODE_PROGRAM _ children, s, h => by
    rw [generateCode]
    exact generateChildren_same_table children s
      fun n hn => h n (by rw [ASTNode.nodes]; exact List.mem_cons_of_mem _ hn)
  | .mk .NODE_VAR_DECL text children, s, h =>
    absurd rfl (h _ (mem_nodes_self (.mk .NODE_VAR_DECL text children)))
  | .mk .NODE_ASSIGN text [], s, _ => by
    rw [generateCode]
    cases getSymbolAddress s.symbol_table text <;> rfl
  | .mk .NODE_ASSIGN text (c :: _), s, h => by
    rw [generateCode]
    cases getSymbolAddress s.symbol_table text with
    | none => rfl
    | some address =>
      exact andThen_same_table s _ _
        (generateCode_same_table c s
          fun n hn => h n (nodes_child (List.mem_cons_self _ _) hn))
        fun s1 => rfl
  | .mk .NODE_EXPRESSION _ [], s, _ => by
    rw [generateCode]
    all_goals simp
  | .mk .NODE_EXPRESSION _ [c], s, _ => by
    rw [generateCode]
    split_ifs
    · rfl
    · rfl
    · cases getSymbolAddress s.symbol_table c.text <;> rfl
  | .mk .NODE_EXPRESSION _ [_, _], s, _ => by
    rw [generateCode]
    all_goals simp
  | .mk .NODE_EXPRESSION _ [l, op, r], s, h => by
    rw [generateCode]
    refine andThen_same_table s _ _
      (generateCode_same_table l s
        fun n hn => h n (nodes_child (List.mem_cons_self _ _) hn)) fun s1 => ?_
    refine andThen_same_table s1 _ _
      (generateCode_same_table r (emit "PUSH R0" s1)
        fun n hn => h n (nodes_child (by simp) hn)) fun s2 => ?_
    dsimp only
    split_ifs <;> rfl
  | .mk .NODE_EXPRESSION _ (_ :: _ :: _ :: _ :: _), s, _ => by
    rw [generateCode]
    all_goals simp
  | .mk .NODE_IF _ [], s, _ => by
    rw [generateCode]
  | .mk .NODE_IF _ [c], s, h => by
    rw [generateCode]
    exact andThen_same_table s _ _
      (generateCode_same_table c s
        fun n hn => h n (nodes_child (List.mem_cons_self _ _) hn)) fun s1 => rfl
  | .mk .NODE_IF _ (c :: b :: _), s, h => by
    rw [generateCode]
    refine andThen_same_table s _ _
      (generateCode_same_table c s
        fun n hn => h n (nodes_child (List.mem_cons_self _ _) hn)) fun s1 => ?_
    dsimp only
    exact andThen_same_table s1 _ _
      (generateCode_same_table b _ fun n hn => h n (nodes_child (by simp) hn))
      fun s4 => rfl
  | .mk .NODE_BLOCK _ children, s, h => by
    rw [generateCode]
    exact generateChildren_same_table children s
      fun n hn => h n (by rw [ASTNode.nodes]; exact List.mem_cons_of_mem _ hn)
  | .mk .NODE_UNKNOWN _ _, s, _ => by
    rw [generateCode]

theorem generateChildren_same_table : ∀ (children : List ASTNode) (s : GenState),
    (∀ n ∈ nodesOfList children, n.type ≠ .NODE_VAR_DECL) →
    (generateChildren children s).2.symbol_table = s.symbol_table
  | [], s, _ => by rw [generateChildren]
  | c :: cs, s, h => by
    rw [generateChildren]
    exact andThen_same_table s _ _
      (generateCode_same_table c s
        fun n hn => h n (by rw [nodesOfList]; exact List.mem_append_left _ hn))
      fun s1 => generateChildren_same_table cs s1
        fun n hn => h n (by rw [nodesOfList]; exact List.mem_append_right _ hn)

end

theorem getNextToken_eq_feed (p : PState) : p.getNextToken = feed p.file := by
  unfold PState.getNextToken feed
  cases p.file <;> rfl

theorem parse_eq (toks : List Token) :
    parse toks = parseProgram (3 * toks.length + 3) (feed toks) := by
  unfold parse
  rw [getNextToken_eq_feed]

theorem addChild_lt {parent : ASTNode} (child : ASTNode) (h : parent.child_count < 3) :
    addChild parent child = some (.mk parent.type parent.text (parent.children ++ [child])) := by
  unfold addChild
  rw [if_pos (by simpa [MAX_CHILDREN] using h)]

theorem addChild_ge {parent : ASTNode} (child : ASTNode) (h : 3 ≤ parent.child_count) :
    addChild parent child = none := by
  unfold addChild
  rw [if_neg (by simp only [MAX_CHILDREN]; omega)]

theorem parseVarDecl_tokens (text name semi : String) (rest : List Token) :
    parseVarDecl (feed (⟨.TOKEN_INT, text⟩ :: ⟨.TOKEN_IDENTIFIER, name⟩ ::
        ⟨.TOKEN_SEMICOLON, semi⟩ :: rest))
      = .ok (.mk .NODE_VAR_DECL name []) (feed rest) := by
  simp [parseVarDecl, getNextToken_eq_feed, feed, createNode]

theorem parseExpression_tokens (e : Grammar.Expression) (t : Token) (rest : List Token)
    (ht : t.type ≠ .TOKEN_PLUS ∧ t.type ≠ .TOKEN_MINUS) :
    parseExpression (feed (e.tokens ++ t :: rest)) = .ok e.tree (feed (t :: rest)) := by
  cases e with
  | single a =>
    cases a <;>
      simp [parseExpression, Grammar.Expression.tokens, Grammar.Expression.tree,
        Grammar.Operand.token, getNextToken_eq_feed, feed, createNode, addChild,
        ASTNode.child_count, ASTNode.children, ASTNode.type, ASTNode.text, MAX_CHILDREN, ht]
  | binary a op b =>
    cases a <;> cases op <;> cases b <;>
      simp [parseExpression, Grammar.Expression.tokens, Grammar.Expression.tree,
        Grammar.Operand.token, Grammar.Operator.token, getNextToken_eq_feed, feed,
        createNode, addChild, ASTNode.child_count, ASTNode.children, ASTNode.type,
        ASTNode.text, MAX_CHILDREN]

theorem parseAssignment_tokens (target : String) (e : Grammar.Expression)
    (rest : List Token) :
    parseAssignment (feed ((Grammar.Statement.assignment target e).tokens ++ rest))
      = .ok (Grammar.Statement.assignment target e).tree (feed rest) := by
  have he := parseExpression_tokens e ⟨.TOKEN_SEMICOLON, ";"⟩ rest (by decide)
  simp only [Grammar.Statement.tokens, List.cons_append, List.append_assoc,
    List.singleton_append]
  unfold parseAssignment
  simp only [getNextToken_eq_feed, feed, createNode]
  simp only [feed] at he
  simp [he, addChild, ASTNode.child_count, ASTNode.children, ASTNode.type, ASTNode.text,
    MAX_CHILDREN, Grammar.Statement.tree]

theorem Grammar.tokens_length_pos (st : Grammar.Statement) : 3 ≤ st.tokens.length := by
  cases st with
  | varDecl name => simp [Grammar.Statement.tokens]
  | assignment target e => simp [Grammar.Statement.tokens]
  | ifStmt body => simp [Grammar.Statement.tokens]

mutual

/-- The parser accepts what a statement derives and returns its node, when no `if`
block of it holds more than three statements. -/
theorem parseStatement_complete : ∀ (st : Grammar.Statement) (fuel : Nat)
    (rest : List Token), st.Fits 3 → st.tokens.length ≤ fuel →
    parseStatement fuel (feed (st.tokens ++ rest)) = .ok st.tree (feed rest)
  | .varDecl name, fuel, rest, _, hfuel => by
    obtain ⟨f, rfl⟩ : ∃ f, fuel = f + 1 := ⟨fuel - 1, by
      simp [Grammar.Statement.tokens] at hfuel; omega⟩
    rw [parseStatement]
    simp only [Grammar.Statement.tokens, List.cons_append, List.nil_append]
    rw [if_pos (by rfl), parseVarDecl_tokens]
    rfl
  | .assignment target e, fuel, rest, _, hfuel => by
    obtain ⟨f, rfl⟩ : ∃ f, fuel = f + 1 := ⟨fuel - 1, by
      have := Grammar.tokens_length_pos (.assignment target e); omega⟩
    rw [parseStatement]
    have h := parseAssignment_tokens target e rest
    simp only [Grammar.Statement.tokens, List.cons_append] at h ⊢
    rw [if_neg (by simp [feed]), if_pos (by rfl), h]
  | .ifStmt body, fuel, rest, hfit, hfuel => by
    obtain ⟨f, rfl⟩ : ∃ f, fuel = f + 2 := ⟨fuel - 2, by
      simp [Grammar.Statement.tokens] at hfuel; omega⟩
    simp only [Grammar.Statement.Fits] at hfit
    have hb := parseBlock_complete body f (.mk .NODE_BLOCK "Block" []) rest hfit.2
      (by simpa [ASTNode.child_count, ASTNode.children] using hfit.1)
      (by simp [Grammar.Statement.tokens] at hfuel; omega)
    rw [parseStatement]
    simp only [Grammar.Statement.tokens, List.cons_append, List.append_assoc,
      List.singleton_append]
    rw [if_neg (by simp [feed]), if_neg (by simp [feed]), if_pos (by rfl), parseIf]
    simp only [getNextToken_eq_feed, feed, createNode]
    simp only [feed, ASTNode.type, ASTNode.text, ASTNode.children, List.nil_append] at hb
    simp [hb, addChild, ASTNode.child_count, ASTNode.children, ASTNode.type, ASTNode.text,
      MAX_CHILDREN, Grammar.Statement.tree]

/-- The loop of `parseIf` accepts the statements of a block and adds their nodes,
in order, to the children the Block node has, as long as there is room. -/
theorem parseBlock_complete : ∀ (body : List Grammar.Statement) (fuel : Nat)
    (block : ASTNode) (rest : List Token), Grammar.FitsList 3 body →
    block.child_count + body.length ≤ 3 →
    (Grammar.tokensOfList body).length + 1 ≤ fuel →
    parseBlock fuel block
        (feed (Grammar.tokensOfList body ++ ⟨.TOKEN_RBRACE, "\x7d"⟩ :: rest))
      = .ok (.mk block.type block.text (block.children ++ Grammar.treesOfList body))
          (feed (⟨.TOKEN_RBRACE, "\x7d"⟩ :: rest))
  | [], fuel, block, rest, _, _, hfuel => by
    obtain ⟨f, rfl⟩ : ∃ f, fuel = f + 1 := ⟨fuel - 1, by omega⟩
    cases block with
    | mk type text children =>
      simp [parseBlock, Grammar.tokensOfList, Grammar.treesOfList, feed, ASTNode.type,
        ASTNode.text, ASTNode.children]
  | st :: sts, fuel, block, rest, hfit, hroom, hfuel => by
    obtain ⟨f, rfl⟩ : ∃ f, fuel = f + 1 := ⟨fuel - 1, by omega⟩
    simp only [Grammar.FitsList] at hfit
    simp only [Grammar.tokensOfList, List.length_append, List.length_cons] at hfuel hroom
    have h3 := Grammar.tokens_length_pos st
    have hs := parseStatement_complete st f
      (Grammar.tokensOfList sts ++ ⟨.TOKEN_RBRACE, "\x7d"⟩ :: rest) hfit.1 (by omega)
    have hlt : block.child_count < 3 := by omega
    have hl := parseBlock_complete sts f
      (.mk block.type block.text (block.children ++ [st.tree])) rest hfit.2
      (by simp only [ASTNode.child_count, ASTNode.children, List.length_append,
            List.length_singleton] at hroom ⊢; omega)
      (by omega)
    have hcur : (feed (Grammar.tokensOfList (st :: sts) ++
        ⟨.TOKEN_RBRACE, "\x7d"⟩ :: rest)).current_token.type ≠ .TOKEN_RBRACE ∧
        (feed (Grammar.tokensOfList (st :: sts) ++
        ⟨.TOKEN_RBRACE, "\x7d"⟩ :: rest)).current_token.type ≠ .TOKEN_EOF := by
      cases st <;> simp [Grammar.tokensOfList, Grammar.Statement.tokens, feed]
    rw [parseBlock, if_pos hcur]
    simp only [Grammar.tokensOfList, List.append_assoc]
    rw [hs]
    simp only [addChild_lt _ hlt, hl]
    cases block with
    | mk type text children =>
      simp [ASTNode.type, ASTNode.text, ASTNode.children, Grammar.treesOfList]

end

/-- The loop of `parseProgram` accepts a sequence of statements followed by the end
of the file and adds their nodes, in order, as long as there is room. -/
theorem parseProgramLoop_complete : ∀ (prog : List Grammar.Statement) (fuel : Nat)
    (root : ASTNode), Grammar.FitsList 3 prog → root.child_count + prog.length ≤ 3 →
    (Grammar.tokensOfList prog).length + 1 ≤ fuel →
    parseProgramLoop fuel root (feed (Grammar.tokensOfList prog))
      = .ok (.mk root.type root.text (root.children ++ Grammar.treesOfList prog)) (feed [])
  | [], fuel, root, _, _, hfuel => by
    obtain ⟨f, rfl⟩ : ∃ f, fuel = f + 1 := ⟨fuel - 1, by omega⟩
    cases root with
    | mk type text children =>
      simp [parseProgramLoop, Grammar.tokensOfList, Grammar.treesOfList, feed, ASTNode.type,
        ASTNode.text, ASTNode.children]
  | st :: sts, fuel, root, hfit, hroom, hfuel => by
    obtain ⟨f, rfl⟩ : ∃ f, fuel = f + 1 := ⟨fuel - 1, by omega⟩
    simp only [Grammar.FitsList] at hfit
    simp only [Grammar.tokensOfList, List.length_append, List.length_cons] at hfuel hroom
    have h3 := Grammar.tokens_length_pos st
    have hs := parseStatement_complete st f (Grammar.tokensOfList sts) hfit.1 (by omega)
    have hlt : root.child_count < 3 := by omega
    have hl := parseProgramLoop_complete sts f
      (.mk root.type root.text (root.children ++ [st.tree])) hfit.2
      (by simp only [ASTNode.child_count, ASTNode.children, List.length_append,
            List.length_singleton] at hroom ⊢; omega)
      (by omega)
    have hcur : (feed (Grammar.tokensOfList (st :: sts))).current_token.type
        ≠ .TOKEN_EOF := by
      cases st <;> simp [Grammar.tokensOfList, Grammar.Statement.tokens, feed]
    rw [parseProgramLoop, if_pos hcur]
    simp only [Grammar.tokensOfList]
    rw [hs]
    simp only [addChild_lt _ hlt, hl]
    cases root with
    | mk type text children =>
      simp [ASTNode.type, ASTNode.text, ASTNode.children, Grammar.treesOfList]

/-- C3 (as stated it fails): four declarations in a row are derived by the grammar,
and the parser stops with the syntax error of `addChild`. -/
theorem C3_fourth_statement_rejected :
    parse (Grammar.tokensOfList
        [.varDecl "a", .varDecl "b", .varDecl "c", .varDecl "d"])
      = .error "Exceeded maximum number of child nodes" := by
  decide

/-- C3 (amended): for every token sequence the grammar derives with at most three
statements at top level and at most three in each `if` block, the parser returns,
without a syntax error and within the bound of the model, the Program tree whose
children are the nodes of the statements in order, and it has read all tokens. -/
theorem C3_parse_complete (prog : List Grammar.Statement) (hlen : prog.length ≤ 3)
    (hfit : Grammar.FitsList 3 prog) :
    parse (Grammar.tokensOfList prog)
      = .ok (.mk .NODE_PROGRAM "Program" (Grammar.treesOfList prog))
          ⟨⟨.TOKEN_EOF, ""⟩, []⟩ := by
  rw [parse_eq, parseProgram]
  have h := parseProgramLoop_complete prog (3 * (Grammar.tokensOfList prog).length + 3)
    (createNode .NODE_PROGRAM "Program") hfit
    (by simpa [createNode, ASTNode.child_count, ASTNode.children] using hlen) (by omega)
  rw [h]
  rfl

theorem C3_parse_complete_witness :
    parse (Grammar.tokensOfList
        [.varDecl "a", .assignment "a" (.binary (.identifier "a") .plus (.number "1")),
         .ifStmt [.assignment "a" (.single (.number "0")), .ifStmt []]])
      = .ok (.mk .NODE_PROGRAM "Program" (Grammar.treesOfList
        [.varDecl "a", .assignment "a" (.binary (.identifier "a") .plus (.number "1")),
         .ifStmt [.assignment "a" (.single (.number "0")), .ifStmt []]]))
          ⟨⟨.TOKEN_EOF, ""⟩, []⟩ :=
  C3_parse_complete _ (by decide)
    (by simp [Grammar.FitsList, Grammar.Statement.Fits])

theorem getNextToken_operatorText (file : List Char) :
    (getNextToken file).1.OperatorText := by
  induction file with
  | nil => simp [getNextToken, Token.OperatorText]
  | cons c file ih =>
    rw [getNextToken]
    by_cases h1 : isspace c = true
    · rw [if_pos h1]; exact ih
    rw [if_neg h1]
    by_cases h2 : isalpha c = true
    · rw [if_pos h2]
      constructor <;> intro h <;> dsimp only at h <;> split_ifs at h
    rw [if_neg h2]
    by_cases h3 : isdigit c = true
    · rw [if_pos h3]
      constructor <;> intro h <;> cases h
    rw [if_neg h3]
    split_ifs <;> constructor <;> intro h <;> first | rfl | cases h

theorem tokenize_operatorText : ∀ (fuel : Nat) (file : List Char),
    ∀ t ∈ tokenize fuel file, t.OperatorText
  | 0, _ => by simp [tokenize]
  | fuel + 1, file => by
    intro t ht
    rw [tokenize] at ht
    by_cases h : (getNextToken file).1.type = .TOKEN_EOF
    · simp [h] at ht
    · simp only [h, if_false] at ht
      rcases List.mem_cons.mp ht with rfl | h
      · exact getNextToken_operatorText file
      · exact tokenize_operatorText fuel _ t h

/-- Every token of a file is a token as the lexer forms it. -/
theorem tokens_operatorText (file : List Char) : ∀ t ∈ tokens file, t.OperatorText :=
  tokenize_operatorText _ _

theorem feed_lexed {toks : List Token} (h : ∀ t ∈ toks, t.OperatorText) :
    (feed toks).Lexed := by
  cases toks with
  | nil => exact ⟨by simp [feed, Token.OperatorText], by simp [feed]⟩
  | cons t ts =>
    exact ⟨h t (List.mem_cons_self _ _), fun x hx => h x (List.mem_cons_of_mem _ hx)⟩

theorem PState.Lexed.next {p : PState} (h : p.Lexed) : p.getNextToken.Lexed := by
  rw [getNextToken_eq_feed]
  exact feed_lexed h.2

theorem parseExpression_sound {p p' : PState} {node : ASTNode}
    (h : parseExpression p = .ok node p') (hp : p.Lexed) :
    (∃ e : Grammar.Expression, node = e.tree) ∧ p'.Lexed := by
  rcases parseExpression_ok h with ⟨rfl, rfl⟩ | ⟨rfl, hop, rfl⟩
  · exact ⟨⟨.single (.identifier p.current_token.text), rfl⟩, hp.next⟩
  · refine ⟨?_, hp.next.next.next⟩
    rcases hop with hop | hop
    · refine ⟨.binary (.identifier p.current_token.text) .plus
        (.identifier p.getNextToken.getNextToken.current_token.text), ?_⟩
      simp [Grammar.Expression.tree, Grammar.Operand.token, Grammar.Operator.token,
        hp.next.1.1 hop]
    · refine ⟨.binary (.identifier p.current_token.text) .minus
        (.identifier p.getNextToken.getNextToken.current_token.text), ?_⟩
      simp [Grammar.Expression.tree, Grammar.Operand.token, Grammar.Operator.token,
        hp.next.1.2 hop]

theorem parseVarDecl_sound {p p' : PState} {node : ASTNode}
    (h : parseVarDecl p = .ok node p') (hp : p.Lexed) :
    (∃ name, node = (Grammar.Statement.varDecl name).tree) ∧ p'.Lexed := by
  unfold parseVarDecl at h
  simp only at h
  split_ifs at h
  cases h
  exact ⟨⟨_, rfl⟩, hp.next.next.next⟩

theorem parseAssignment_sound {p p' : PState} {node : ASTNode}
    (h : parseAssignment p = .ok node p') (hp : p.Lexed) :
    (∃ target e, node = (Grammar.Statement.assignment target e).tree) ∧ p'.Lexed := by
  unfold parseAssignment at h
  simp only at h
  split_ifs at h
  cases he : parseExpression p.getNextToken.getNextToken with
  | error m => simp [he] at h
  | outOfFuel => simp [he] at h
  | ok expr p2 =>
    obtain ⟨⟨e, rfl⟩, hp2⟩ := parseExpression_sound he hp.next.next
    simp only [he, createNode, addChild, ASTNode.child_count, ASTNode.children,
      List.length_nil, MAX_CHILDREN, ASTNode.type, ASTNode.text, List.nil_append] at h
    rw [if_pos (by decide)] at h
    simp only at h
    split_ifs at h
    cases h
    exact ⟨⟨_, e, rfl⟩, hp2.next⟩

theorem addChild_some {parent child node : ASTNode} (h : addChild parent child = some node) :
    parent.child_count < 3 ∧
      node = .mk parent.type parent.text (parent.children ++ [child]) := by
  unfold addChild at h
  split_ifs at h with hlt
  cases h
  exact ⟨by simpa [MAX_CHILDREN] using hlt, rfl⟩

/-- Soundness of the parser, by the recursion bound: a statement that is returned is
the node of a derivation, a block loop that returns has added the nodes of a
sequence of statements to the children the Block had, within the room of three, and
an `if` that is returned is the node of a derivation. -/
theorem parse_functions_sound (fuel : Nat) :
    (∀ (p p' : PState) (node : ASTNode), parseStatement fuel p = .ok node p' → p.Lexed →
      (∃ st : Grammar.Statement, st.Fits 3 ∧ node = st.tree) ∧ p'.Lexed) ∧
    (∀ (block : ASTNode) (p p' : PState) (node : ASTNode),
      parseBlock fuel block p = .ok node p' → p.Lexed →
      (∃ body : List Grammar.Statement, Grammar.FitsList 3 body ∧
        (body = [] ∨ block.child_count + body.length ≤ 3) ∧
        node = .mk block.type block.text (block.children ++ Grammar.treesOfList body)) ∧
      p'.Lexed) ∧
    (∀ (p p' : PState) (node : ASTNode), parseIf fuel p = .ok node p' → p.Lexed →
      (∃ st : Grammar.Statement, st.Fits 3 ∧ node = st.tree) ∧ p'.Lexed) := by
  induction fuel with
  | zero =>
    refine ⟨?_, ?_, ?_⟩
    · intro p p' node h; simp [parseStatement] at h
    · intro block p p' node h; simp [parseBlock] at h
    · intro p p' node h; simp [parseIf] at h
  | succ fuel ih =>
    obtain ⟨ihS, ihB, ihI⟩ := ih
    refine ⟨?_, ?_, ?_⟩
    · intro p p' node h hp
      rw [parseStatement] at h
      split_ifs at h
      · obtain ⟨⟨name, rfl⟩, hp'⟩ := parseVarDecl_sound h hp
        exact ⟨⟨.varDecl name, by simp [Grammar.Statement.Fits], rfl⟩, hp'⟩
      · obtain ⟨⟨target, e, rfl⟩, hp'⟩ := parseAssignment_sound h hp
        exact ⟨⟨.assignment target e, by simp [Grammar.Statement.Fits], rfl⟩, hp'⟩
      · exact ihI p p' node h hp
    · intro block p p' node h hp
      rw [parseBlock] at h
      split_ifs at h
      · cases hs : parseStatement fuel p with
        | error m => simp [hs] at h
        | outOfFuel => simp [hs] at h
        | ok stmt p1 =>
          obtain ⟨⟨st, hst, rfl⟩, hp1⟩ := ihS p p1 stmt hs hp
          simp only [hs] at h
          cases ha : addChild block st.tree with
          | none => simp [ha] at h
          | some block1 =>
            obtain ⟨hlt, rfl⟩ := addChild_some ha
            simp only [ha] at h
            obtain ⟨⟨body, hfit, hroom, rfl⟩, hp'⟩ := ihB _ p1 p' node h hp1
            refine ⟨⟨st :: body, ⟨hst, hfit⟩, Or.inr ?_, ?_⟩, hp'⟩
            · rcases hroom with rfl | hroom
              · simp only [List.length_cons, List.length_nil]; omega
              · simp only [ASTNode.child_count, ASTNode.children, List.length_append,
                  List.length_singleton, List.length_cons] at hroom hlt ⊢
                omega
            · simp [ASTNode.type, ASTNode.text, ASTNode.children, Grammar.treesOfList]
      · cases h
        refine ⟨⟨[], trivial, Or.inl rfl, ?_⟩, hp⟩
        cases block with
        | mk type text children =>
          simp [ASTNode.type, ASTNode.text, ASTNode.children, Grammar.treesOfList]
    · intro p p' node h hp
      rw [parseIf] at h
      split_ifs at h
      cases hb : parseBlock fuel (createNode .NODE_BLOCK "Block") p.getNextToken.getNextToken with
      | error m => simp [hb] at h
      | outOfFuel => simp [hb] at h
      | ok block p2 =>
        obtain ⟨⟨body, hfit, hroom, rfl⟩, hp2⟩ := ihB _ _ p2 block hb hp.next.next
        simp only [hb] at h
        split_ifs at h
        simp only [createNode, addChild, ASTNode.child_count, ASTNode.children,
          List.length_nil, MAX_CHILDREN, ASTNode.type, ASTNode.text, List.nil_append] at h
        rw [if_pos (by decide)] at h
        cases h
        refine ⟨⟨.ifStmt body, ⟨?_, hfit⟩, rfl⟩, hp2.next⟩
        rcases hroom with rfl | hroom
        · simp
        · simpa [createNode, ASTNode.child_count, ASTNode.children] using hroom

theorem parseProgramLoop_sound : ∀ (fuel : Nat) (root : ASTNode) (p p' : PState)
    (node : ASTNode), parseProgramLoop fuel root p = .ok node p' → p.Lexed →
    ∃ prog : List Grammar.Statement, Grammar.FitsList 3 prog ∧
      (prog = [] ∨ root.child_count + prog.length ≤ 3) ∧
      node = .mk root.type root.text (root.children ++ Grammar.treesOfList prog)
  | 0, _, _, _, _, h, _ => by simp [parseProgramLoop] at h
  | fuel + 1, root, p, p', node, h, hp => by
    rw [parseProgramLoop] at h
    split_ifs at h
    · cases hs : parseStatement fuel p with
      | error m => simp [hs] at h
      | outOfFuel => simp [hs] at h
      | ok stmt p1 =>
        obtain ⟨⟨st, hst, rfl⟩, hp1⟩ := (parse_functions_sound fuel).1 p p1 stmt hs hp
        simp only [hs] at h
        cases ha : addChild root st.tree with
        | none => simp [ha] at h
        | some root1 =>
          obtain ⟨hlt, rfl⟩ := addChild_some ha
          simp only [ha] at h
          obtain ⟨prog, hfit, hroom, rfl⟩ := parseProgramLoop_sound fuel _ p1 p' node h hp1
          refine ⟨st :: prog, ⟨hst, hfit⟩, Or.inr ?_, ?_⟩
          · rcases hroom with rfl | hroom
            · simp only [List.length_cons, List.length_nil]; omega
            · simp only [ASTNode.child_count, ASTNode.children, List.length_append,
                List.length_singleton, List.length_cons] at hroom hlt ⊢
              omega
          · simp [ASTNode.type, ASTNode.text, ASTNode.children, Grammar.treesOfList]
    · cases h
      refine ⟨[], trivial, Or.inl rfl, ?_⟩
      cases root with
      | mk type text children =>
        simp [ASTNode.type, ASTNode.text, ASTNode.children, Grammar.treesOfList]

/-- Every tree the parser returns for tokens as the lexer forms them is the Program
tree of a derivation with at most three statements at top level and in each block. -/
theorem parse_sound {toks : List Token} {tree : ASTNode} {p : PState}
    (h : parse toks = .ok tree p) (hlex : ∀ t ∈ toks, t.OperatorText) :
    ∃ prog : List Grammar.Statement, prog.length ≤ 3 ∧ Grammar.FitsList 3 prog ∧
      tree = .mk .NODE_PROGRAM "Program" (Grammar.treesOfList prog) := by
  rw [parse_eq, parseProgram] at h
  obtain ⟨prog, hfit, hroom, rfl⟩ := parseProgramLoop_sound _ _ _ _ _ h (feed_lexed hlex)
  refine ⟨prog, ?_, hfit, rfl⟩
  rcases hroom with rfl | hroom
  · simp
  · simpa [createNode, ASTNode.child_count, ASTNode.children] using hroom

theorem Grammar.Expression.tree_expression_shape (e : Grammar.Expression) :
    ∀ n ∈ e.tree.nodes, n.type = .NODE_EXPRESSION → n.ExpressionShape := by
  intro n hn htype
  cases e with
  | single a =>
    simp only [Grammar.Expression.tree, ASTNode.nodes, nodesOfList, List.append_nil,
      List.mem_cons, List.mem_singleton, List.not_mem_nil, or_false] at hn
    rcases hn with rfl | rfl
    · left; rfl
    · cases htype
  | binary a op b =>
    simp only [Grammar.Expression.tree, ASTNode.nodes, nodesOfList, List.append_nil,
      List.mem_cons, List.mem_singleton, List.not_mem_nil, or_false, List.cons_append,
      List.nil_append] at hn
    rcases hn with rfl | rfl | rfl | rfl
    · right
      refine ⟨rfl, _, _, _, rfl, ?_⟩
      cases op
      · left; rfl
      · right; rfl
    all_goals cases htype

mutual

theorem Grammar.Statement.tree_nodes_shape : ∀ (st : Grammar.Statement),
    ∀ n ∈ st.tree.nodes, n.type = .NODE_EXPRESSION → n.ExpressionShape
  | .varDecl name => by
    intro n hn htype
    simp only [Grammar.Statement.tree, ASTNode.nodes, nodesOfList, List.mem_singleton] at hn
    subst hn
    cases htype
  | .assignment target e => by
    intro n hn htype
    simp only [Grammar.Statement.tree, ASTNode.nodes, nodesOfList, List.append_nil,
      List.mem_cons] at hn
    rcases hn with rfl | hn
    · cases htype
    · exact e.tree_expression_shape n hn htype
  | .ifStmt body => by
    intro n hn htype
    simp only [Grammar.Statement.tree, ASTNode.nodes, nodesOfList, List.append_nil,
      List.mem_cons] at hn
    rcases hn with rfl | rfl | hn
    · cases htype
    · cases htype
    · exact Grammar.treesOfList_shape body n hn htype

theorem Grammar.treesOfList_shape : ∀ (sts : List Grammar.Statement),
    ∀ n ∈ nodesOfList (Grammar.treesOfList sts), n.type = .NODE_EXPRESSION →
      n.ExpressionShape
  | [] => by
    intro n hn
    simp [Grammar.treesOfList, nodesOfList] at hn
  | st :: sts => by
    intro n hn htype
    simp only [Grammar.treesOfList, nodesOfList, List.mem_append] at hn
    rcases hn with hn | hn
    · exact st.tree_nodes_shape n hn htype
    · exact Grammar.treesOfList_shape sts n hn htype

end

/-- C4: in every tree the parser returns for the tokens of a file, each Expression
node, wherever it is, has exactly one child, or exactly three children of which the
middle one, the operator, reads `+` or `-`. -/
theorem C4_expression_arity (file : List Char) (tree : ASTNode) (p : PState)
    (h : parse (tokens file) = .ok tree p) :
    ∀ n ∈ tree.nodes, n.type = .NODE_EXPRESSION →
      n.child_count = 1 ∨
      (n.child_count = 3 ∧
        ∃ l op r, n.children = [l, op, r] ∧ (op.text = "+" ∨ op.text = "-")) := by
  obtain ⟨prog, -, -, rfl⟩ := parse_sound h (tokens_operatorText file)
  intro n hn htype
  rw [ASTNode.nodes] at hn
  rcases List.mem_cons.mp hn with rfl | hn
  · cases htype
  · exact Grammar.treesOfList_shape prog n hn htype

theorem C4_expression_arity_witness :
    (ASTNode.mk .NODE_EXPRESSION "" [.mk .NODE_UNKNOWN "b" [], .mk .NODE_UNKNOWN "-" [],
        .mk .NODE_UNKNOWN "1" []]).child_count = 1 ∨
      ((ASTNode.mk .NODE_EXPRESSION "" [.mk .NODE_UNKNOWN "b" [], .mk .NODE_UNKNOWN "-" [],
        .mk .NODE_UNKNOWN "1" []]).child_count = 3 ∧
        ∃ l op r, (ASTNode.mk .NODE_EXPRESSION "" [.mk .NODE_UNKNOWN "b" [],
          .mk .NODE_UNKNOWN "-" [], .mk .NODE_UNKNOWN "1" []]).children = [l, op, r] ∧
          (op.text = "+" ∨ op.text = "-")) :=
  C4_expression_arity "int a; a = b - 1;".data
    (.mk .NODE_PROGRAM "Program" [.mk .NODE_VAR_DECL "a" [],
      .mk .NODE_ASSIGN "a" [.mk .NODE_EXPRESSION "" [.mk .NODE_UNKNOWN "b" [],
        .mk .NODE_UNKNOWN "-" [], .mk .NODE_UNKNOWN "1" []]]])
    ⟨⟨.TOKEN_EOF, ""⟩, []⟩ (by decide) _ (by decide) rfl

theorem getNextToken_file_length (p : PState) :
    p.getNextToken.file.length = p.file.length - 1 := by
  unfold PState.getNextToken
  cases p.file <;> rfl

/-- A token that is not `TOKEN_EOF` has been taken from the tokens to come. -/
theorem getNextToken_file_length_of_type {p : PState} {ty : TokenType}
    (h : p.getNextToken.current_token.type = ty) (hne : ty ≠ .TOKEN_EOF) :
    p.getNextToken.file.length + 1 = p.file.length := by
  unfold PState.getNextToken at h ⊢
  cases hf : p.file with
  | nil => rw [hf] at h; exact absurd h.symm hne
  | cons t ts => rfl

theorem parseExpression_length {p p' : PState} {node : ASTNode}
    (h : parseExpression p = .ok node p') : p'.file.length ≤ p.file.length := by
  rcases parseExpression_ok h with ⟨-, rfl⟩ | ⟨-, -, rfl⟩ <;>
    simp only [getNextToken_file_length] <;> omega

theorem parseVarDecl_length {p p' : PState} {node : ASTNode}
    (h : parseVarDecl p = .ok node p') : p'.file.length < p.file.length := by
  unfold parseVarDecl at h
  simp only at h
  split_ifs at h with h1 h2
  cases h
  have := getNextToken_file_length_of_type (Decidable.not_not.mp h1) (by decide)
  simp only [getNextToken_file_length] at this ⊢
  omega

theorem parseAssignment_length {p p' : PState} {node : ASTNode}
    (h : parseAssignment p = .ok node p') : p'.file.length < p.file.length := by
  unfold parseAssignment at h
  simp only at h
  split_ifs at h with h1
  have h0 := getNextToken_file_length_of_type (Decidable.not_not.mp h1) (by decide)
  cases he : parseExpression p.getNextToken.getNextToken with
  | error m => simp [he] at h
  | outOfFuel => simp [he] at h
  | ok expr p2 =>
    have hle := parseExpression_length he
    simp only [he] at h
    cases ha : addChild (createNode .NODE_ASSIGN p.current_token.text) expr with
    | none => simp [ha] at h
    | some node1 =>
      simp only [ha] at h
      split_ifs at h
      cases h
      simp only [getNextToken_file_length] at h0 hle ⊢
      omega

/-- Progress of the parser: a statement or an `if` that is returned has taken at
least one of the tokens to come, and the block loop takes none back. -/
theorem parse_functions_progress (fuel : Nat) :
    (∀ (p p' : PState) (node : ASTNode), parseStatement fuel p = .ok node p' →
      p'.file.length < p.file.length) ∧
    (∀ (block : ASTNode) (p p' : PState) (node : ASTNode),
      parseBlock fuel block p = .ok node p' → p'.file.length ≤ p.file.length) ∧
    (∀ (p p' : PState) (node : ASTNode), parseIf fuel p = .ok node p' →
      p'.file.length < p.file.length) := by
  induction fuel with
  | zero =>
    refine ⟨?_, ?_, ?_⟩
    · intro p p' node h; simp [parseStatement] at h
    · intro block p p' node h; simp [parseBlock] at h
    · intro p p' node h; simp [parseIf] at h
  | succ fuel ih =>
    obtain ⟨ihS, ihB, ihI⟩ := ih
    refine ⟨?_, ?_, ?_⟩
    · intro p p' node h
      rw [parseStatement] at h
      split_ifs at h
      · exact parseVarDecl_length h
      · exact parseAssignment_length h
      · exact ihI p p' node h
    · intro block p p' node h
      rw [parseBlock] at h
      split_ifs at h
      · cases hs : parseStatement fuel p with
        | error m => simp [hs] at h
        | outOfFuel => simp [hs] at h
        | ok stmt p1 =>
          have h1 := ihS p p1 stmt hs
          simp only [hs] at h
          cases ha : addChild block stmt with
          | none => simp [ha] at h
          | some block1 =>
            simp only [ha] at h
            have h2 := ihB _ p1 p' node h
            omega
      · cases h
        exact Nat.le_refl _
    · intro p p' node h
      rw [parseIf] at h
      split_ifs at h with h1
      have h0 := getNextToken_file_length_of_type (Decidable.not_not.mp h1) (by decide)
      cases hb : parseBlock fuel (createNode .NODE_BLOCK "Block") p.getNextToken.getNextToken with
      | error m => simp [hb] at h
      | outOfFuel => simp [hb] at h
      | ok block p2 =>
        have hle := ihB _ _ p2 block hb
        simp only [hb] at h
        split_ifs at h
        cases ha : addChild (createNode .NODE_IF "if") block with
        | none => simp [ha] at h
        | some node1 =>
          simp only [ha] at h
          cases h
          simp only [getNextToken_file_length] at h0 hle ⊢
          omega

theorem parseExpression_total (p : PState) : parseExpression p ≠ .outOfFuel := by
  unfold parseExpression
  simp only [addChild, createNode, ASTNode.child_count, ASTNode.children, ASTNode.type,
    ASTNode.text, MAX_CHILDREN, List.length_nil, List.nil_append, List.length_cons,
    List.cons_append, show (0 < 3) from by decide, show (0 + 1 < 3) from by decide,
    show (0 + 1 + 1 < 3) from by decide, if_true]
  split_ifs <;> simp

theorem parseVarDecl_total (p : PState) : parseVarDecl p ≠ .outOfFuel := by
  unfold parseVarDecl
  simp only
  split_ifs <;> simp

theorem parseAssignment_total (p : PState) : parseAssignment p ≠ .outOfFuel := by
  unfold parseAssignment
  simp only
  split_ifs
  · simp
  · cases he : parseExpression p.getNextToken.getNextToken with
    | error m => simp
    | outOfFuel => exact absurd he (parseExpression_total _)
    | ok expr p2 =>
      simp only
      cases addChild (createNode .NODE_ASSIGN p.current_token.text) expr with
      | none => simp
      | some node1 =>
        simp only
        split_ifs <;> simp

/-- The recursion bound is never the reason for a result: with three rounds for
each token to come, and a few more, every parsing function returns or stops in a
syntax error. -/
theorem parse_functions_total (fuel : Nat) :
    (∀ (p : PState), 3 * p.file.length + 2 ≤ fuel → parseStatement fuel p ≠ .outOfFuel) ∧
    (∀ (block : ASTNode) (p : PState), 3 * p.file.length + 3 ≤ fuel →
      parseBlock fuel block p ≠ .outOfFuel) ∧
    (∀ (p : PState), 3 * p.file.length + 1 ≤ fuel → parseIf fuel p ≠ .outOfFuel) := by
  induction fuel with
  | zero =>
    refine ⟨?_, ?_, ?_⟩ <;> intros <;> omega
  | succ fuel ih =>
    obtain ⟨ihS, ihB, ihI⟩ := ih
    refine ⟨?_, ?_, ?_⟩
    · intro p hf
      rw [parseStatement]
      split_ifs
      · exact parseVarDecl_total p
      · exact parseAssignment_total p
      · exact ihI p (by omega)
      · simp
    · intro block p hf
      rw [parseBlock]
      split_ifs
      · cases hs : parseStatement fuel p with
        | error m => simp
        | outOfFuel => exact absurd hs (ihS p (by omega))
        | ok stmt p1 =>
          have h1 := (parse_functions_progress fuel).1 p p1 stmt hs
          simp only
          cases addChild block stmt with
          | none => simp
          | some block1 => exact ihB block1 p1 (by omega)
      · simp
    · intro p hf
      rw [parseIf]
      split_ifs with h1
      · simp
      · have h0 := getNextToken_file_length_of_type (Decidable.not_not.mp h1) (by decide)
        cases hb : parseBlock fuel (createNode .NODE_BLOCK "Block")
            p.getNextToken.getNextToken with
        | error m => simp
        | outOfFuel =>
          refine absurd hb (ihB _ _ ?_)
          simp only [getNextToken_file_length] at h0 ⊢
          omega
        | ok block p2 =>
          simp only
          split_ifs
          · simp
          · cases addChild (createNode .NODE_IF "if") block <;> simp

theorem parseProgramLoop_total : ∀ (fuel : Nat) (root : ASTNode) (p : PState),
    3 * p.file.length + 3 ≤ fuel → parseProgramLoop fuel root p ≠ .outOfFuel
  | 0, _, _, hf => by omega
  | fuel + 1, root, p, hf => by
    rw [parseProgramLoop]
    split_ifs
    · cases hs : parseStatement fuel p with
      | error m => simp
      | outOfFuel => exact absurd hs ((parse_functions_total fuel).1 p (by omega))
      | ok stmt p1 =>
        have h1 := (parse_functions_progress fuel).1 p p1 stmt hs
        simp only
        cases addChild root stmt with
        | none => simp
        | some root1 => exact parseProgramLoop_total fuel root1 p1 (by omega)
    · simp

/-- The parser is total: on every token sequence `parse` returns a tree or stops in
a syntax error. -/
theorem parse_total (toks : List Token) : parse toks ≠ .outOfFuel := by
  rw [parse_eq, parseProgram]
  refine parseProgramLoop_total _ _ _ ?_
  have : (feed toks).file.length ≤ toks.length := by
    cases toks <;> simp [feed]
  omega

theorem readRun_length (p : Char → Bool) : ∀ (file text : List Char),
    (readRun p text file).2.length ≤ file.length
  | [], text => by simp [readRun]
  | c :: file, text => by
    rw [readRun]
    by_cases h : p c = true
    · rw [if_pos h]
      exact Nat.le_succ_of_le (readRun_length p file _)
    · rw [if_neg h]

/-- The lexer never gives characters back, and a token other than `TOKEN_EOF` has
used up at least one. -/
theorem getNextToken_length (file : List Char) :
    (getNextToken file).2.length ≤ file.length ∧
    ((getNextToken file).1.type ≠ .TOKEN_EOF →
      (getNextToken file).2.length < file.length) := by
  induction file with
  | nil => simp [getNextToken]
  | cons c file ih =>
    rw [getNextToken]
    by_cases h1 : isspace c = true
    · rw [if_pos h1]
      exact ⟨Nat.le_succ_of_le ih.1, fun h => Nat.lt_succ_of_lt (ih.2 h)⟩
    rw [if_neg h1]
    by_cases h2 : isalpha c = true
    · rw [if_pos h2]
      have := readRun_length isalnum file [c]
      exact ⟨Nat.le_succ_of_le this, fun _ => Nat.lt_succ_of_le this⟩
    rw [if_neg h2]
    by_cases h3 : isdigit c = true
    · rw [if_pos h3]
      have := readRun_length isdigit file [c]
      exact ⟨Nat.le_succ_of_le this, fun _ => Nat.lt_succ_of_le this⟩
    rw [if_neg h3]
    have ht : file.tail.length ≤ file.length := by simp
    split_ifs <;>
      first
        | exact ⟨Nat.le_succ_of_le ht, fun _ => Nat.lt_succ_of_le ht⟩
        | exact ⟨Nat.le_succ _, fun _ => Nat.lt_succ_self _⟩

/-- The bound on the rounds of `tokenize` is never the reason for the end of the
token sequence: any bound from the length of the file on gives the same tokens. -/
theorem tokenize_stable : ∀ (fuel : Nat) (file : List Char), file.length ≤ fuel →
    tokenize fuel file = tokenize file.length file := by
  intro fuel
  induction fuel using Nat.strong_induction_on with
  | _ fuel ih =>
    intro file hlen
    cases file with
    | nil =>
      cases fuel with
      | zero => rfl
      | succ f => simp [tokenize, getNextToken]
    | cons c file =>
      obtain ⟨f, rfl⟩ : ∃ f, fuel = f + 1 := ⟨fuel - 1, by simp at hlen; omega⟩
      have hl := getNextToken_length (c :: file)
      simp only [List.length_cons] at hl hlen ⊢
      rw [tokenize, tokenize]
      by_cases h : (getNextToken (c :: file)).1.type = .TOKEN_EOF
      · simp [h]
      · simp only [h, if_false]
        have hlt := hl.2 h
        rw [ih f (Nat.lt_succ_self f) _ (by omega)]
        by_cases hf : file.length < f + 1
        · rw [ih file.length hf _ (by omega)]
        · have : f = file.length := by omega
          subst this
          rw [ih file.length (Nat.lt_succ_self _) _ (by omega)]

theorem Steps.output_grows {s t : GenState} (h : Steps s t) :
    ∃ lines, t.output = s.output ++ lines := by
  induction h with
  | refl => exact ⟨[], by simp⟩
  | tail _ hstep ih =>
    obtain ⟨lines, hl⟩ := ih
    cases hstep
    case declare => exact ⟨lines, hl⟩
    all_goals (simp only [emit, hl, List.append_assoc]; exact ⟨_, rfl⟩)

/-- The output of a call is the output before it followed by the lines it prints. -/
theorem generateCode_output (node : ASTNode) (s : GenState) :
    (generateCode node s).2.output = s.output ++ emitted node s := by
  obtain ⟨lines, hl⟩ := (generateCode_steps node s).output_grows
  simp [emitted, hl]

theorem afterJump_output (s1 : GenState) :
    (afterJump s1).output
      = s1.output ++ ["CMP R0, 1", "JNE LABEL_" ++ toString s1.label_count] := by
  simp only [afterJump, emit, List.append_assoc, List.singleton_append, ← String.append_assoc]
  rfl

/-- C16: for an If node with the children `c` and `b` whose generations succeed, the
call returns and has printed exactly the code of `c`, `CMP R0, 1`, `JNE LABEL_k`,
the code of `b` and the marker `LABEL_k`, where `k` is the counter left by `c`; `b`
is generated with the counter at `k + 1`, and the state returned is the one left by
`b` with the marker added. -/
theorem C16_if_code (text : String) (c b : ASTNode) (s s1 s4 : GenState)
    (hc : generateCode c s = (.ok, s1))
    (hb : generateCode b (afterJump s1) = (.ok, s4)) :
    generateCode (.mk .NODE_IF text [c, b]) s
      = (.ok, emit ("LABEL_" ++ toString s1.label_count) s4) ∧
    (afterJump s1).label_count = s1.label_count + 1 ∧
    (generateCode (.mk .NODE_IF text [c, b]) s).2.output
      = s.output ++ emitted c s
          ++ ["CMP R0, 1", "JNE LABEL_" ++ toString s1.label_count]
          ++ emitted b (afterJump s1)
          ++ ["LABEL_" ++ toString s1.label_count] := by
  have h : generateCode (.mk .NODE_IF text [c, b]) s
      = (.ok, emit ("LABEL_" ++ toString s1.label_count) s4) := by
    rw [generateCode, hc, andThen_ok]
    simp only
    have hb' := hb
    unfold afterJump at hb'
    rw [hb', andThen_ok]
    rfl
  refine ⟨h, rfl, ?_⟩
  have h1 := generateCode_output c s
  have h4 := generateCode_output b (afterJump s1)
  rw [hc] at h1
  rw [hb] at h4
  simp only at h1 h4
  rw [h]
  simp only [emit, h4, afterJump_output, h1, List.append_assoc]

theorem C16_if_code_witness :
    generateCode (.mk .NODE_IF "if"
        [.mk .NODE_EXPRESSION "" [.mk .NODE_UNKNOWN "1" []],
         .mk .NODE_BLOCK "Block" [.mk .NODE_ASSIGN "a"
           [.mk .NODE_EXPRESSION "" [.mk .NODE_UNKNOWN "7" []]]]])
      ⟨[⟨"a", 0⟩], 4, []⟩
      = (.ok, emit ("LABEL_" ++ toString 4)
          ⟨[⟨"a", 0⟩], 5, ["LOADI R0, 1", "CMP R0, 1", "JNE LABEL_4", "LOADI R0, 7",
            "STORE R0, 0"]⟩) :=
  (C16_if_code "if" _ _ ⟨[⟨"a", 0⟩], 4, []⟩ ⟨[⟨"a", 0⟩], 4, ["LOADI R0, 1"]⟩
    ⟨[⟨"a", 0⟩], 5, ["LOADI R0, 1", "CMP R0, 1", "JNE LABEL_4", "LOADI R0, 7",
      "STORE R0, 0"]⟩ (by decide) (by decide)).1

/-- An If node returned by `parseIf` has one child, the node returned by the loop
over the block. -/
theorem parseIf_one_child {fuel : Nat} {p p' : PState} {node : ASTNode}
    (h : parseIf fuel p = .ok node p') : ∃ block, node = .mk .NODE_IF "if" [block] := by
  cases fuel with
  | zero => simp [parseIf] at h
  | succ fuel =>
    rw [parseIf] at h
    split_ifs at h
    cases hb : parseBlock fuel (createNode .NODE_BLOCK "Block") p.getNextToken.getNextToken with
    | error m => simp [hb] at h
    | outOfFuel => simp [hb] at h
    | ok block p2 =>
      simp only [hb] at h
      split_ifs at h
      simp only [createNode, addChild, ASTNode.child_count, ASTNode.children,
        List.length_nil, MAX_CHILDREN, ASTNode.type, ASTNode.text, List.nil_append] at h
      rw [if_pos (by decide)] at h
      cases h
      exact ⟨block, rfl⟩

/-- C19 (the code fails it): an If node returned by `parseIf` has the Block as its
only child, and `generateCode` takes this child for the condition.  When the nested
statements generate, their code is printed first, `CMP R0, 1` and `JNE LABEL_k`
come after it, and the run then reads the second child slot, which was never
written: no nested instruction lies between the jump and a marker. -/
theorem C19_nested_code_before_jump (fuel : Nat) (p p' : PState) (node : ASTNode)
    (h : parseIf fuel p = .ok node p') :
    ∃ block, node = .mk .NODE_IF "if" [block] ∧
      ∀ s s1, generateCode block s = (.ok, s1) →
        generateCode node s = (.undefinedBehaviour, afterJump s1) ∧
        (afterJump s1).output
          = s.output ++ emitted block s
              ++ ["CMP R0, 1", "JNE LABEL_" ++ toString s1.label_count] := by
  obtain ⟨block, rfl⟩ := parseIf_one_child h
  refine ⟨block, rfl, fun s s1 hgen => ⟨?_, ?_⟩⟩
  · rw [generateCode, hgen, andThen_ok]
    rfl
  · have h1 := generateCode_output block s
    rw [hgen] at h1
    simp only at h1
    rw [afterJump_output, h1]

theorem C19_nested_code_before_jump_witness :
    generateCode (.mk .NODE_IF "if" [.mk .NODE_BLOCK "Block" [.mk .NODE_ASSIGN "a"
        [.mk .NODE_EXPRESSION "" [.mk .NODE_UNKNOWN "1" []]]]]) ⟨[⟨"a", 0⟩], 0, []⟩
      = (.undefinedBehaviour,
          ⟨[⟨"a", 0⟩], 1, ["LOADI R0, 1", "STORE R0, 0", "CMP R0, 1", "JNE LABEL_0"]⟩) := by
  obtain ⟨block, hnode, hgen⟩ := C19_nested_code_before_jump 10
    (feed (tokens "if \x7b a = 1; \x7d".data))
    (feed []) (.mk .NODE_IF "if" [.mk .NODE_BLOCK "Block" [.mk .NODE_ASSIGN "a"
        [.mk .NODE_EXPRESSION "" [.mk .NODE_UNKNOWN "1" []]]]]) (by decide)
  cases hnode
  exact (hgen ⟨[⟨"a", 0⟩], 0, []⟩ ⟨[⟨"a", 0⟩], 0, ["LOADI R0, 1", "STORE R0, 0"]⟩
    (by decide)).1

theorem Declares.nothing (D : List String) (s : GenState) : Declares D s s :=
  ⟨[], List.nil_sublist D, by simp⟩

theorem Declares.same_table {s t : GenState} (D : List String)
    (h : t.symbol_table = s.symbol_table) : Declares D s t :=
  ⟨[], List.nil_sublist D, by simp [h]⟩

theorem Declares.mono {D D' : List String} {s t : GenState} (h : Declares D s t)
    (hD : D.Sublist D') : Declares D' s t := by
  obtain ⟨names, hs, ht⟩ := h
  exact ⟨names, hs.trans hD, ht⟩

theorem Declares.followed_by {D1 D2 : List String} {s t u : GenState} (h1 : Declares D1 s t)
    (h2 : Declares D2 t u) : Declares (D1 ++ D2) s u := by
  obtain ⟨n1, hs1, ht1⟩ := h1
  obtain ⟨n2, hs2, ht2⟩ := h2
  exact ⟨n1 ++ n2, hs1.append hs2, by rw [ht2, ht1, List.append_assoc]⟩

theorem andThen_declares {D1 D2 : List String} (s : GenState) (r : Outcome × GenState)
    (k : GenState → Outcome × GenState)
    (hr : Declares D1 s r.2) (hk : ∀ s1, Declares D2 s1 (k s1).2) :
    Declares (D1 ++ D2) s (andThen r k).2 := by
  obtain ⟨o, s1⟩ := r
  cases o
  case ok => exact hr.followed_by (hk s1)
  all_goals exact hr.mono (List.sublist_append_left D1 D2)

theorem declaredIn_append (a b : List ASTNode) :
    declaredIn (a ++ b) = declaredIn a ++ declaredIn b := by
  simp [declaredIn, List.filterMap_append]

theorem declaredNames_mk (type : NodeType) (text : String) (children : List ASTNode) :
    (ASTNode.mk type text children).declaredNames
      = (if type = .NODE_VAR_DECL then [text] else []) ++ declaredIn (nodesOfList children) := by
  rw [ASTNode.declaredNames, ASTNode.nodes, declaredIn, List.filterMap_cons]
  by_cases h : type = .NODE_VAR_DECL <;> simp [h, ASTNode.type, ASTNode.text, declaredIn]

theorem declaredIn_nodesOfList_cons (c : ASTNode) (cs : List ASTNode) :
    declaredIn (nodesOfList (c :: cs)) = c.declaredNames ++ declaredIn (nodesOfList cs) := by
  rw [nodesOfList, declaredIn_append, ASTNode.declaredNames]

mutual

/-- The entries a run adds to the table carry, in order, names of `NODE_VAR_DECL`
nodes of the tree. -/
theorem generateCode_declares : ∀ (node : ASTNode) (s : GenState),
    Declares node.declaredNames s (generateCode node s).2
  | .mk .NODE_PROGRAM text children, s => by
    rw [generateCode, declaredNames_mk]
    simpa using generateChildren_declares children s
  | .mk .NODE_VAR_DECL text children, s => by
    rw [declaredNames_mk]
    by_cases room : s.symbol_table.length < 100
    · rw [generateCode_var_decl text children s room]
      exact ⟨[text], by simp, by simp⟩
    · rw [generateCode_var_decl_full text children s room]
      exact Declares.nothing _ s
  | .mk .NODE_ASSIGN text [], s => by
    rw [generateCode]
    cases getSymbolAddress s.symbol_table text <;> exact Declares.nothing _ s
  | .mk .NODE_ASSIGN text (c :: cs), s => by
    rw [generateCode, declaredNames_mk, declaredIn_nodesOfList_cons]
    cases getSymbolAddress s.symbol_table text with
    | none => exact Declares.nothing _ s
    | some address =>
      have h := @andThen_declares _ (declaredIn (nodesOfList cs)) s (generateCode c s)
        (fun s1 => (.ok, emit ("STORE R0, " ++ toString address) s1))
        (generateCode_declares c s) (fun s1 => Declares.same_table _ rfl)
      simpa using h
  | .mk .NODE_EXPRESSION _ [], s => by
    rw [generateCode]; exact Declares.nothing _ s
    all_goals simp
  | .mk .NODE_EXPRESSION _ [c], s => by
    rw [generateCode]
    split_ifs
    · exact Declares.same_table _ rfl
    · exact Declares.same_table _ rfl
    · cases getSymbolAddress s.symbol_table c.text <;> exact Declares.same_table _ rfl
  | .mk .NODE_EXPRESSION _ [_, _], s => by
    rw [generateCode]; exact Declares.nothing _ s
    all_goals simp
  | .mk .NODE_EXPRESSION text [l, op, r], s => by
    rw [generateCode, declaredNames_mk, declaredIn_nodesOfList_cons,
      declaredIn_nodesOfList_cons, declaredIn_nodesOfList_cons]
    have hk : ∀ s1, Declares (op.declaredNames ++ (r.declaredNames ++ declaredIn (nodesOfList [])))
        s1 (andThen (generateCode r (emit "PUSH R0" s1)) fun s2 =>
          if op.text = "+" then (Outcome.ok, emit "ADD R0, R1" (emit "POP R1" s2))
          else if op.text = "-" then (Outcome.ok, emit "SUB R0, R1" (emit "POP R1" s2))
          else (Outcome.unsupportedOperator op.text, emit "POP R1" s2)).2 := by
      intro s1
      have hr : Declares r.declaredNames s1 (generateCode r (emit "PUSH R0" s1)).2 := by
        obtain ⟨names, hs, ht⟩ := generateCode_declares r (emit "PUSH R0" s1)
        exact ⟨names, hs, ht⟩
      have h := @andThen_declares _ (declaredIn (nodesOfList [])) s1 _
        (fun s2 =>
          if op.text = "+" then (Outcome.ok, emit "ADD R0, R1" (emit "POP R1" s2))
          else if op.text = "-" then (Outcome.ok, emit "SUB R0, R1" (emit "POP R1" s2))
          else (Outcome.unsupportedOperator op.text, emit "POP R1" s2)) hr
        (fun s2 => by split_ifs <;> exact Declares.same_table _ rfl)
      exact h.mono (List.sublist_append_right _ _)
    have h := andThen_declares s (generateCode l s) _ (generateCode_declares l s) hk
    simpa using h
  | .mk .NODE_EXPRESSION _ (_ :: _ :: _ :: _ :: _), s => by
    rw [generateCode]; exact Declares.nothing _ s
    all_goals simp
  | .mk .NODE_IF _ [], s => by
    rw [generateCode]; exact Declares.nothing _ s
  | .mk .NODE_IF text [c], s => by
    rw [generateCode, declaredNames_mk, declaredIn_nodesOfList_cons]
    have h := @andThen_declares _ (declaredIn (nodesOfList [])) s (generateCode c s)
      (fun s1 => (Outcome.undefinedBehaviour, afterJump s1))
      (generateCode_declares c s) (fun s1 => Declares.same_table _ rfl)
    simpa [afterJump] using h
  | .mk .NODE_IF text (c :: b :: cs), s => by
    rw [generateCode, declaredNames_mk, declaredIn_nodesOfList_cons,
      declaredIn_nodesOfList_cons]
    have hk : ∀ s1, Declares (b.declaredNames ++ declaredIn (nodesOfList cs)) s1
        (andThen (generateCode b (afterJump s1)) fun s4 =>
          (Outcome.ok, emit ("LABEL_" ++ toString (emit "CMP R0, 1" s1).label_count) s4)).2 := by
      intro s1
      have hb : Declares b.declaredNames s1 (generateCode b (afterJump s1)).2 := by
        obtain ⟨names, hs, ht⟩ := generateCode_declares b (afterJump s1)
        exact ⟨names, hs, ht⟩
      exact andThen_declares s1 _ _ hb (fun s4 => Declares.same_table _ rfl)
    have h := andThen_declares s (generateCode c s) _ (generateCode_declares c s) hk
    simpa using h
  | .mk .NODE_BLOCK text children, s => by
    rw [generateCode, declaredNames_mk]
    simpa using generateChildren_declares children s
  | .mk .NODE_UNKNOWN _ _, s => by
    rw [generateCode]; exact Declares.nothing _ s

theorem generateChildren_declares : ∀ (children : List ASTNode) (s : GenState),
    Declares (declaredIn (nodesOfList children)) s (generateChildren children s).2
  | [], s => by rw [generateChildren]; exact Declares.nothing _ s
  | c :: cs, s => by
    rw [generateChildren, declaredIn_nodesOfList_cons]
    exact andThen_declares s _ _ (generateCode_declares c s)
      fun s1 => generateChildren_declares cs s1

end

theorem Prints.nothing_printed (s : GenState) : Prints s s := ⟨[], by simp, by simp⟩

theorem Prints.same_output {s t : GenState} (h : t.output = s.output) : Prints s t :=
  ⟨[], by simp [h], by simp⟩

theorem Prints.and_then {s t u : GenState} (h1 : Prints s t) (h2 : Prints t u) : Prints s u := by
  obtain ⟨l1, ho1, hl1⟩ := h1
  obtain ⟨l2, ho2, hl2⟩ := h2
  refine ⟨l1 ++ l2, by rw [ho2, ho1, List.append_assoc], ?_⟩
  intro l hl
  rcases List.mem_append.mp hl with h | h
  · exact hl1 l h
  · exact hl2 l h

theorem Prints.line {line : String} (s : GenState) (h : EmittedLine line) :
    Prints s (emit line s) :=
  ⟨[line], rfl, by simpa using h⟩

theorem andThen_prints (s : GenState) (r : Outcome × GenState)
    (k : GenState → Outcome × GenState)
    (hr : Prints s r.2) (hk : ∀ s1, Prints s1 (k s1).2) : Prints s (andThen r k).2 :=
  andThen_rel Prints (fun _ _ _ => Prints.and_then) s r k hr hk

theorem afterJump_prints (s1 : GenState) : Prints s1 (afterJump s1) := by
  refine ⟨_, afterJump_output s1, ?_⟩
  intro l hl
  simp only [List.mem_cons, List.mem_singleton, List.not_mem_nil, or_false] at hl
  rcases hl with rfl | rfl
  · exact EmittedLine.cmp
  · exact EmittedLine.jne _

mutual

/-- Whatever the tree and however the run ends, every line of the run is one of the
lines `generateCode` prints. -/
theorem generateCode_prints : ∀ (node : ASTNode) (s : GenState),
    Prints s (generateCode node s).2
  | .mk .NODE_PROGRAM _ children, s => by
    rw [generateCode]; exact generateChildren_prints children s
  | .mk .NODE_VAR_DECL text children, s => by
    by_cases room : s.symbol_table.length < 100
    · rw [generateCode_var_decl text children s room]
      exact Prints.same_output rfl
    · rw [generateCode_var_decl_full text children s room]
      exact Prints.nothing_printed s
  | .mk .NODE_ASSIGN text [], s => by
    rw [generateCode]
    cases getSymbolAddress s.symbol_table text <;> exact Prints.nothing_printed s
  | .mk .NODE_ASSIGN text (c :: _), s => by
    rw [generateCode]
    cases getSymbolAddress s.symbol_table text with
    | none => exact Prints.nothing_printed s
    | some address =>
      exact andThen_prints s _ _ (generateCode_prints c s)
        fun s1 => Prints.line s1 (EmittedLine.store address)
  | .mk .NODE_EXPRESSION _ [], s => by
    rw [generateCode]; exact Prints.nothing_printed s
    all_goals simp
  | .mk .NODE_EXPRESSION _ [c], s => by
    rw [generateCode]
    by_cases h : firstIsDigit c.text = true
    · rw [if_pos h]
      by_cases hlen : 10 + c.text.length + 1 ≤ 50
      · rw [if_pos hlen]
        exact Prints.line s (EmittedLine.loadi c.text h hlen)
      · rw [if_neg hlen]
        exact Prints.nothing_printed s
    · rw [if_neg h]
      cases getSymbolAddress s.symbol_table c.text with
      | none => exact Prints.nothing_printed s
      | some address => exact Prints.line s (EmittedLine.load address)
  | .mk .NODE_EXPRESSION _ [_, _], s => by
    rw [generateCode]; exact Prints.nothing_printed s
    all_goals simp
  | .mk .NODE_EXPRESSION _ [l, op, r], s => by
    rw [generateCode]
    refine andThen_prints s _ _ (generateCode_prints l s) fun s1 => ?_
    refine andThen_prints s1 _ _
      ((Prints.line s1 EmittedLine.push).and_then (generateCode_prints r _)) fun s2 => ?_
    dsimp only
    split_ifs
    · exact (Prints.line s2 EmittedLine.pop).and_then (Prints.line _ EmittedLine.add)
    · exact (Prints.line s2 EmittedLine.pop).and_then (Prints.line _ EmittedLine.sub)
    · exact Prints.line s2 EmittedLine.pop
  | .mk .NODE_EXPRESSION _ (_ :: _ :: _ :: _ :: _), s => by
    rw [generateCode]; exact Prints.nothing_printed s
    all_goals simp
  | .mk .NODE_IF _ [], s => by
    rw [generateCode]; exact Prints.nothing_printed s
  | .mk .NODE_IF _ [c], s => by
    rw [generateCode]
    exact andThen_prints s _ _ (generateCode_prints c s) fun s1 => afterJump_prints s1
  | .mk .NODE_IF _ (c :: b :: _), s => by
    rw [generateCode]
    refine andThen_prints s _ _ (generateCode_prints c s) fun s1 => ?_
    dsimp only
    exact andThen_prints s1 _ _
      ((afterJump_prints s1).and_then (generateCode_prints b (afterJump s1)))
      fun s4 => Prints.line s4 (EmittedLine.label _)
  | .mk .NODE_BLOCK _ children, s => by
    rw [generateCode]; exact generateChildren_prints children s
  | .mk .NODE_UNKNOWN _ _, s => by
    rw [generateCode]; exact Prints.nothing_printed s

theorem generateChildren_prints : ∀ (children : List ASTNode) (s : GenState),
    Prints s (generateChildren children s).2
  | [], s => by rw [generateChildren]; exact Prints.nothing_printed s
  | c :: cs, s => by
    rw [generateChildren]
    exact andThen_prints s _ _ (generateCode_prints c s) fun s1 => generateChildren_prints cs s1

end

/-- The run loop in terms of the file alone: the buffer takes, as far as it has
room, the longest run of accepted characters, and the file is left after that run. -/
theorem readRun_takeWhile (p : Char → Bool) (text file : List Char) :
    readRun p text file
      = (text ++ (file.takeWhile p).take (MAX_TOKEN_LEN - 1 - text.length),
          file.dropWhile p) := by
  have h := readRun_run p (file.takeWhile p) text (file.dropWhile p)
    (fun x hx => List.mem_takeWhile_imp hx)
    (by
      intro x hx
      cases hd : file.dropWhile p with
      | nil => rw [hd] at hx; cases hx
      | cons y ys =>
        rw [hd] at hx
        cases hx
        have := List.head_dropWhile_not p file (by rw [hd]; simp)
        simpa [hd] using this)
  rwa [List.takeWhile_append_dropWhile] at h

/-- The tokens of a file: the first token, and then the tokens of the file the
first call has left. -/
theorem tokens_cons (file : List Char) (h : (getNextToken file).1.type ≠ .TOKEN_EOF) :
    tokens file = (getNextToken file).1 :: tokens (getNextToken file).2 := by
  have hlt := (getNextToken_length file).2 h
  unfold tokens
  obtain ⟨n, hn⟩ : ∃ n, file.length = n + 1 := ⟨file.length - 1, by omega⟩
  rw [hn, tokenize, if_neg h]
  congr 1
  exact tokenize_stable n _ (by omega)

theorem isdigit_not_isspace {c : Char} (h : isdigit c = true) : isspace c = false := by
  simp only [isdigit, Char.isDigit, Bool.and_eq_true, decide_eq_true_eq] at h
  simp only [isspace, Bool.or_eq_false_iff, Bool.and_eq_false_iff, beq_eq_false_iff_ne,
    decide_eq_false_iff_not, ne_eq]
  have h' : 48 ≤ c.toNat ∧ c.toNat ≤ 57 := ⟨h.1, h.2⟩
  constructor
  · rintro rfl
    revert h'
    decide
  · omega

theorem isdigit_not_isalpha {c : Char} (h : isdigit c = true) : isalpha c = false := by
  simp only [isdigit, Char.isDigit, Bool.and_eq_true, decide_eq_true_eq] at h
  have h' : 48 ≤ c.toNat ∧ c.toNat ≤ 57 := ⟨h.1, h.2⟩
  simp only [isalpha, Char.isAlpha, Char.isUpper, Char.isLower, Bool.or_eq_false_iff,
    Bool.and_eq_false_iff, decide_eq_false_iff_not]
  have e1 : ¬ (65 ≤ c.toNat) := by omega
  have e2 : ¬ (97 ≤ c.toNat) := by omega
  exact ⟨Or.inl e1, Or.inl e2⟩

/-- C18: a run of more than 99 letters and digits that begins with a letter is one
`TOKEN_IDENTIFIER` token, a run of more than 99 digits one `TOKEN_NUMBER` token; the
text is the first 99 characters of the run, the file is left at the first character
after the run, and the tokens that follow are those of the file after the run. -/
theorem C18_long_runs_truncated (c : Char) (run rest : List Char)
    (hlen : 99 < (c :: run).length) :
    (isalpha c = true → (∀ x ∈ run, isalnum x = true) →
      (∀ x, rest.head? = some x → isalnum x = false) →
      getNextToken (c :: run ++ rest)
        = (⟨.TOKEN_IDENTIFIER, String.mk ((c :: run).take 99)⟩, rest) ∧
      tokens (c :: run ++ rest)
        = ⟨.TOKEN_IDENTIFIER, String.mk ((c :: run).take 99)⟩ :: tokens rest) ∧
    (isdigit c = true → (∀ x ∈ run, isdigit x = true) →
      (∀ x, rest.head? = some x → isdigit x = false) →
      getNextToken (c :: run ++ rest)
        = (⟨.TOKEN_NUMBER, String.mk ((c :: run).take 99)⟩, rest) ∧
      tokens (c :: run ++ rest)
        = ⟨.TOKEN_NUMBER, String.mk ((c :: run).take 99)⟩ :: tokens rest) := by
  have htake : ∀ p : Char → Bool, (∀ x ∈ run, p x = true) →
      (∀ x, rest.head? = some x → p x = false) →
      readRun p [c] (run ++ rest) = ((c :: run).take 99, rest) := by
    intro p h1 h2
    rw [readRun_run p run [c] rest h1 h2]
    simp [MAX_TOKEN_LEN]
  constructor
  · intro hc hrun hrest
    have hget : getNextToken (c :: run ++ rest)
        = (⟨.TOKEN_IDENTIFIER, String.mk ((c :: run).take 99)⟩, rest) := by
      rw [List.cons_append, getNextToken, if_neg (by rw [isalpha_not_isspace hc]; simp),
        if_pos hc]
      simp only [htake isalnum hrun hrest]
      have hl : ((c :: run).take 99).length = 99 := by
        rw [List.length_take]; omega
      have h1 : String.mk ((c :: run).take 99) ≠ "int" := by
        intro h
        have := congrArg String.length h
        simp only [String.length, hl] at this
        revert this
        decide
      have h2 : String.mk ((c :: run).take 99) ≠ "if" := by
        intro h
        have := congrArg String.length h
        simp only [String.length, hl] at this
        revert this
        decide
      rw [if_neg h1, if_neg h2]
    refine ⟨hget, ?_⟩
    rw [tokens_cons _ (by rw [hget]; exact fun h => nomatch h), hget]
  · intro hc hrun hrest
    have hget : getNextToken (c :: run ++ rest)
        = (⟨.TOKEN_NUMBER, String.mk ((c :: run).take 99)⟩, rest) := by
      rw [List.cons_append, getNextToken, if_neg (by rw [isdigit_not_isspace hc]; simp),
        if_neg (by rw [isdigit_not_isalpha hc]; simp), if_pos hc]
      simp only [htake isdigit hrun hrest]
    refine ⟨hget, ?_⟩
    rw [tokens_cons _ (by rw [hget]; exact fun h => nomatch h), hget]

theorem C18_long_runs_truncated_witness :
    getNextToken ('1' :: List.replicate 99 '2' ++ ['x'])
      = (⟨.TOKEN_NUMBER, String.mk (('1' :: List.replicate 99 '2').take 99)⟩, ['x']) :=
  ((C18_long_runs_truncated '1' (List.replicate 99 '2') ['x'] (by decide)).2
    (by decide) (by decide) (by decide)).1

/-- C17 (as stated it fails): a NUL byte is read as one `TOKEN_UNKNOWN` token whose
text is empty, so the byte that was used up is neither whitespace nor text. -/
theorem C17_nul_byte_consumed :
    getNextToken [Char.ofNat 0, 'a'] = (⟨.TOKEN_UNKNOWN, ""⟩, ['a']) ∧
    ¬ ∃ w : List Char, (∀ c ∈ w, isspace c = true) ∧
        [Char.ofNat 0, 'a']
          = w ++ (getNextToken [Char.ofNat 0, 'a']).1.text.data
              ++ (getNextToken [Char.ofNat 0, 'a']).2 := by
  have h : getNextToken [Char.ofNat 0, 'a'] = (⟨.TOKEN_UNKNOWN, ""⟩, ['a']) := by decide
  refine ⟨h, ?_⟩
  rw [h]
  rintro ⟨w, hw, heq⟩
  have hd : ("" : String).data = [] := rfl
  simp only [hd, List.append_nil] at heq
  cases w with
  | nil => simp at heq
  | cons x w =>
    simp only [List.cons_append, List.cons.injEq] at heq
    have := hw x (List.mem_cons_self _ _)
    rw [← heq.1] at this
    revert this
    decide

/-- C17 (amended): in a file without a NUL byte in which no identifier run and no
digit run is longer than 99 characters, a call that returns a token other than
`TOKEN_EOF` has used up whitespace and then exactly the text of the token, and a call
that returns `TOKEN_EOF` has used up whitespace only, up to the end of the file. -/
theorem C17_consumes_whitespace_and_text (input : List Char)
    (hnul : ∀ c ∈ input, c ≠ Char.ofNat 0)
    (hid : ∀ pre c run post, input = pre ++ c :: run ++ post → isalpha c = true →
      (∀ x ∈ run, isalnum x = true) → (c :: run).length ≤ 99)
    (hnum : ∀ pre c run post, input = pre ++ c :: run ++ post → isdigit c = true →
      (∀ x ∈ run, isdigit x = true) → (c :: run).length ≤ 99) :
    ((getNextToken input).1.type ≠ .TOKEN_EOF →
      ∃ w : List Char, (∀ c ∈ w, isspace c = true) ∧
        input = w ++ (getNextToken input).1.text.data ++ (getNextToken input).2) ∧
    ((getNextToken input).1.type = .TOKEN_EOF →
      (∀ c ∈ input, isspace c = true) ∧ (getNextToken input).2 = []) := by
  induction input with
  | nil => simp [getNextToken]
  | cons c file ih =>
    by_cases h1 : isspace c = true
    · have ih' := ih (fun x hx => hnul x (List.mem_cons_of_mem _ hx))
        (fun pre d run post h => hid (c :: pre) d run post (by rw [h]; rfl))
        (fun pre d run post h => hnum (c :: pre) d run post (by rw [h]; rfl))
      rw [getNextToken, if_pos h1]
      constructor
      · intro hne
        obtain ⟨w, hw, heq⟩ := ih'.1 hne
        refine ⟨c :: w, ?_, by rw [List.cons_append, List.cons_append, ← heq]⟩
        intro x hx
        rcases List.mem_cons.mp hx with rfl | hx
        · exact h1
        · exact hw x hx
      · intro he
        obtain ⟨hall, hrest⟩ := ih'.2 he
        refine ⟨?_, hrest⟩
        intro x hx
        rcases List.mem_cons.mp hx with rfl | hx
        · exact h1
        · exact hall x hx
    · have split : file = file.takeWhile isalnum ++ file.dropWhile isalnum :=
        (List.takeWhile_append_dropWhile _ _).symm
      have splitd : file = file.takeWhile isdigit ++ file.dropWhile isdigit :=
        (List.takeWhile_append_dropWhile _ _).symm
      rw [getNextToken, if_neg h1]
      by_cases h2 : isalpha c = true
      · have hlen := hid [] c (file.takeWhile isalnum) (file.dropWhile isalnum)
          (by rw [List.nil_append, List.cons_append, ← split]) h2
          (fun x hx => List.mem_takeWhile_imp hx)
        have hr : readRun isalnum [c] file
            = (c :: file.takeWhile isalnum, file.dropWhile isalnum) := by
          rw [readRun_takeWhile]
          have : (file.takeWhile isalnum).length ≤ MAX_TOKEN_LEN - 1 - [c].length := by
            simp only [List.length_cons, List.length_nil, MAX_TOKEN_LEN] at hlen ⊢
            omega
          rw [List.take_of_length_le this]
          rfl
        rw [if_pos h2]
        simp only [hr]
        constructor
        · intro _
          exact ⟨[], by simp, by rw [List.nil_append, List.cons_append, ← split]⟩
        · intro he
          split_ifs at he
      rw [if_neg h2]
      by_cases h3 : isdigit c = true
      · have hlen := hnum [] c (file.takeWhile isdigit) (file.dropWhile isdigit)
          (by rw [List.nil_append, List.cons_append, ← splitd]) h3
          (fun x hx => List.mem_takeWhile_imp hx)
        have hr : readRun isdigit [c] file
            = (c :: file.takeWhile isdigit, file.dropWhile isdigit) := by
          rw [readRun_takeWhile]
          have : (file.takeWhile isdigit).length ≤ MAX_TOKEN_LEN - 1 - [c].length := by
            simp only [List.length_cons, List.length_nil, MAX_TOKEN_LEN] at hlen ⊢
            omega
          rw [List.take_of_length_le this]
          rfl
        rw [if_pos h3]
        simp only [hr]
        constructor
        · intro _
          exact ⟨[], by simp, by rw [List.nil_append, List.cons_append, ← splitd]⟩
        · intro he
          cases he
      rw [if_neg h3]
      have hc0 : c ≠ Char.ofNat 0 := hnul c (List.mem_cons_self _ _)
      by_cases e1 : c = '='
      · rw [if_pos e1]
        by_cases e2 : file.head? = some '='
        · rw [if_pos e2]
          constructor
          · intro _
            refine ⟨[], by simp, ?_⟩
            cases file with
            | nil => cases e2
            | cons d rest =>
              simp only [List.head?_cons, Option.some.injEq] at e2
              subst e1 e2
              rfl
          · intro he; cases he
        · rw [if_neg e2]
          constructor
          · intro _
            exact ⟨[], by simp, by subst e1; rfl⟩
          · intro he; cases he
      rw [if_neg e1]
      split_ifs with e3 e4 e5 e6 e7
      · exact ⟨fun _ => ⟨[], by simp, by subst e3; rfl⟩, fun he => by cases he⟩
      · exact ⟨fun _ => ⟨[], by simp, by subst e4; rfl⟩, fun he => by cases he⟩
      · exact ⟨fun _ => ⟨[], by simp, by subst e5; rfl⟩, fun he => by cases he⟩
      · exact ⟨fun _ => ⟨[], by simp, by subst e6; rfl⟩, fun he => by cases he⟩
      · exact ⟨fun _ => ⟨[], by simp, by subst e7; rfl⟩, fun he => by cases he⟩
      · exact ⟨fun _ => ⟨[], by simp, rfl⟩, fun he => by cases he⟩

theorem C17_consumes_whitespace_and_text_witness :
    ∃ w : List Char, (∀ c ∈ w, isspace c = true) ∧
      "  x1 = 2".data = w ++ (getNextToken "  x1 = 2".data).1.text.data
        ++ (getNextToken "  x1 = 2".data).2 :=
  (C17_consumes_whitespace_and_text "  x1 = 2".data (by decide)
    (by
      intro pre c run post h _ _
      have h8 : "  x1 = 2".data = [' ', ' ', 'x', '1', ' ', '=', ' ', '2'] := rfl
      rw [h8] at h
      have := congrArg List.length h
      simp only [List.length_append, List.length_cons, List.length_nil] at this ⊢
      omega)
    (by
      intro pre c run post h _ _
      have h8 : "  x1 = 2".data = [' ', ' ', 'x', '1', ' ', '=', ' ', '2'] := rfl
      rw [h8] at h
      have := congrArg List.length h
      simp only [List.length_append, List.length_cons, List.length_nil] at this ⊢
      omega)).1 (by decide)

theorem Token.lexical_ne_eof {t : Token} (h : t.lexical = true) : t.type ≠ .TOKEN_EOF := by
  simp only [Token.lexical, Bool.and_eq_true, bne_iff_ne, ne_eq] at h
  exact h.1

theorem Token.lexical_text {t : Token} (h : t.lexical = true) {s : String}
    (hs : fixedText t.type = some s) : t = ⟨t.type, s⟩ := by
  simp only [Token.lexical, Bool.and_eq_true, hs, beq_iff_eq] at h
  cases t
  simp_all

theorem getNextToken_lexical (file : List Char)
    (h : (getNextToken file).1.type ≠ .TOKEN_EOF) : (getNextToken file).1.lexical = true := by
  induction file with
  | nil => simp [getNextToken] at h
  | cons c file ih =>
    rw [getNextToken] at h ⊢
    by_cases h1 : isspace c = true
    · rw [if_pos h1] at h ⊢; exact ih h
    rw [if_neg h1]
    by_cases h2 : isalpha c = true
    · rw [if_pos h2]
      simp only
      by_cases e1 : String.mk (readRun isalnum [c] file).1 = "int"
      · simp [e1, Token.lexical, fixedText]
      · by_cases e2 : String.mk (readRun isalnum [c] file).1 = "if"
        · simp [e1, e2, Token.lexical, fixedText]
        · simp [e1, e2, Token.lexical, fixedText]
    rw [if_neg h2]
    by_cases h3 : isdigit c = true
    · rw [if_pos h3]
      simp [Token.lexical, fixedText]
    rw [if_neg h3]
    split_ifs <;> simp [Token.lexical, fixedText]

theorem tokenize_lexical : ∀ (fuel : Nat) (file : List Char),
    ∀ t ∈ tokenize fuel file, t.lexical = true
  | 0, _ => by simp [tokenize]
  | fuel + 1, file => by
    intro t ht
    rw [tokenize] at ht
    by_cases h : (getNextToken file).1.type = .TOKEN_EOF
    · simp [h] at ht
    · simp only [h, if_false] at ht
      rcases List.mem_cons.mp ht with rfl | h'
      · exact getNextToken_lexical file h
      · exact tokenize_lexical fuel _ t h'

/-- Every token the lexer delivers for a file is a lexical token. -/
theorem tokens_lexical (file : List Char) : ∀ t ∈ tokens file, t.lexical = true :=
  tokenize_lexical _ _

theorem feed_cons (t : Token) (ts : List Token) : feed (t :: ts) = ⟨t, ts⟩ := rfl

theorem feed_current {toks : List Token} {ty : TokenType}
    (h : (feed toks).current_token.type = ty) (hne : ty ≠ .TOKEN_EOF) :
    ∃ t ts, toks = t :: ts ∧ t.type = ty := by
  cases toks with
  | nil => exact absurd h.symm hne
  | cons t ts => exact ⟨t, ts, rfl, h⟩

theorem operand_of_token {t : Token}
    (h : t.type = .TOKEN_IDENTIFIER ∨ t.type = .TOKEN_NUMBER) :
    ∃ a : Grammar.Operand, a.token = t := by
  obtain ⟨ty, text⟩ := t
  rcases h with h | h
  · exact ⟨.identifier text, by simp only at h; subst h; rfl⟩
  · exact ⟨.number text, by simp only at h; subst h; rfl⟩

theorem operator_of_token {t : Token} (hl : t.lexical = true)
    (h : t.type = .TOKEN_PLUS ∨ t.type = .TOKEN_MINUS) :
    ∃ op : Grammar.Operator, op.token = t := by
  rcases h with h | h
  · exact ⟨.plus, by rw [Token.lexical_text hl (s := "+") (by rw [h]; rfl), h]; rfl⟩
  · exact ⟨.minus, by rw [Token.lexical_text hl (s := "-") (by rw [h]; rfl), h]; rfl⟩

/-- An expression that is returned is the node of a derivation of the tokens read. -/
theorem parseExpression_exact {toks : List Token} {node : ASTNode} {p' : PState}
    (hlex : ∀ t ∈ toks, t.lexical = true)
    (h : parseExpression (feed toks) = .ok node p') :
    ∃ (e : Grammar.Expression) (rest : List Token),
      toks = e.tokens ++ rest ∧ node = e.tree ∧ p' = feed rest := by
  unfold parseExpression at h
  simp only [addChild, createNode, ASTNode.child_count, ASTNode.children, ASTNode.type,
    ASTNode.text, MAX_CHILDREN, List.length_nil, List.nil_append, List.length_cons,
    List.cons_append, show (0 < 3) from by decide, show (0 + 1 < 3) from by decide,
    show (0 + 1 + 1 < 3) from by decide, if_true, getNextToken_eq_feed] at h
  split_ifs at h with h0 h1 h2
  · -- operand, operator, operand
    obtain ⟨t0, ts0, rfl, -⟩ : ∃ t ts, toks = t :: ts ∧ t.type = (feed toks).current_token.type :=
      feed_current rfl (by rcases h0 with h0 | h0 <;> rw [h0] <;> decide)
    simp only [feed_cons] at h h0 h1 h2
    obtain ⟨t1, ts1, rfl, -⟩ : ∃ t ts, ts0 = t :: ts ∧ t.type = (feed ts0).current_token.type :=
      feed_current rfl (by rcases h1 with h1 | h1 <;> rw [h1] <;> decide)
    simp only [feed_cons] at h h1 h2
    obtain ⟨t2, ts2, rfl, -⟩ : ∃ t ts, ts1 = t :: ts ∧ t.type = (feed ts1).current_token.type :=
      feed_current rfl (by rcases h2 with h2 | h2 <;> rw [h2] <;> decide)
    simp only [feed_cons] at h h2
    obtain ⟨a, rfl⟩ := operand_of_token h0
    obtain ⟨op, rfl⟩ := operator_of_token (hlex _ (by simp)) h1
    obtain ⟨b, rfl⟩ := operand_of_token h2
    cases h
    exact ⟨.binary a op b, ts2, rfl, rfl, rfl⟩
  · -- one operand
    obtain ⟨t0, ts0, rfl, -⟩ : ∃ t ts, toks = t :: ts ∧ t.type = (feed toks).current_token.type :=
      feed_current rfl (by rcases h0 with h0 | h0 <;> rw [h0] <;> decide)
    simp only [feed_cons] at h h0
    obtain ⟨a, rfl⟩ := operand_of_token h0
    cases h
    exact ⟨.single a, ts0, rfl, rfl, rfl⟩

theorem lexical_tail {t : Token} {ts : List Token} (h : ∀ x ∈ t :: ts, x.lexical = true) :
    ∀ x ∈ ts, x.lexical = true := fun x hx => h x (List.mem_cons_of_mem _ hx)

theorem lexical_suffix {a b : List Token} (h : ∀ x ∈ a ++ b, x.lexical = true) :
    ∀ x ∈ b, x.lexical = true := fun x hx => h x (List.mem_append_right _ hx)

theorem parseVarDecl_exact {toks : List Token} {node : ASTNode} {p' : PState}
    (hlex : ∀ t ∈ toks, t.lexical = true)
    (hcur : (feed toks).current_token.type = .TOKEN_INT)
    (h : parseVarDecl (feed toks) = .ok node p') :
    ∃ (name : String) (rest : List Token),
      toks = (Grammar.Statement.varDecl name).tokens ++ rest ∧
      node = (Grammar.Statement.varDecl name).tree ∧ p' = feed rest := by
  obtain ⟨t0, ts0, rfl, ht0⟩ := feed_current hcur (by decide)
  unfold parseVarDecl at h
  simp only [getNextToken_eq_feed, feed_cons] at h
  split_ifs at h with h1 h2
  obtain ⟨t1, ts1, rfl, ht1⟩ := feed_current (Decidable.not_not.mp h1) (by decide)
  simp only [feed_cons] at h h2
  obtain ⟨t2, ts2, rfl, ht2⟩ := feed_current (Decidable.not_not.mp h2) (by decide)
  simp only [feed_cons, createNode] at h
  cases h
  refine ⟨t1.text, ts2, ?_, rfl, rfl⟩
  have e0 := Token.lexical_text (hlex t0 (by simp)) (s := "int") (by rw [ht0]; rfl)
  have e2 := Token.lexical_text (hlex t2 (by simp)) (s := ";") (by rw [ht2]; rfl)
  have e1 : t1 = ⟨.TOKEN_IDENTIFIER, t1.text⟩ := by rw [← ht1]
  rw [e0, e2, ht0, ht2]
  simp only [Grammar.Statement.tokens, List.cons_append, List.nil_append]
  rw [← e1]

theorem parseAssignment_exact {toks : List Token} {node : ASTNode} {p' : PState}
    (hlex : ∀ t ∈ toks, t.lexical = true)
    (hcur : (feed toks).current_token.type = .TOKEN_IDENTIFIER)
    (h : parseAssignment (feed toks) = .ok node p') :
    ∃ (target : String) (e : Grammar.Expression) (rest : List Token),
      toks = (Grammar.Statement.assignment target e).tokens ++ rest ∧
      node = (Grammar.Statement.assignment target e).tree ∧ p' = feed rest := by
  obtain ⟨t0, ts0, rfl, ht0⟩ := feed_current hcur (by decide)
  unfold parseAssignment at h
  simp only [getNextToken_eq_feed, feed_cons] at h
  split_ifs at h with h1
  obtain ⟨t1, ts1, rfl, ht1⟩ := feed_current (Decidable.not_not.mp h1) (by decide)
  simp only [feed_cons] at h
  cases he : parseExpression (feed ts1) with
  | error m => simp [he] at h
  | outOfFuel => simp [he] at h
  | ok expr p2 =>
    obtain ⟨e, rest1, rfl, rfl, rfl⟩ :=
      parseExpression_exact (lexical_tail (lexical_tail hlex)) he
    simp only [he, createNode, addChild, ASTNode.child_count, ASTNode.children,
      List.length_nil, MAX_CHILDREN, ASTNode.type, ASTNode.text, List.nil_append] at h
    rw [if_pos (by decide)] at h
    simp only at h
    split_ifs at h with h2
    obtain ⟨t2, ts2, rfl, ht2⟩ := feed_current (Decidable.not_not.mp h2) (by decide)
    simp only [feed_cons, getNextToken_eq_feed] at h
    cases h
    refine ⟨t0.text, e, ts2, ?_, rfl, rfl⟩
    have e1 := Token.lexical_text (hlex t1 (by simp)) (s := "=") (by rw [ht1]; rfl)
    have e2 := Token.lexical_text (hlex t2 (by simp)) (s := ";") (by rw [ht2]; rfl)
    have e0 : t0 = ⟨.TOKEN_IDENTIFIER, t0.text⟩ := by rw [← ht0]
    rw [e1, e2, ht1, ht2]
    simp only [Grammar.Statement.tokens, List.cons_append, List.append_assoc,
      List.singleton_append, List.nil_append]
    rw [← e0]

/-- Exactness of the parser on lexical tokens, by the recursion bound: what a
parsing function returns is the node of a derivation of the tokens it has read, and
it leaves the parser in front of the tokens that follow. -/
theorem parse_functions_exact (fuel : Nat) :
    (∀ (toks : List Token) (node : ASTNode) (p' : PState),
      (∀ t ∈ toks, t.lexical = true) → parseStatement fuel (feed toks) = .ok node p' →
      ∃ (st : Grammar.Statement) (rest : List Token),
        toks = st.tokens ++ rest ∧ st.Fits 3 ∧ node = st.tree ∧ p' = feed rest) ∧
    (∀ (block : ASTNode) (toks : List Token) (node : ASTNode) (p' : PState),
      (∀ t ∈ toks, t.lexical = true) → parseBlock fuel block (feed toks) = .ok node p' →
      ∃ (body : List Grammar.Statement) (rest : List Token),
        toks = Grammar.tokensOfList body ++ rest ∧ Grammar.FitsList 3 body ∧
        (body = [] ∨ block.child_count + body.length ≤ 3) ∧
        node = .mk block.type block.text (block.children ++ Grammar.treesOfList body) ∧
        p' = feed rest ∧
        ((feed rest).current_token.type = .TOKEN_RBRACE ∨
          (feed rest).current_token.type = .TOKEN_EOF)) ∧
    (∀ (toks : List Token) (node : ASTNode) (p' : PState),
      (∀ t ∈ toks, t.lexical = true) → (feed toks).current_token.type = .TOKEN_IF →
      parseIf fuel (feed toks) = .ok node p' →
      ∃ (body : List Grammar.Statement) (rest : List Token),
        toks = (Grammar.Statement.ifStmt body).tokens ++ rest ∧
        (Grammar.Statement.ifStmt body).Fits 3 ∧
        node = (Grammar.Statement.ifStmt body).tree ∧ p' = feed rest) := by
  induction fuel with
  | zero =>
    refine ⟨?_, ?_, ?_⟩
    · intro toks node p' _ h; simp [parseStatement] at h
    · intro block toks node p' _ h; simp [parseBlock] at h
    · intro toks node p' _ _ h; simp [parseIf] at h
  | succ fuel ih =>
    obtain ⟨ihS, ihB, ihI⟩ := ih
    refine ⟨?_, ?_, ?_⟩
    · intro toks node p' hlex h
      rw [parseStatement] at h
      split_ifs at h with c1 c2 c3
      · obtain ⟨name, rest, rfl, rfl, rfl⟩ := parseVarDecl_exact hlex c1 h
        exact ⟨.varDecl name, rest, rfl, by simp [Grammar.Statement.Fits], rfl, rfl⟩
      · obtain ⟨target, e, rest, rfl, rfl, rfl⟩ := parseAssignment_exact hlex c2 h
        exact ⟨.assignment target e, rest, rfl, by simp [Grammar.Statement.Fits], rfl, rfl⟩
      · obtain ⟨body, rest, rfl, hfit, rfl, rfl⟩ := ihI toks node p' hlex c3 h
        exact ⟨.ifStmt body, rest, rfl, hfit, rfl, rfl⟩
    · intro block toks node p' hlex h
      rw [parseBlock] at h
      split_ifs at h with hc
      · cases hs : parseStatement fuel (feed toks) with
        | error m => simp [hs] at h
        | outOfFuel => simp [hs] at h
        | ok stmt p1 =>
          obtain ⟨st, rest1, rfl, hst, rfl, rfl⟩ := ihS toks stmt p1 hlex hs
          simp only [hs] at h
          cases ha : addChild block st.tree with
          | none => simp [ha] at h
          | some block1 =>
            obtain ⟨hlt, rfl⟩ := addChild_some ha
            simp only [ha] at h
            obtain ⟨body, rest, rfl, hfit, hroom, rfl, rfl, hend⟩ :=
              ihB _ rest1 node p' (lexical_suffix hlex) h
            refine ⟨st :: body, rest, ?_, ⟨hst, hfit⟩, Or.inr ?_, ?_, rfl, hend⟩
            · simp [Grammar.tokensOfList]
            · rcases hroom with rfl | hroom
              · simp only [List.length_cons, List.length_nil]; omega
              · simp only [ASTNode.child_count, ASTNode.children, List.length_append,
                  List.length_singleton, List.length_cons] at hroom hlt ⊢
                omega
            · simp [ASTNode.type, ASTNode.text, ASTNode.children, Grammar.treesOfList]
      · cases h
        refine ⟨[], toks, rfl, trivial, Or.inl rfl, ?_, rfl, ?_⟩
        · cases block with
          | mk type text children =>
            simp [ASTNode.type, ASTNode.text, ASTNode.children, Grammar.treesOfList]
        · by_contra hne
          exact hc ⟨fun h => hne (Or.inl h), fun h => hne (Or.inr h)⟩
    · intro toks node p' hlex hcur h
      obtain ⟨t0, ts0, rfl, ht0⟩ := feed_current hcur (by decide)
      rw [parseIf] at h
      simp only [getNextToken_eq_feed, feed_cons] at h
      split_ifs at h with h1
      obtain ⟨t1, ts1, rfl, ht1⟩ := feed_current (Decidable.not_not.mp h1) (by decide)
      simp only [feed_cons] at h
      cases hb : parseBlock fuel (createNode .NODE_BLOCK "Block") (feed ts1) with
      | error m => simp [hb] at h
      | outOfFuel => simp [hb] at h
      | ok block p2 =>
        obtain ⟨body, rest1, rfl, hfit, hroom, rfl, rfl, -⟩ :=
          ihB _ ts1 block p2 (lexical_tail (lexical_tail hlex)) hb
        simp only [hb] at h
        split_ifs at h with h2
        obtain ⟨t2, ts2, rfl, ht2⟩ := feed_current (Decidable.not_not.mp h2) (by decide)
        simp only [createNode, addChild, ASTNode.child_count, ASTNode.children,
          List.length_nil, MAX_CHILDREN, ASTNode.type, ASTNode.text, List.nil_append,
          getNextToken_eq_feed, feed_cons] at h
        rw [if_pos (by decide)] at h
        cases h
        have e0 := Token.lexical_text (hlex t0 (by simp)) (s := "if") (by rw [ht0]; rfl)
        have e1 := Token.lexical_text (hlex t1 (by simp)) (s := "\x7b") (by rw [ht1]; rfl)
        have e2 := Token.lexical_text (hlex t2 (by simp)) (s := "\x7d") (by rw [ht2]; rfl)
        refine ⟨body, ts2, ?_, ⟨?_, hfit⟩, rfl, rfl⟩
        · rw [e0, e1, e2, ht0, ht1, ht2]
          simp [Grammar.Statement.tokens]
        · rcases hroom with rfl | hroom
          · simp
          · simpa [createNode, ASTNode.child_count, ASTNode.children] using hroom

theorem parseProgramLoop_exact : ∀ (fuel : Nat) (root : ASTNode) (toks : List Token)
    (node : ASTNode) (p' : PState), (∀ t ∈ toks, t.lexical = true) →
    parseProgramLoop fuel root (feed toks) = .ok node p' →
    ∃ prog : List Grammar.Statement, toks = Grammar.tokensOfList prog ∧
      Grammar.FitsList 3 prog ∧ (prog = [] ∨ root.child_count + prog.length ≤ 3) ∧
      node = .mk root.type root.text (root.children ++ Grammar.treesOfList prog)
  | 0, _, _, _, _, _, h => by simp [parseProgramLoop] at h
  | fuel + 1, root, toks, node, p', hlex, h => by
    rw [parseProgramLoop] at h
    split_ifs at h with hc
    · cases hs : parseStatement fuel (feed toks) with
      | error m => simp [hs] at h
      | outOfFuel => simp [hs] at h
      | ok stmt p1 =>
        obtain ⟨st, rest1, rfl, hst, rfl, rfl⟩ :=
          (parse_functions_exact fuel).1 toks stmt p1 hlex hs
        simp only [hs] at h
        cases ha : addChild root st.tree with
        | none => simp [ha] at h
        | some root1 =>
          obtain ⟨hlt, rfl⟩ := addChild_some ha
          simp only [ha] at h
          obtain ⟨prog, rfl, hfit, hroom, rfl⟩ :=
            parseProgramLoop_exact fuel _ rest1 node p' (lexical_suffix hlex) h
          refine ⟨st :: prog, ?_, ⟨hst, hfit⟩, Or.inr ?_, ?_⟩
          · simp [Grammar.tokensOfList]
          · rcases hroom with rfl | hroom
            · simp only [List.length_cons, List.length_nil]; omega
            · simp only [ASTNode.child_count, ASTNode.children, List.length_append,
                List.length_singleton, List.length_cons] at hroom hlt ⊢
              omega
          · simp [ASTNode.type, ASTNode.text, ASTNode.children, Grammar.treesOfList]
    · cases h
      have hnil : toks = [] := by
        cases toks with
        | nil => rfl
        | cons t ts =>
          exact absurd (Decidable.not_not.mp hc)
            (Token.lexical_ne_eof (hlex t (List.mem_cons_self _ _)))
      subst hnil
      refine ⟨[], rfl, trivial, Or.inl rfl, ?_⟩
      cases root with
      | mk type text children =>
        simp [ASTNode.type, ASTNode.text, ASTNode.children, Grammar.treesOfList]

/-- On lexical tokens the parser returns a tree exactly for the token sequences that
the grammar derives with at most three statements at top level and in each block,
and the tree is the Program tree of the derivation. -/
theorem parse_exact {toks : List Token} {tree : ASTNode} {p : PState}
    (hlex : ∀ t ∈ toks, t.lexical = true) (h : parse toks = .ok tree p) :
    ∃ prog : List Grammar.Statement, toks = Grammar.tokensOfList prog ∧
      prog.length ≤ 3 ∧ Grammar.FitsList 3 prog ∧
      tree = .mk .NODE_PROGRAM "Program" (Grammar.treesOfList prog) := by
  rw [parse_eq, parseProgram] at h
  obtain ⟨prog, rfl, hfit, hroom, rfl⟩ := parseProgramLoop_exact _ _ _ _ _ hlex h
  refine ⟨prog, rfl, ?_, hfit, rfl⟩
  rcases hroom with rfl | hroom
  · simp
  · simpa [createNode, ASTNode.child_count, ASTNode.children] using hroom

/-- A token sequence of lexical tokens that no derivation within the limits derives
is rejected with a syntax error. -/
theorem parse_error_of_not_derived {toks : List Token}
    (hlex : ∀ t ∈ toks, t.lexical = true)
    (h : ∀ prog : List Grammar.Statement, toks ≠ Grammar.tokensOfList prog) :
    ∃ message, parse toks = .error message := by
  cases hp : parse toks with
  | error m => exact ⟨m, rfl⟩
  | outOfFuel => exact absurd hp (parse_total toks)
  | ok tree p =>
    obtain ⟨prog, rfl, -⟩ := parse_exact hlex hp
    exact absurd rfl (h prog)

theorem Follows.nil (p : Token → Prop) (q : List Token → Prop) : Follows p q [] := by
  intro A o B h
  cases A <;> cases h

theorem Follows.cons_of_not {p : Token → Prop} {q : List Token → Prop} {t : Token}
    {l : List Token} (ht : ¬ p t) (hl : Follows p q l) : Follows p q (t :: l) := by
  intro A o B h hp
  cases A with
  | nil =>
    simp only [List.nil_append, List.cons.injEq] at h
    exact absurd (h.1 ▸ hp) ht
  | cons a A =>
    simp only [List.cons_append, List.cons.injEq] at h
    exact hl A o B h.2 hp

theorem Follows.cons_of {p : Token → Prop} {q : List Token → Prop} {t : Token}
    {l : List Token} (hq : q l) (hl : Follows p q l) : Follows p q (t :: l) := by
  intro A o B h hp
  cases A with
  | nil =>
    simp only [List.nil_append, List.cons.injEq] at h
    exact h.2 ▸ hq
  | cons a A =>
    simp only [List.cons_append, List.cons.injEq] at h
    exact hl A o B h.2 hp

theorem Follows.append_follows {p : Token → Prop} {q : List Token → Prop}
    (hq : ∀ B C, q B → q (B ++ C)) {a b : List Token}
    (ha : Follows p q a) (hb : Follows p q b) : Follows p q (a ++ b) := by
  intro A o B h hp
  rcases List.append_eq_append_iff.mp h with ⟨C, hA, hC⟩ | ⟨C, hA, hC⟩
  · exact hb C o B hC hp
  · -- the token lies in `a`, or is the first of `b`
    cases C with
    | nil =>
      simp only [List.nil_append] at hC
      exact hb [] o B hC.symm hp
    | cons c C =>
      simp only [List.cons_append, List.cons.injEq] at hC
      obtain ⟨rfl, rfl⟩ := hC
      exact hq _ _ (ha A o C hA hp)

theorem StartsWithBrace.append_right (B C : List Token) (h : StartsWithBrace B) :
    StartsWithBrace (B ++ C) := by
  obtain ⟨b, B', rfl, hb⟩ := h
  exact ⟨b, B' ++ C, rfl, hb⟩

theorem SemicolonSecond.append_tail (B C : List Token) (h : SemicolonSecond B) :
    SemicolonSecond (B ++ C) := by
  obtain ⟨y, z, B', rfl, hz⟩ := h
  exact ⟨y, z, B' ++ C, rfl, hz⟩

theorem Grammar.Operand.operand_token_type (a : Grammar.Operand) :
    a.token.type = .TOKEN_IDENTIFIER ∨ a.token.type = .TOKEN_NUMBER := by
  cases a
  · left; rfl
  · right; rfl

theorem Grammar.Operator.operator_token_type (op : Grammar.Operator) :
    op.token.type = .TOKEN_PLUS ∨ op.token.type = .TOKEN_MINUS := by
  cases op
  · left; rfl
  · right; rfl

theorem operand_not_if (a : Grammar.Operand) : ¬ a.token.type = .TOKEN_IF := by
  cases a <;> simp [Grammar.Operand.token]

theorem operand_not_operator (a : Grammar.Operand) : ¬ a.token.isOperator := by
  cases a <;> simp [Grammar.Operand.token, Token.isOperator]

theorem operator_not_if (op : Grammar.Operator) : ¬ op.token.type = .TOKEN_IF := by
  cases op <;> simp [Grammar.Operator.token]

theorem Grammar.Expression.tokens_follow (e : Grammar.Expression) (semi : Token)
    (hs : semi.type = .TOKEN_SEMICOLON) :
    Follows (fun o => o.type = .TOKEN_IF) StartsWithBrace (e.tokens ++ [semi]) ∧
    Follows Token.isOperator SemicolonSecond (e.tokens ++ [semi]) := by
  have s1 : ¬ semi.type = .TOKEN_IF := by rw [hs]; decide
  have s2 : ¬ semi.isOperator := by simp [Token.isOperator, hs]
  cases e with
  | single a =>
    exact ⟨Follows.cons_of_not (operand_not_if a) (Follows.cons_of_not s1 (Follows.nil _ _)),
      Follows.cons_of_not (operand_not_operator a)
        (Follows.cons_of_not s2 (Follows.nil _ _))⟩
  | binary a op b =>
    refine ⟨Follows.cons_of_not (operand_not_if a) (Follows.cons_of_not (operator_not_if op)
        (Follows.cons_of_not (operand_not_if b) (Follows.cons_of_not s1 (Follows.nil _ _)))),
      Follows.cons_of_not (operand_not_operator a) (Follows.cons_of ⟨_, _, _, rfl, hs⟩
        (Follows.cons_of_not (operand_not_operator b)
          (Follows.cons_of_not s2 (Follows.nil _ _))))⟩

mutual

/-- In what a statement derives, a `TOKEN_IF` is followed by a `TOKEN_LBRACE`, and
an operator by one token and a `TOKEN_SEMICOLON`. -/
theorem Grammar.Statement.statement_follows : ∀ (st : Grammar.Statement),
    Follows (fun o => o.type = .TOKEN_IF) StartsWithBrace st.tokens ∧
    Follows Token.isOperator SemicolonSecond st.tokens
  | .varDecl name => by
    simp only [Grammar.Statement.tokens]
    exact ⟨Follows.cons_of_not (by simp) (Follows.cons_of_not (by simp)
        (Follows.cons_of_not (by simp) (Follows.nil _ _))),
      Follows.cons_of_not (by simp [Token.isOperator])
        (Follows.cons_of_not (by simp [Token.isOperator])
          (Follows.cons_of_not (by simp [Token.isOperator]) (Follows.nil _ _)))⟩
  | .assignment target e => by
    simp only [Grammar.Statement.tokens]
    have he := e.tokens_follow ⟨.TOKEN_SEMICOLON, ";"⟩ rfl
    exact ⟨Follows.cons_of_not (by simp) (Follows.cons_of_not (by simp) he.1),
      Follows.cons_of_not (by simp [Token.isOperator])
        (Follows.cons_of_not (by simp [Token.isOperator]) he.2)⟩
  | .ifStmt body => by
    simp only [Grammar.Statement.tokens]
    have hb := Grammar.tokensOfList_follows body
    have hr1 : Follows (fun o => o.type = .TOKEN_IF) StartsWithBrace
        [⟨.TOKEN_RBRACE, "\x7d"⟩] := Follows.cons_of_not (by simp) (Follows.nil _ _)
    have hr2 : Follows Token.isOperator SemicolonSecond [⟨.TOKEN_RBRACE, "\x7d"⟩] :=
      Follows.cons_of_not (by simp [Token.isOperator]) (Follows.nil _ _)
    exact ⟨Follows.cons_of ⟨_, _, rfl, rfl⟩ (Follows.cons_of_not (by simp)
        (Follows.append_follows StartsWithBrace.append_right hb.1 hr1)),
      Follows.cons_of_not (by simp [Token.isOperator])
        (Follows.cons_of_not (by simp [Token.isOperator])
          (Follows.append_follows SemicolonSecond.append_tail hb.2 hr2))⟩

theorem Grammar.tokensOfList_follows : ∀ (sts : List Grammar.Statement),
    Follows (fun o => o.type = .TOKEN_IF) StartsWithBrace (Grammar.tokensOfList sts) ∧
    Follows Token.isOperator SemicolonSecond (Grammar.tokensOfList sts)
  | [] => by
    simp only [Grammar.tokensOfList]
    exact ⟨Follows.nil _ _, Follows.nil _ _⟩
  | st :: sts => by
    simp only [Grammar.tokensOfList]
    have h1 := st.statement_follows
    have h2 := Grammar.tokensOfList_follows sts
    exact ⟨Follows.append_follows StartsWithBrace.append_right h1.1 h2.1,
      Follows.append_follows SemicolonSecond.append_tail h1.2 h2.2⟩

end

theorem nodesOfList_append (a b : List ASTNode) :
    nodesOfList (a ++ b) = nodesOfList a ++ nodesOfList b := by
  induction a with
  | nil => rfl
  | cons c cs ih => simp [nodesOfList, ih]

theorem ASTNode.small_leaf (type : NodeType) (text : String) :
    (ASTNode.mk type text []).Small := by
  intro m hm
  simp only [ASTNode.nodes, nodesOfList, List.mem_singleton] at hm
  subst hm
  simp [ASTNode.child_count, ASTNode.children]

theorem ASTNode.small_add {parent child : ASTNode} (hp : parent.Small) (hc : child.Small)
    (hlt : parent.child_count < 3) :
    (ASTNode.mk parent.type parent.text (parent.children ++ [child])).Small := by
  cases parent with
  | mk type text children =>
    intro m hm
    simp only [ASTNode.type, ASTNode.text, ASTNode.children, ASTNode.nodes,
      nodesOfList_append, nodesOfList, List.append_nil, List.mem_cons, List.mem_append] at hm
    rcases hm with rfl | hm | hm
    · simp only [ASTNode.child_count, ASTNode.children, List.length_append,
        List.length_singleton] at hlt ⊢
      omega
    · exact hp m (by rw [ASTNode.nodes]; exact List.mem_cons_of_mem _ hm)
    · exact hc m hm

theorem addChild_small {parent child node : ASTNode} (h : addChild parent child = some node)
    (hp : parent.Small) (hc : child.Small) : node.Small := by
  obtain ⟨hlt, rfl⟩ := addChild_some h
  exact ASTNode.small_add hp hc hlt

theorem parseExpression_small {p p' : PState} {node : ASTNode}
    (h : parseExpression p = .ok node p') : node.Small := by
  rcases parseExpression_ok h with ⟨rfl, -⟩ | ⟨rfl, -, -⟩
  · intro m hm
    simp only [ASTNode.nodes, nodesOfList, List.append_nil, List.mem_cons,
      List.mem_singleton, List.not_mem_nil, or_false] at hm
    rcases hm with rfl | rfl <;> simp [ASTNode.child_count, ASTNode.children]
  · intro m hm
    simp only [ASTNode.nodes, nodesOfList, List.append_nil, List.mem_cons,
      List.mem_singleton, List.not_mem_nil, or_false, List.cons_append,
      List.nil_append] at hm
    rcases hm with rfl | rfl | rfl | rfl <;> simp [ASTNode.child_count, ASTNode.children]

theorem parseVarDecl_small {p p' : PState} {node : ASTNode}
    (h : parseVarDecl p = .ok node p') : node.Small := by
  unfold parseVarDecl at h
  simp only at h
  split_ifs at h
  cases h
  exact ASTNode.small_leaf _ _

theorem parseAssignment_small {p p' : PState} {node : ASTNode}
    (h : parseAssignment p = .ok node p') : node.Small := by
  unfold parseAssignment at h
  simp only at h
  split_ifs at h
  cases he : parseExpression p.getNextToken.getNextToken with
  | error m => simp [he] at h
  | outOfFuel => simp [he] at h
  | ok expr p2 =>
    simp only [he] at h
    cases ha : addChild (createNode .NODE_ASSIGN p.current_token.text) expr with
    | none => simp [ha] at h
    | some node1 =>
      simp only [ha] at h
      split_ifs at h
      cases h
      exact addChild_small ha (ASTNode.small_leaf _ _) (parseExpression_small he)

/-- Whatever the tokens, the trees the parsing functions return have no node with
more than three children. -/
theorem parse_functions_small (fuel : Nat) :
    (∀ (p p' : PState) (node : ASTNode), parseStatement fuel p = .ok node p' → node.Small) ∧
    (∀ (block : ASTNode) (p p' : PState) (node : ASTNode),
      parseBlock fuel block p = .ok node p' → block.Small → node.Small) ∧
    (∀ (p p' : PState) (node : ASTNode), parseIf fuel p = .ok node p' → node.Small) := by
  induction fuel with
  | zero =>
    refine ⟨?_, ?_, ?_⟩
    · intro p p' node h; simp [parseStatement] at h
    · intro block p p' node h; simp [parseBlock] at h
    · intro p p' node h; simp [parseIf] at h
  | succ fuel ih =>
    obtain ⟨ihS, ihB, ihI⟩ := ih
    refine ⟨?_, ?_, ?_⟩
    · intro p p' node h
      rw [parseStatement] at h
      split_ifs at h
      · exact parseVarDecl_small h
      · exact parseAssignment_small h
      · exact ihI p p' node h
    · intro block p p' node h hblock
      rw [parseBlock] at h
      split_ifs at h
      · cases hs : parseStatement fuel p with
        | error m => simp [hs] at h
        | outOfFuel => simp [hs] at h
        | ok stmt p1 =>
          simp only [hs] at h
          cases ha : addChild block stmt with
          | none => simp [ha] at h
          | some block1 =>
            simp only [ha] at h
            exact ihB block1 p1 p' node h (addChild_small ha hblock (ihS p p1 stmt hs))
      · cases h
        exact hblock
    · intro p p' node h
      rw [parseIf] at h
      split_ifs at h
      cases hb : parseBlock fuel (createNode .NODE_BLOCK "Block") p.getNextToken.getNextToken with
      | error m => simp [hb] at h
      | outOfFuel => simp [hb] at h
      | ok block p2 =>
        simp only [hb] at h
        split_ifs at h
        cases ha : addChild (createNode .NODE_IF "if") block with
        | none => simp [ha] at h
        | some node1 =>
          simp only [ha] at h
          cases h
          exact addChild_small ha (ASTNode.small_leaf _ _)
            (ihB _ _ p2 block hb (ASTNode.small_leaf _ _))

theorem parseProgramLoop_small : ∀ (fuel : Nat) (root : ASTNode) (p p' : PState)
    (node : ASTNode), parseProgramLoop fuel root p = .ok node p' → root.Small → node.Small
  | 0, _, _, _, _, h, _ => by simp [parseProgramLoop] at h
  | fuel + 1, root, p, p', node, h, hroot => by
    rw [parseProgramLoop] at h
    split_ifs at h
    · cases hs : parseStatement fuel p with
      | error m => simp [hs] at h
      | outOfFuel => simp [hs] at h
      | ok stmt p1 =>
        simp only [hs] at h
        cases ha : addChild root stmt with
        | none => simp [ha] at h
        | some root1 =>
          simp only [ha] at h
          exact parseProgramLoop_small fuel root1 p1 p' node h
            (addChild_small ha hroot ((parse_functions_small fuel).1 p p1 stmt hs))
    · cases h
      exact hroot

theorem parse_small {toks : List Token} {tree : ASTNode} {p : PState}
    (h : parse toks = .ok tree p) : tree.Small := by
  unfold parse parseProgram at h
  exact parseProgramLoop_small _ _ _ _ _ h (ASTNode.small_leaf _ _)

mutual

/-- A statement with an `if` block of more than three statements, at any depth, is
rejected with the error of `addChild`. -/
theorem parseStatement_overflow : ∀ (st : Grammar.Statement) (fuel : Nat)
    (rest : List Token), ¬ st.Fits 3 → st.tokens.length ≤ fuel →
    parseStatement fuel (feed (st.tokens ++ rest))
      = .error "Exceeded maximum number of child nodes"
  | .varDecl name, _, _, hfit, _ => absurd (by simp [Grammar.Statement.Fits]) hfit
  | .assignment target e, _, _, hfit, _ => absurd (by simp [Grammar.Statement.Fits]) hfit
  | .ifStmt body, fuel, rest, hfit, hfuel => by
    obtain ⟨f, rfl⟩ : ∃ f, fuel = f + 2 := ⟨fuel - 2, by
      simp [Grammar.Statement.tokens] at hfuel; omega⟩
    simp only [Grammar.Statement.Fits] at hfit
    have hb := parseBlock_overflow body f (.mk .NODE_BLOCK "Block" [])
      (⟨.TOKEN_RBRACE, "\x7d"⟩ :: rest)
      (by simp [ASTNode.child_count, ASTNode.children])
      (by
        intro h
        exact hfit ⟨by simpa [ASTNode.child_count, ASTNode.children] using h.2, h.1⟩)
      (by simp [Grammar.Statement.tokens] at hfuel; omega)
    rw [parseStatement]
    simp only [Grammar.Statement.tokens, List.cons_append, List.append_assoc,
      List.singleton_append]
    rw [if_neg (by simp [feed]), if_neg (by simp [feed]), if_pos (by rfl), parseIf]
    simp only [getNextToken_eq_feed, feed, createNode]
    simp only [feed] at hb
    simp [hb]

theorem parseBlock_overflow : ∀ (body : List Grammar.Statement) (fuel : Nat)
    (block : ASTNode) (rest : List Token), block.child_count ≤ 3 →
    ¬ (Grammar.FitsList 3 body ∧ block.child_count + body.length ≤ 3) →
    (Grammar.tokensOfList body).length + 1 ≤ fuel →
    parseBlock fuel block (feed (Grammar.tokensOfList body ++ rest))
      = .error "Exceeded maximum number of child nodes"
  | [], _, _, _, hcount, hnot, _ =>
    absurd ⟨trivial, by simpa using hcount⟩ hnot
  | st :: sts, fuel, block, rest, hcount, hnot, hfuel => by
    obtain ⟨f, rfl⟩ : ∃ f, fuel = f + 1 := ⟨fuel - 1, by omega⟩
    simp only [Grammar.tokensOfList, List.length_append, List.length_cons] at hfuel
    have h3 := Grammar.tokens_length_pos st
    have hcur : (feed (Grammar.tokensOfList (st :: sts) ++ rest)).current_token.type
          ≠ .TOKEN_RBRACE ∧
        (feed (Grammar.tokensOfList (st :: sts) ++ rest)).current_token.type
          ≠ .TOKEN_EOF := by
      cases st <;> simp [Grammar.tokensOfList, Grammar.Statement.tokens, feed]
    rw [parseBlock, if_pos hcur]
    simp only [Grammar.tokensOfList, List.append_assoc]
    by_cases hst : st.Fits 3
    · rw [parseStatement_complete st f _ hst (by omega)]
      by_cases hlt : block.child_count < 3
      · simp only [addChild_lt _ hlt]
        refine parseBlock_overflow sts f _ rest ?_ ?_ (by omega)
        · simp only [ASTNode.child_count, ASTNode.children, List.length_append,
            List.length_singleton] at hlt ⊢
          omega
        · intro h
          apply hnot
          refine ⟨⟨hst, h.1⟩, ?_⟩
          have := h.2
          simp only [ASTNode.child_count, ASTNode.children, List.length_append,
            List.length_singleton, List.length_cons] at this ⊢
          omega
      · simp only [addChild_ge _ (by omega : 3 ≤ block.child_count)]
    · rw [parseStatement_overflow st f _ hst (by omega)]

end

theorem parseProgramLoop_overflow : ∀ (prog : List Grammar.Statement) (fuel : Nat)
    (root : ASTNode) (rest : List Token), root.child_count ≤ 3 →
    ¬ (Grammar.FitsList 3 prog ∧ root.child_count + prog.length ≤ 3) →
    (Grammar.tokensOfList prog).length + 1 ≤ fuel →
    parseProgramLoop fuel root (feed (Grammar.tokensOfList prog ++ rest))
      = .error "Exceeded maximum number of child nodes"
  | [], _, _, _, hcount, hnot, _ =>
    absurd ⟨trivial, by simpa using hcount⟩ hnot
  | st :: sts, fuel, root, rest, hcount, hnot, hfuel => by
    obtain ⟨f, rfl⟩ : ∃ f, fuel = f + 1 := ⟨fuel - 1, by omega⟩
    simp only [Grammar.tokensOfList, List.length_append, List.length_cons] at hfuel
    have h3 := Grammar.tokens_length_pos st
    have hcur : (feed (Grammar.tokensOfList (st :: sts) ++ rest)).current_token.type
          ≠ .TOKEN_EOF := by
      cases st <;> simp [Grammar.tokensOfList, Grammar.Statement.tokens, feed]
    rw [parseProgramLoop, if_pos hcur]
    simp only [Grammar.tokensOfList, List.append_assoc]
    by_cases hst : st.Fits 3
    · rw [parseStatement_complete st f _ hst (by omega)]
      by_cases hlt : root.child_count < 3
      · simp only [addChild_lt _ hlt]
        refine parseProgramLoop_overflow sts f _ rest ?_ ?_ (by omega)
        · simp only [ASTNode.child_count, ASTNode.children, List.length_append,
            List.length_singleton] at hlt ⊢
          omega
        · intro h
          apply hnot
          refine ⟨⟨hst, h.1⟩, ?_⟩
          have := h.2
          simp only [ASTNode.child_count, ASTNode.children, List.length_append,
            List.length_singleton, List.length_cons] at this ⊢
          omega
      · simp only [addChild_ge _ (by omega : 3 ≤ root.child_count)]
    · rw [parseStatement_overflow st f _ hst (by omega)]

/-- C13: when the tokens begin with a sequence of statements of which more than
three stand at top level or in one `if` block, the parser stops with the syntax
error of `addChild`, whatever follows, and returns no tree; and whatever the tokens,
no node of a tree the parser returns has more than three children. -/
theorem C13_fourth_child_rejected :
    (∀ (prog : List Grammar.Statement) (rest : List Token),
      ¬ (prog.length ≤ 3 ∧ Grammar.FitsList 3 prog) →
      parse (Grammar.tokensOfList prog ++ rest)
        = .error "Exceeded maximum number of child nodes") ∧
    (∀ (toks : List Token) (tree : ASTNode) (p : PState), parse toks = .ok tree p →
      ∀ n ∈ tree.nodes, n.child_count ≤ 3) := by
  constructor
  · intro prog rest hnot
    rw [parse_eq, parseProgram]
    refine parseProgramLoop_overflow prog _ _ rest ?_ ?_ ?_
    · simp [createNode, ASTNode.child_count, ASTNode.children]
    · intro h
      exact hnot ⟨by simpa [createNode, ASTNode.child_count, ASTNode.children] using h.2, h.1⟩
    · simp only [List.length_append]
      omega
  · intro toks tree p h
    exact parse_small h

theorem C13_fourth_child_rejected_witness :
    parse (Grammar.tokensOfList
        [.ifStmt [.varDecl "a", .varDecl "b", .varDecl "c", .varDecl "d"]]
        ++ [⟨.TOKEN_UNKNOWN, "?"⟩])
      = .error "Exceeded maximum number of child nodes" :=
  C13_fourth_child_rejected.1 _ _ (by simp [Grammar.FitsList, Grammar.Statement.Fits])

theorem Grammar.Expression.expression_node_of_tree (e : Grammar.Expression) :
    ∀ n ∈ e.tree.nodes, n.type = .NODE_EXPRESSION → n = e.tree := by
  intro n hn htype
  cases e with
  | single a =>
    simp only [Grammar.Expression.tree, ASTNode.nodes, nodesOfList, List.append_nil,
      List.mem_cons, List.mem_singleton, List.not_mem_nil, or_false] at hn
    rcases hn with rfl | rfl
    · rfl
    · cases htype
  | binary a op b =>
    simp only [Grammar.Expression.tree, ASTNode.nodes, nodesOfList, List.append_nil,
      List.mem_cons, List.mem_singleton, List.not_mem_nil, or_false, List.cons_append,
      List.nil_append] at hn
    rcases hn with rfl | rfl | rfl | rfl
    · rfl
    all_goals cases htype

mutual

theorem Grammar.Statement.tree_expression_nodes : ∀ (st : Grammar.Statement),
    ∀ n ∈ st.tree.nodes, n.type = .NODE_EXPRESSION → ∃ e : Grammar.Expression, n = e.tree
  | .varDecl name => by
    intro n hn htype
    simp only [Grammar.Statement.tree, ASTNode.nodes, nodesOfList, List.mem_singleton] at hn
    subst hn
    cases htype
  | .assignment target e => by
    intro n hn htype
    simp only [Grammar.Statement.tree, ASTNode.nodes, nodesOfList, List.append_nil,
      List.mem_cons] at hn
    rcases hn with rfl | hn
    · cases htype
    · exact ⟨e, Grammar.Expression.expression_node_of_tree e n hn htype⟩
  | .ifStmt body => by
    intro n hn htype
    simp only [Grammar.Statement.tree, ASTNode.nodes, nodesOfList, List.append_nil,
      List.mem_cons] at hn
    rcases hn with rfl | rfl | hn
    · cases htype
    · cases htype
    · exact Grammar.treesOfList_expression_nodes body n hn htype

theorem Grammar.treesOfList_expression_nodes : ∀ (sts : List Grammar.Statement),
    ∀ n ∈ nodesOfList (Grammar.treesOfList sts), n.type = .NODE_EXPRESSION →
      ∃ e : Grammar.Expression, n = e.tree
  | [] => by
    intro n hn
    simp [Grammar.treesOfList, nodesOfList] at hn
  | st :: sts => by
    intro n hn htype
    simp only [Grammar.treesOfList, nodesOfList, List.mem_append] at hn
    rcases hn with hn | hn
    · exact st.tree_expression_nodes n hn htype
    · exact Grammar.treesOfList_expression_nodes sts n hn htype

end

/-- C14: a sequence of lexical tokens that holds an assignment whose right-hand side
goes on with a second operator is rejected with a syntax error (for `a = b + c + d;`
the error is the missing `;` after the assignment), and in a tree that the parser
returns every Expression node is one operand leaf, or an operand leaf, one operator
leaf reading `+` or `-` and an operand leaf. -/
theorem C14_one_operator_only :
    (∀ (toks pre post : List Token) (a eq x o1 y o2 : Token),
      (∀ t ∈ toks, t.lexical = true) →
      toks = pre ++ [a, eq, x, o1, y, o2] ++ post →
      a.type = .TOKEN_IDENTIFIER → eq.type = .TOKEN_ASSIGN → x.isOperand →
      o1.isOperator → y.isOperand → o2.isOperator →
      ∃ message, parse toks = .error message) ∧
    parse (tokens "a = b + c + d;".data) = .error "Expected \x27;\x27 after assignment" ∧
    (∀ (toks : List Token) (tree : ASTNode) (p : PState),
      (∀ t ∈ toks, t.lexical = true) → parse toks = .ok tree p →
      ∀ n ∈ tree.nodes, n.type = .NODE_EXPRESSION →
        (∃ a, n = .mk .NODE_EXPRESSION "" [.mk .NODE_UNKNOWN a []]) ∨
        (∃ a op b, (op = "+" ∨ op = "-") ∧
          n = .mk .NODE_EXPRESSION ""
            [.mk .NODE_UNKNOWN a [], .mk .NODE_UNKNOWN op [], .mk .NODE_UNKNOWN b []])) := by
  refine ⟨?_, by decide, ?_⟩
  · intro toks pre post a eq x o1 y o2 hlex htoks _ _ _ ho1 _ ho2
    apply parse_error_of_not_derived hlex
    intro prog hprog
    have hf := (Grammar.tokensOfList_follows prog).2
    rw [← hprog, htoks] at hf
    obtain ⟨y', z, B', hB, hz⟩ := hf (pre ++ [a, eq, x]) o1 (y :: o2 :: post) (by simp) ho1
    simp only [List.cons.injEq] at hB
    obtain ⟨-, rfl, -⟩ := hB
    rcases ho2 with h | h <;> rw [h] at hz <;> cases hz
  · intro toks tree p hlex h n hn htype
    obtain ⟨prog, -, -, -, rfl⟩ := parse_exact hlex h
    rw [ASTNode.nodes] at hn
    rcases List.mem_cons.mp hn with rfl | hn
    · cases htype
    · obtain ⟨e, rfl⟩ := Grammar.treesOfList_expression_nodes prog n hn htype
      cases e with
      | single a => exact Or.inl ⟨_, rfl⟩
      | binary a op b =>
        refine Or.inr ⟨_, op.token.text, _, ?_, rfl⟩
        cases op
        · left; rfl
        · right; rfl

theorem C14_one_operator_only_witness :
    ∃ message, parse (tokens "a = 1; a = b + c + d;".data) = .error message :=
  C14_one_operator_only.1 (tokens "a = 1; a = b + c + d;".data)
    (tokens "a = 1;".data) [⟨.TOKEN_IDENTIFIER, "d"⟩, ⟨.TOKEN_SEMICOLON, ";"⟩]
    ⟨.TOKEN_IDENTIFIER, "a"⟩ ⟨.TOKEN_ASSIGN, "="⟩ ⟨.TOKEN_IDENTIFIER, "b"⟩ ⟨.TOKEN_PLUS, "+"⟩
    ⟨.TOKEN_IDENTIFIER, "c"⟩ ⟨.TOKEN_PLUS, "+"⟩ (by decide) (by decide) rfl rfl
    (Or.inl rfl) (Or.inl rfl) (Or.inl rfl) (Or.inl rfl)

/-- C15: `parseIf` reads no condition.  When the token after `if` is not a
`TOKEN_LBRACE`, `parseIf` stops with the error that asks for the brace; a sequence of
lexical tokens in which some `if` is not followed by a `TOKEN_LBRACE` is rejected
with a syntax error, and so is the `if (c == 30)` of the sample program; and for an
`if` followed by a block of at most three statements the parser returns an If node
with exactly one child, the Block whose children are the nodes of the nested
statements in order. -/
theorem C15_if_takes_no_condition :
    (∀ (fuel : Nat) (p : PState),
      p.getNextToken.current_token.type ≠ .TOKEN_LBRACE →
      parseIf (fuel + 1) p = .error "Expected \x27\x7b\x27 after \x27if\x27") ∧
    (∀ (toks pre post : List Token) (i : Token), (∀ t ∈ toks, t.lexical = true) →
      toks = pre ++ i :: post → i.type = .TOKEN_IF →
      (∀ b post', post = b :: post' → b.type ≠ .TOKEN_LBRACE) →
      ∃ message, parse toks = .error message) ∧
    parse (tokens "if (c == 30) \x7b d = d + 1; \x7d".data)
      = .error "Expected \x27\x7b\x27 after \x27if\x27" ∧
    (∀ (body : List Grammar.Statement), body.length ≤ 3 → Grammar.FitsList 3 body →
      parse (⟨.TOKEN_IF, "if"⟩ :: ⟨.TOKEN_LBRACE, "\x7b"⟩ ::
          (Grammar.tokensOfList body ++ [⟨.TOKEN_RBRACE, "\x7d"⟩]))
        = .ok (.mk .NODE_PROGRAM "Program"
            [.mk .NODE_IF "if" [.mk .NODE_BLOCK "Block" (Grammar.treesOfList body)]])
          ⟨⟨.TOKEN_EOF, ""⟩, []⟩) := by
  refine ⟨?_, ?_, by decide, ?_⟩
  · intro fuel p h
    rw [parseIf, if_pos h]
  · intro toks pre post i hlex htoks hi hpost
    apply parse_error_of_not_derived hlex
    intro prog hprog
    have hf := (Grammar.tokensOfList_follows prog).1
    rw [← hprog, htoks] at hf
    obtain ⟨b, B', hB, hb⟩ := hf pre i post rfl hi
    exact hpost b B' hB hb
  · intro body hlen hfit
    have h := parseProgramLoop_complete [.ifStmt body]
      (3 * (Grammar.tokensOfList [.ifStmt body]).length + 3)
      (createNode .NODE_PROGRAM "Program") ⟨⟨hlen, hfit⟩, trivial⟩
      (by simp [createNode, ASTNode.child_count, ASTNode.children]) (by omega)
    rw [parse_eq, parseProgram]
    simp only [Grammar.tokensOfList, Grammar.Statement.tokens, List.append_nil,
      Grammar.treesOfList, Grammar.Statement.tree, createNode, ASTNode.type, ASTNode.text,
      ASTNode.children, List.nil_append, List.cons_append] at h ⊢
    rw [h]
    rfl

theorem C15_if_takes_no_condition_witness :
    parse (⟨.TOKEN_IF, "if"⟩ :: ⟨.TOKEN_LBRACE, "\x7b"⟩ ::
        (Grammar.tokensOfList [.varDecl "a", .assignment "a" (.single (.number "1"))]
          ++ [⟨.TOKEN_RBRACE, "\x7d"⟩]))
      = .ok (.mk .NODE_PROGRAM "Program"
          [.mk .NODE_IF "if" [.mk .NODE_BLOCK "Block" (Grammar.treesOfList
            [.varDecl "a", .assignment "a" (.single (.number "1"))])]])
        ⟨⟨.TOKEN_EOF, ""⟩, []⟩ :=
  C15_if_takes_no_condition.2.2.2 _ (by decide)
    (by simp [Grammar.FitsList, Grammar.Statement.Fits])

theorem andThen_steps_from (r : Outcome × GenState) (k : GenState → Outcome × GenState)
    (hk : ∀ s1, Steps s1 (k s1).2) : Steps r.2 (andThen r k).2 := by
  obtain ⟨o, s1⟩ := r
  cases o
  case ok => exact hk s1
  all_goals exact Steps.refl _

theorem afterJump_steps (s1 : GenState) : Steps s1 (afterJump s1) :=
  (Steps.single (Step.cmp s1)).step (Step.jump _)

theorem afterJump_label_count (s1 : GenState) :
    (afterJump s1).label_count = s1.label_count + 1 := rfl

/-- What a three-child `NODE_EXPRESSION` node does once its left operand has returned. -/
theorem expression_rest_steps (op r : ASTNode) (s1 : GenState) :
    Steps s1 (andThen (generateCode r (emit "PUSH R0" s1)) fun s2 =>
      if op.text = "+" then (Outcome.ok, emit "ADD R0, R1" (emit "POP R1" s2))
      else if op.text = "-" then (Outcome.ok, emit "SUB R0, R1" (emit "POP R1" s2))
      else (Outcome.unsupportedOperator op.text, emit "POP R1" s2)).2 := by
  refine andThen_steps s1 _ _
    ((Steps.single (Step.push s1)).trans (generateCode_steps r _)) fun s2 => ?_
  dsimp only
  split_ifs
  · exact (Steps.single (Step.pop s2)).step (Step.add _)
  · exact (Steps.single (Step.pop s2)).step (Step.sub _)
  · exact Steps.single (Step.pop s2)

/-- What a `NODE_IF` node does once its first child has returned. -/
theorem if_rest_steps (rest : List ASTNode) (s1 : GenState) :
    Steps (afterJump s1)
      (match rest with
        | [] => (Outcome.undefinedBehaviour, afterJump s1)
        | b :: _ => andThen (generateCode b (afterJump s1)) fun s4 =>
            (Outcome.ok, emit ("LABEL_" ++ toString s1.label_count) s4)).2 := by
  cases rest with
  | nil => exact Steps.refl _
  | cons b _ =>
    exact andThen_steps _ _ _ (generateCode_steps b _) fun s4 => Steps.single (Step.mark s4 _)

theorem generateCode_if (text : String) (c : ASTNode) (rest : List ASTNode) (s s1 : GenState)
    (hc : generateCode c s = (.ok, s1)) :
    generateCode (.mk .NODE_IF text (c :: rest)) s =
      match rest with
        | [] => (Outcome.undefinedBehaviour, afterJump s1)
        | b :: _ => andThen (generateCode b (afterJump s1)) fun s4 =>
            (Outcome.ok, emit ("LABEL_" ++ toString s1.label_count) s4) := by
  rw [generateCode, hc, andThen_ok]
  cases rest <;> rfl

/-- A call made in a run is made in a state reached from the state in which the run
started, and the run ends in a state reached from the one that the call leaves. -/
theorem Calls.between {run : Run} {s : GenState} {p : List Nat} {m : ASTNode}
    {t : GenState} (h : Calls run s p m t) :
    Steps s t ∧ Steps (generateCode m t).2 (run.result s).2 := by
  induction h with
  | self n s => exact ⟨Steps.refl s, Steps.refl _⟩
  | program _ ih =>
    refine ⟨ih.1, ?_⟩
    simp only [Run.result] at ih ⊢
    rw [generateCode]
    exact ih.2
  | block _ ih =>
    refine ⟨ih.1, ?_⟩
    simp only [Run.result] at ih ⊢
    rw [generateCode]
    exact ih.2
  | assign ha _ ih =>
    refine ⟨ih.1, ?_⟩
    simp only [Run.result] at ih ⊢
    rw [generateCode, ha]
    exact ih.2.trans (andThen_steps_from _ _ fun s1 => Steps.single (Step.store s1 _))
  | @left text l op r s p m t _ ih =>
    refine ⟨ih.1, ?_⟩
    simp only [Run.result] at ih ⊢
    rw [generateCode]
    exact ih.2.trans (andThen_steps_from _ _ fun s1 => expression_rest_steps op r s1)
  | @right text l op r s s1 p m t hl _ ih =>
    have hs : Steps s s1 := by simpa [hl] using generateCode_steps l s
    refine ⟨(hs.step (Step.push s1)).trans ih.1, ?_⟩
    simp only [Run.result] at ih ⊢
    rw [generateCode, hl, andThen_ok]
    refine ih.2.trans (andThen_steps_from _ _ fun s2 => ?_)
    dsimp only
    split_ifs
    · exact (Steps.single (Step.pop s2)).step (Step.add _)
    · exact (Steps.single (Step.pop s2)).step (Step.sub _)
    · exact Steps.single (Step.pop s2)
  | @condition text c rest s p m t _ ih =>
    refine ⟨ih.1, ?_⟩
    simp only [Run.result] at ih ⊢
    refine ih.2.trans ?_
    rcases hc : generateCode c s with ⟨o, s1⟩
    by_cases ho : o = .ok
    · subst ho
      rw [generateCode_if text c rest s s1 hc]
      exact (afterJump_steps s1).trans (if_rest_steps rest s1)
    · rw [generateCode, hc, andThen_fail (by simpa using ho)]
      exact Steps.refl _
  | @ifBlock text c b rest s s1 p m t hc _ ih =>
    have hs : Steps s s1 := by simpa [hc] using generateCode_steps c s
    refine ⟨(hs.trans (afterJump_steps s1)).trans ih.1, ?_⟩
    simp only [Run.result] at ih ⊢
    rw [generateCode_if text c (b :: rest) s s1 hc]
    exact ih.2.trans (andThen_steps_from _ _ fun s4 => Steps.single (Step.mark s4 _))
  | @first c cs s p m t _ ih =>
    refine ⟨ih.1, ?_⟩
    simp only [Run.result] at ih ⊢
    rw [generateChildren]
    exact ih.2.trans (andThen_steps_from _ _ fun s1 => generateChildren_steps cs s1)
  | @later c cs s s1 i p m t hc _ ih =>
    have hs : Steps s s1 := by simpa [hc] using generateCode_steps c s
    refine ⟨hs.trans ih.1, ?_⟩
    simp only [Run.result] at ih ⊢
    rw [generateChildren, hc, andThen_ok]
    exact ih.2

/-- The label a `NODE_IF` node receives is at least the counter at its call, and the
call leaves a larger counter. -/
theorem ReceivesLabel.bounds {m : ASTNode} {t : GenState} {k : Nat}
    (h : ReceivesLabel m t k) :
    t.label_count ≤ k ∧ k < (generateCode m t).2.label_count := by
  obtain ⟨text, c, rest, t1, rfl, hc, rfl⟩ := h
  constructor
  · have := (generateCode_steps c t).label_run.1
    rwa [hc] at this
  · rw [generateCode_if text c rest t t1 hc]
    have := (if_rest_steps rest t1).label_run.1
    rw [afterJump_label_count] at this
    omega

/-- Every label received in a run lies between the counter at the start of the run
and the counter at its end. -/
theorem Calls.label_bounds {run : Run} {s : GenState} {p : List Nat} {m : ASTNode}
    {t : GenState} {k : Nat} (h : Calls run s p m t) (hk : ReceivesLabel m t k) :
    s.label_count ≤ k ∧ k < (run.result s).2.label_count := by
  have h1 := h.between.1.label_run.1
  have h2 := h.between.2.label_run.1
  have h3 := hk.bounds
  omega

/-- The calls made by a `NODE_IF` node whose first child returns: the call of the node
itself, which receives the counter left by the first child; the calls made for the
first child, which receive smaller labels; the calls made for the second child, which
receive larger ones. -/
theorem Calls.of_if {text : String} {c : ASTNode} {rest : List ASTNode} {s s1 : GenState}
    {p : List Nat} {m : ASTNode} {t : GenState} {k : Nat}
    (hc : generateCode c s = (.ok, s1))
    (h : Calls (.node (.mk .NODE_IF text (c :: rest))) s p m t) (hk : ReceivesLabel m t k) :
    (p = [] ∧ m = .mk .NODE_IF text (c :: rest) ∧ t = s ∧ k = s1.label_count) ∨
    (∃ q, p = 0 :: q ∧ Calls (.node c) s q m t ∧ k < s1.label_count) ∨
    (∃ q b rest', p = 1 :: q ∧ rest = b :: rest' ∧ Calls (.node b) (afterJump s1) q m t ∧
      s1.label_count < k) := by
  cases h with
  | self =>
    left
    obtain ⟨text', c', rest', t1, heq, hc', rfl⟩ := hk
    cases heq
    rw [hc] at hc'
    cases hc'
    exact ⟨rfl, rfl, rfl, rfl⟩
  | condition h' =>
    right; left
    have := (h'.label_bounds hk).2
    simp only [Run.result, hc] at this
    exact ⟨_, rfl, h', this⟩
  | ifBlock hc' h' =>
    right; right
    rw [hc] at hc'
    cases hc'
    have := (h'.label_bounds hk).1
    rw [afterJump_label_count] at this
    exact ⟨_, _, _, rfl, rfl, h', by omega⟩

/-- In the run of a node that receives the label `LABEL_k`, no other call receives
`LABEL_k`. -/
theorem Calls.self_unique {n : ASTNode} {s : GenState} {p : List Nat} {m : ASTNode}
    {t : GenState} {k : Nat}
    (h : Calls (.node n) s p m t) (hn : ReceivesLabel n s k) (hm : ReceivesLabel m t k) :
    p = [] := by
  obtain ⟨text, c, rest, s1, rfl, hc, rfl⟩ := hn
  rcases Calls.of_if hc h hm with ⟨h1, -⟩ | ⟨_, -, -, h1⟩ | ⟨_, _, _, -, -, -, h1⟩
  · exact h1
  · exact absurd h1 (Nat.lt_irrefl _)
  · exact absurd h1 (Nat.lt_irrefl _)

theorem ReceivesLabel.is_if {m : ASTNode} {t : GenState} {k : Nat} (h : ReceivesLabel m t k) :
    m.type = .NODE_IF := by
  obtain ⟨text, c, rest, t1, rfl, -, -⟩ := h
  rfl

/-- Two calls of one run that receive the same label are one call: they are made at
the same position. -/
theorem Calls.same_label {run : Run} {s : GenState} {p1 : List Nat} {m1 : ASTNode}
    {t1 : GenState} (h1 : Calls run s p1 m1 t1) :
    ∀ {p2 : List Nat} {m2 : ASTNode} {t2 : GenState} {k : Nat}, Calls run s p2 m2 t2 →
      ReceivesLabel m1 t1 k → ReceivesLabel m2 t2 k → p1 = p2 := by
  induction h1 with
  | self n s =>
    intro p2 m2 t2 k h2 hk1 hk2
    exact (h2.self_unique hk1 hk2).symm
  | program h1' ih =>
    intro p2 m2 t2 k h2 hk1 hk2
    cases h2 with
    | self => exact absurd hk2.is_if (by simp [ASTNode.type])
    | program h2' => exact ih h2' hk1 hk2
  | block h1' ih =>
    intro p2 m2 t2 k h2 hk1 hk2
    cases h2 with
    | self => exact absurd hk2.is_if (by simp [ASTNode.type])
    | block h2' => exact ih h2' hk1 hk2
  | assign ha h1' ih =>
    intro p2 m2 t2 k h2 hk1 hk2
    cases h2 with
    | self => exact absurd hk2.is_if (by simp [ASTNode.type])
    | assign _ h2' => rw [ih h2' hk1 hk2]
  | left h1' ih =>
    intro p2 m2 t2 k h2 hk1 hk2
    cases h2 with
    | self => exact absurd hk2.is_if (by simp [ASTNode.type])
    | left h2' => rw [ih h2' hk1 hk2]
    | right hl h2' =>
      have a := (h1'.label_bounds hk1).2
      have b := (h2'.label_bounds hk2).1
      simp only [Run.result, hl] at a
      simp only [emit] at b
      omega
  | right hl h1' ih =>
    intro p2 m2 t2 k h2 hk1 hk2
    cases h2 with
    | self => exact absurd hk2.is_if (by simp [ASTNode.type])
    | left h2' =>
      have a := (h2'.label_bounds hk2).2
      have b := (h1'.label_bounds hk1).1
      simp only [Run.result, hl] at a
      simp only [emit] at b
      omega
    | right hl' h2' =>
      rw [hl] at hl'
      cases hl'
      rw [ih h2' hk1 hk2]
  | condition h1' ih =>
    intro p2 m2 t2 k h2 hk1 hk2
    cases h2 with
    | self => exact Calls.self_unique (Calls.condition h1') hk2 hk1
    | condition h2' => rw [ih h2' hk1 hk2]
    | ifBlock hc h2' =>
      have a := (h1'.label_bounds hk1).2
      have b := (h2'.label_bounds hk2).1
      simp only [Run.result, hc] at a
      rw [afterJump_label_count] at b
      omega
  | ifBlock hc h1' ih =>
    intro p2 m2 t2 k h2 hk1 hk2
    cases h2 with
    | self => exact Calls.self_unique (Calls.ifBlock hc h1') hk2 hk1
    | condition h2' =>
      have a := (h2'.label_bounds hk2).2
      have b := (h1'.label_bounds hk1).1
      simp only [Run.result, hc] at a
      rw [afterJump_label_count] at b
      omega
    | ifBlock hc' h2' =>
      rw [hc] at hc'
      cases hc'
      rw [ih h2' hk1 hk2]
  | first h1' ih =>
    intro p2 m2 t2 k h2 hk1 hk2
    cases h2 with
    | first h2' => rw [ih h2' hk1 hk2]
    | later hc h2' =>
      have a := (h1'.label_bounds hk1).2
      have b := (h2'.label_bounds hk2).1
      simp only [Run.result, hc] at a
      omega
  | later hc h1' ih =>
    intro p2 m2 t2 k h2 hk1 hk2
    cases h2 with
    | first h2' =>
      have a := (h2'.label_bounds hk2).2
      have b := (h1'.label_bounds hk1).1
      simp only [Run.result, hc] at a
      omega
    | later hc' h2' =>
      rw [hc] at hc'
      cases hc'
      have := ih h2' hk1 hk2
      simp only [List.cons.injEq] at this ⊢
      exact ⟨by omega, this.2⟩

/-- The call made at a position is determined by the position. -/
theorem Calls.at_position {run : Run} {s : GenState} {p : List Nat} {m1 : ASTNode}
    {t1 : GenState} (h1 : Calls run s p m1 t1) :
    ∀ {m2 : ASTNode} {t2 : GenState}, Calls run s p m2 t2 → m1 = m2 ∧ t1 = t2 := by
  induction h1 with
  | self n s => intro m2 t2 h2; cases h2 with
    | self => exact ⟨rfl, rfl⟩
    | program h2' => cases h2'
    | block h2' => cases h2'
  | program h1' ih => intro m2 t2 h2; cases h2 with
    | self => cases h1'
    | program h2' => exact ih h2'
  | block h1' ih => intro m2 t2 h2; cases h2 with
    | self => cases h1'
    | block h2' => exact ih h2'
  | assign ha h1' ih => intro m2 t2 h2; cases h2 with
    | assign _ h2' => exact ih h2'
  | left h1' ih => intro m2 t2 h2; cases h2 with
    | left h2' => exact ih h2'
  | right hl h1' ih => intro m2 t2 h2; cases h2 with
    | right hl' h2' => rw [hl] at hl'; cases hl'; exact ih h2'
  | condition h1' ih => intro m2 t2 h2; cases h2 with
    | condition h2' => exact ih h2'
  | ifBlock hc h1' ih => intro m2 t2 h2; cases h2 with
    | ifBlock hc' h2' => rw [hc] at hc'; cases hc'; exact ih h2'
  | first h1' ih => intro m2 t2 h2; cases h2 with
    | first h2' => exact ih h2'
  | later hc h1' ih => intro m2 t2 h2; cases h2 with
    | later hc' h2' => rw [hc] at hc'; cases hc'; exact ih h2'

/-- In the loop over the children of a `NODE_PROGRAM` or `NODE_BLOCK` node, a label
received in the child `i` is smaller than a label received in a later child `j`. -/
theorem Calls.sequential {cs : List ASTNode} {s : GenState} {i : Nat} {p1 : List Nat}
    {m1 : ASTNode} {t1 : GenState} (h1 : Calls (.children cs) s (i :: p1) m1 t1) :
    ∀ {j : Nat} {p2 : List Nat} {m2 : ASTNode} {t2 : GenState} {k1 k2 : Nat},
      Calls (.children cs) s (j :: p2) m2 t2 →
      ReceivesLabel m1 t1 k1 → ReceivesLabel m2 t2 k2 → i < j → k1 < k2 := by
  generalize hrun : Run.children cs = run at h1
  generalize hp : i :: p1 = p at h1
  induction h1 generalizing cs i p1 with
  | self => cases hrun
  | program => cases hrun
  | block => cases hrun
  | assign => cases hrun
  | left => cases hrun
  | right => cases hrun
  | condition => cases hrun
  | ifBlock => cases hrun
  | first h1' _ =>
    cases hrun
    cases hp
    intro j p2 m2 t2 k1 k2 h2 hk1 hk2 hij
    cases h2 with
    | first => exact absurd hij (Nat.lt_irrefl _)
    | later hc h2' =>
      have a := (h1'.label_bounds hk1).2
      have b := (h2'.label_bounds hk2).1
      simp only [Run.result, hc] at a
      omega
  | later hc h1' ih =>
    cases hrun
    cases hp
    intro j p2 m2 t2 k1 k2 h2 hk1 hk2 hij
    cases h2 with
    | first => omega
    | later hc' h2' =>
      rw [hc] at hc'
      cases hc'
      exact ih rfl rfl h2' hk1 hk2 (by omega)

theorem andThen_label_count (r : Outcome × GenState) (k : GenState → Outcome × GenState)
    (hk : ∀ s1, (k s1).2.label_count = s1.label_count) :
    (andThen r k).2.label_count = r.2.label_count := by
  obtain ⟨o, s1⟩ := r
  cases o
  case ok => exact hk s1
  all_goals rfl

theorem andThen_label_count_of_fail {o : Outcome} {s1 : GenState}
    (k : GenState → Outcome × GenState) (ho : o ≠ .ok) :
    (andThen (o, s1) k).2.label_count = s1.label_count := by
  rw [andThen_fail (by simpa using ho)]

mutual

/-- Every number between the counter at the start of a call and the counter it leaves
is the label that a call made in the run receives. -/
theorem generateCode_labels : ∀ (node : ASTNode) (s : GenState) (k : Nat),
    s.label_count ≤ k → k < (generateCode node s).2.label_count →
    ∃ p m t, Calls (.node node) s p m t ∧ ReceivesLabel m t k
  | .mk .NODE_PROGRAM text children, s, k, h1, h2 => by
    rw [generateCode] at h2
    obtain ⟨p, m, t, hc, hr⟩ := generateChildren_labels children s k h1 h2
    exact ⟨p, m, t, Calls.program hc, hr⟩
  | .mk .NODE_VAR_DECL text children, s, k, h1, h2 => by
    exfalso
    by_cases room : s.symbol_table.length < 100
    · rw [generateCode_var_decl text children s room] at h2
      simp only at h2
      omega
    · rw [generateCode_var_decl_full text children s room] at h2
      simp only at h2
      omega
  | .mk .NODE_ASSIGN text [], s, k, h1, h2 => by
    exfalso
    rw [generateCode] at h2
    cases hg : getSymbolAddress s.symbol_table text <;> rw [hg] at h2 <;>
      simp only at h2 <;> omega
  | .mk .NODE_ASSIGN text (c :: rest), s, k, h1, h2 => by
    rw [generateCode] at h2
    cases hg : getSymbolAddress s.symbol_table text with
    | none =>
      rw [hg] at h2
      simp only at h2
      omega
    | some address =>
      rw [hg] at h2
      simp only at h2
      rw [andThen_label_count _ _ (fun s1 => rfl)] at h2
      obtain ⟨p, m, t, hc, hr⟩ := generateCode_labels c s k h1 h2
      exact ⟨_, m, t, Calls.assign hg hc, hr⟩
  | .mk .NODE_EXPRESSION _ [], s, k, h1, h2 => by
    rw [generateCode] at h2
    · simp only at h2
      omega
    all_goals simp
  | .mk .NODE_EXPRESSION _ [c], s, k, h1, h2 => by
    exfalso
    rw [generateCode] at h2
    split_ifs at h2
    · simp only [emit] at h2
      omega
    · simp only at h2
      omega
    · cases hg : getSymbolAddress s.symbol_table c.text <;> rw [hg] at h2 <;>
        simp only [emit] at h2 <;> omega
  | .mk .NODE_EXPRESSION _ [_, _], s, k, h1, h2 => by
    rw [generateCode] at h2
    · simp only at h2
      omega
    all_goals simp
  | .mk .NODE_EXPRESSION text [l, op, r], s, k, h1, h2 => by
    rw [generateCode] at h2
    rcases hl : generateCode l s with ⟨o, s1⟩
    by_cases hk : k < s1.label_count
    · obtain ⟨p, m, t, hc, hr⟩ := generateCode_labels l s k h1 (by rw [hl]; exact hk)
      exact ⟨_, m, t, Calls.left hc, hr⟩
    · rw [hl] at h2
      by_cases ho : o = .ok
      · subst ho
        rw [andThen_ok, andThen_label_count _ _
          (fun s2 => by dsimp only; split_ifs <;> rfl)] at h2
        obtain ⟨p, m, t, hc, hr⟩ := generateCode_labels r (emit "PUSH R0" s1) k
          (by simp only [emit]; omega) h2
        exact ⟨_, m, t, Calls.right hl hc, hr⟩
      · rw [andThen_label_count_of_fail _ ho] at h2
        omega
  | .mk .NODE_EXPRESSION _ (_ :: _ :: _ :: _ :: _), s, k, h1, h2 => by
    rw [generateCode] at h2
    · simp only at h2
      omega
    all_goals simp
  | .mk .NODE_IF _ [], s, k, h1, h2 => by
    rw [generateCode] at h2
    simp only at h2
    omega
  | .mk .NODE_IF text [c], s, k, h1, h2 => by
    rcases hc : generateCode c s with ⟨o, s1⟩
    by_cases hk : k < s1.label_count
    · obtain ⟨p, m, t, hcalls, hr⟩ := generateCode_labels c s k h1 (by rw [hc]; exact hk)
      exact ⟨_, m, t, Calls.condition hcalls, hr⟩
    · by_cases ho : o = .ok
      · subst ho
        rw [generateCode_if text c [] s s1 hc] at h2
        simp only [afterJump_label_count] at h2
        exact ⟨[], _, s, Calls.self _ s, text, c, [], s1, rfl, hc, by omega⟩
      · rw [generateCode, hc, andThen_label_count_of_fail _ ho] at h2
        omega
  | .mk .NODE_IF text (c :: b :: rest), s, k, h1, h2 => by
    rcases hc : generateCode c s with ⟨o, s1⟩
    by_cases hk : k < s1.label_count
    · obtain ⟨p, m, t, hcalls, hr⟩ := generateCode_labels c s k h1 (by rw [hc]; exact hk)
      exact ⟨_, m, t, Calls.condition hcalls, hr⟩
    · by_cases ho : o = .ok
      · subst ho
        by_cases hk' : k = s1.label_count
        · exact ⟨[], _, s, Calls.self _ s, text, c, b :: rest, s1, rfl, hc, hk'⟩
        · rw [generateCode_if text c (b :: rest) s s1 hc] at h2
          simp only at h2
          rw [andThen_label_count _ _ (fun s4 => rfl)] at h2
          obtain ⟨p, m, t, hcalls, hr⟩ := generateCode_labels b (afterJump s1) k
            (by rw [afterJump_label_count]; omega) h2
          exact ⟨_, m, t, Calls.ifBlock hc hcalls, hr⟩
      · rw [generateCode, hc, andThen_label_count_of_fail _ ho] at h2
        omega
  | .mk .NODE_BLOCK text children, s, k, h1, h2 => by
    rw [generateCode] at h2
    obtain ⟨p, m, t, hc, hr⟩ := generateChildren_labels children s k h1 h2
    exact ⟨p, m, t, Calls.block hc, hr⟩
  | .mk .NODE_UNKNOWN _ _, s, k, h1, h2 => by
    rw [generateCode] at h2
    simp only at h2
    omega

theorem generateChildren_labels : ∀ (children : List ASTNode) (s : GenState) (k : Nat),
    s.label_count ≤ k → k < (generateChildren children s).2.label_count →
    ∃ p m t, Calls (.children children) s p m t ∧ ReceivesLabel m t k
  | [], s, k, h1, h2 => by
    rw [generateChildren] at h2
    simp only at h2
    omega
  | c :: cs, s, k, h1, h2 => by
    rw [generateChildren] at h2
    rcases hc : generateCode c s with ⟨o, s1⟩
    by_cases hk : k < s1.label_count
    · obtain ⟨p, m, t, hcalls, hr⟩ := generateCode_labels c s k h1 (by rw [hc]; exact hk)
      exact ⟨_, m, t, Calls.first hcalls, hr⟩
    · rw [hc] at h2
      by_cases ho : o = .ok
      · subst ho
        rw [andThen_ok] at h2
        obtain ⟨p, m, t, hcalls, hr⟩ := generateChildren_labels cs s1 k (by omega) h2
        cases hcalls with
        | first h' => exact ⟨_, m, t, Calls.later hc (Calls.first h'), hr⟩
        | later hc' h' => exact ⟨_, m, t, Calls.later hc (Calls.later hc' h'), hr⟩
      · rw [andThen_label_count_of_fail _ ho] at h2
        omega

end

/-- The node that receives `LABEL_k` prints the jump to `LABEL_k`, and when its call
returns, the marker `LABEL_k` is the last line it has printed. -/
theorem ReceivesLabel.lines {m : ASTNode} {t : GenState} {k : Nat}
    (h : ReceivesLabel m t k) :
    ("JNE LABEL_" ++ toString k) ∈ emitted m t ∧
    ((generateCode m t).1 = .ok →
      (emitted m t).getLast? = some ("LABEL_" ++ toString k)) := by
  obtain ⟨text, c, rest, t1, rfl, hc, rfl⟩ := h
  have h1 := generateCode_output c t
  rw [hc] at h1
  simp only at h1
  cases rest with
  | nil =>
    have hg := generateCode_if text c [] t t1 hc
    simp only at hg
    have he : emitted (.mk .NODE_IF text [c]) t
        = emitted c t ++ ["CMP R0, 1", "JNE LABEL_" ++ toString t1.label_count] := by
      rw [emitted, hg]
      simp [afterJump_output, h1]
    rw [he, hg]
    exact ⟨by simp, fun h => by cases h⟩
  | cons b rest =>
    have hg := generateCode_if text c (b :: rest) t t1 hc
    simp only at hg
    have h4 := generateCode_output b (afterJump t1)
    rcases hb : generateCode b (afterJump t1) with ⟨o, s4⟩
    rw [hb] at hg h4
    simp only at h4
    by_cases ho : o = .ok
    · subst ho
      rw [andThen_ok] at hg
      have he : emitted (.mk .NODE_IF text (c :: b :: rest)) t
          = emitted c t ++ ["CMP R0, 1", "JNE LABEL_" ++ toString t1.label_count]
            ++ emitted b (afterJump t1) ++ ["LABEL_" ++ toString t1.label_count] := by
        rw [emitted, hg]
        simp [emit, h4, afterJump_output, h1]
      rw [he]
      exact ⟨by simp, fun _ => List.getLast?_concat _⟩
    · rw [andThen_fail (by simpa using ho)] at hg
      have he : emitted (.mk .NODE_IF text (c :: b :: rest)) t
          = emitted c t ++ ["CMP R0, 1", "JNE LABEL_" ++ toString t1.label_count]
            ++ emitted b (afterJump t1) := by
        rw [emitted, hg]
        simp [h4, afterJump_output, h1]
      rw [he, hg]
      exact ⟨by simp, fun h => absurd h ho⟩

theorem label_text_injective {m n : Nat}
    (h : "LABEL_" ++ toString m = "LABEL_" ++ toString n) : m = n := by
  have h' : toString m = toString n := by
    have := congrArg String.data h
    simp only [String.data_append, List.append_cancel_left_eq] at this
    exact String.ext this
  exact toString_nat_injective h'

/-- C9: in a generation run, whatever the tree and the state it starts in, the label
counter never goes down: at every call of `generateCode` made in the run it is at
least what it was at the start, the call leaves it at least as large, and the run ends
with a counter at least as large as the call left.  An If node whose first child
returns receives `LABEL_k` with `k` the counter then, prints `JNE LABEL_k` and, when
it returns, `LABEL_k` as its last line, and leaves a counter above `k`.  Two calls of
one run that receive the same label are made at the same position of the tree, and
the position determines the node and the state of the call: no two If nodes receive
the same label.  Every number from the counter at the start of a run up to the
counter at its end is the label of an If node of the run: no number is left out and
the counter is never set back.  Of the children of a Program or Block node, an If node in an earlier
child receives a smaller number than an If node in a later child; an If node nested
in the first child of an If node receives a smaller number than that node, one
nested in its second child a larger one; and different numbers are different label
texts. -/
theorem C9_labels_distinct_and_increasing :
    (∀ (run : Run) (s : GenState) (p : List Nat) (m : ASTNode) (t : GenState),
      Calls run s p m t →
      s.label_count ≤ t.label_count ∧ t.label_count ≤ (generateCode m t).2.label_count ∧
      (generateCode m t).2.label_count ≤ (run.result s).2.label_count) ∧
    (∀ (m : ASTNode) (t : GenState) (k : Nat), ReceivesLabel m t k →
      t.label_count ≤ k ∧ k < (generateCode m t).2.label_count ∧
      ("JNE LABEL_" ++ toString k) ∈ emitted m t ∧
      ((generateCode m t).1 = .ok →
        (emitted m t).getLast? = some ("LABEL_" ++ toString k))) ∧
    (∀ (run : Run) (s : GenState) (p1 p2 : List Nat) (m1 m2 : ASTNode) (t1 t2 : GenState)
        (k : Nat),
      Calls run s p1 m1 t1 → Calls run s p2 m2 t2 →
      ReceivesLabel m1 t1 k → ReceivesLabel m2 t2 k → p1 = p2 ∧ m1 = m2 ∧ t1 = t2) ∧
    (∀ (run : Run) (s : GenState) (k : Nat),
      s.label_count ≤ k → k < (run.result s).2.label_count →
      ∃ p m t, Calls run s p m t ∧ ReceivesLabel m t k) ∧
    (∀ (cs : List ASTNode) (s : GenState) (i j : Nat) (p1 p2 : List Nat) (m1 m2 : ASTNode)
        (t1 t2 : GenState) (k1 k2 : Nat),
      Calls (.children cs) s (i :: p1) m1 t1 → Calls (.children cs) s (j :: p2) m2 t2 →
      ReceivesLabel m1 t1 k1 → ReceivesLabel m2 t2 k2 → i < j → k1 < k2) ∧
    (∀ (text : String) (c : ASTNode) (rest : List ASTNode) (s s1 : GenState)
        (p : List Nat) (m : ASTNode) (t : GenState) (k : Nat),
      generateCode c s = (.ok, s1) →
      Calls (.node (.mk .NODE_IF text (c :: rest))) s p m t → ReceivesLabel m t k →
      (p = [] ∧ m = .mk .NODE_IF text (c :: rest) ∧ t = s ∧ k = s1.label_count) ∨
      (∃ q, p = 0 :: q ∧ Calls (.node c) s q m t ∧ k < s1.label_count) ∨
      (∃ q b rest', p = 1 :: q ∧ rest = b :: rest' ∧
        Calls (.node b) (afterJump s1) q m t ∧ s1.label_count < k)) ∧
    (∀ m n : Nat, "LABEL_" ++ toString m = "LABEL_" ++ toString n → m = n) := by
  refine ⟨?_, ?_, ?_, ?_, ?_, ?_, ?_⟩
  · intro run s p m t h
    exact ⟨h.between.1.label_run.1, (generateCode_steps m t).label_run.1,
      h.between.2.label_run.1⟩
  · intro m t k h
    exact ⟨h.bounds.1, h.bounds.2, h.lines.1, h.lines.2⟩
  · intro run s p1 p2 m1 m2 t1 t2 k h1 h2 hk1 hk2
    have hp := h1.same_label h2 hk1 hk2
    subst hp
    exact ⟨rfl, h1.at_position h2⟩
  · intro run s k h1 h2
    cases run with
    | node n => exact generateCode_labels n s k h1 h2
    | children cs => exact generateChildren_labels cs s k h1 h2
  · intro cs s i j p1 p2 m1 m2 t1 t2 k1 k2 h1 h2 hk1 hk2 hij
    exact h1.sequential h2 hk1 hk2 hij
  · intro text c rest s s1 p m t k hc h hk
    exact Calls.of_if hc h hk
  · intro m n h
    exact label_text_injective h

theorem C9_labels_distinct_and_increasing_witness :
    ReceivesLabel (.mk .NODE_IF "if" [.mk .NODE_BLOCK "Block" [], .mk .NODE_BLOCK "Block" []])
      (afterJump GenState.init) 1 ∧
    ReceivesLabel (.mk .NODE_IF "if" [.mk .NODE_BLOCK "Block" [], .mk .NODE_BLOCK "Block" []])
      (generateCode (.mk .NODE_IF "if" [.mk .NODE_BLOCK "Block" [],
          .mk .NODE_BLOCK "Block" [.mk .NODE_IF "if"
            [.mk .NODE_BLOCK "Block" [], .mk .NODE_BLOCK "Block" []]]]) GenState.init).2 2 ∧
    (1 : Nat) < 2 :=
  have hinner : ReceivesLabel
      (.mk .NODE_IF "if" [.mk .NODE_BLOCK "Block" [], .mk .NODE_BLOCK "Block" []])
      (afterJump GenState.init) 1 :=
    ⟨"if", .mk .NODE_BLOCK "Block" [], [.mk .NODE_BLOCK "Block" []], afterJump GenState.init,
      rfl, by decide, rfl⟩
  have hnext : ReceivesLabel
      (.mk .NODE_IF "if" [.mk .NODE_BLOCK "Block" [], .mk .NODE_BLOCK "Block" []])
      (generateCode (.mk .NODE_IF "if" [.mk .NODE_BLOCK "Block" [],
          .mk .NODE_BLOCK "Block" [.mk .NODE_IF "if"
            [.mk .NODE_BLOCK "Block" [], .mk .NODE_BLOCK "Block" []]]]) GenState.init).2 2 :=
    ⟨"if", .mk .NODE_BLOCK "Block" [], [.mk .NODE_BLOCK "Block" []],
      (generateCode (.mk .NODE_IF "if" [.mk .NODE_BLOCK "Block" [],
          .mk .NODE_BLOCK "Block" [.mk .NODE_IF "if"
            [.mk .NODE_BLOCK "Block" [], .mk .NODE_BLOCK "Block" []]]]) GenState.init).2,
      rfl, by decide, by decide⟩
  ⟨hinner, hnext,
    C9_labels_distinct_and_increasing.2.2.2.2.1
      [.mk .NODE_IF "if" [.mk .NODE_BLOCK "Block" [],
          .mk .NODE_BLOCK "Block" [.mk .NODE_IF "if"
            [.mk .NODE_BLOCK "Block" [], .mk .NODE_BLOCK "Block" []]]],
        .mk .NODE_IF "if" [.mk .NODE_BLOCK "Block" [], .mk .NODE_BLOCK "Block" []]]
      GenState.init 0 1 [1, 0] [] _ _ _ _ 1 2
      (Calls.first (Calls.ifBlock
        (by decide : generateCode (.mk .NODE_BLOCK "Block" []) GenState.init
          = (.ok, GenState.init))
        (Calls.block (Calls.first (Calls.self _ _)))))
      (Calls.later (by decide) (Calls.first (Calls.self _ _)))
      hinner hnext (by decide)⟩

theorem andThen_table (r : Outcome × GenState) (k : GenState → Outcome × GenState)
    (hk : ∀ s1, (k s1).2.symbol_table = s1.symbol_table) :
    (andThen r k).2.symbol_table = r.2.symbol_table := by
  obtain ⟨o, s1⟩ := r
  cases o
  case ok => exact hk s1
  all_goals rfl

theorem andThen_table_of_fail {o : Outcome} {s1 : GenState}
    (k : GenState → Outcome × GenState) (ho : o ≠ .ok) :
    (andThen (o, s1) k).2.symbol_table = s1.symbol_table := by
  rw [andThen_fail (by simpa using ho)]

mutual

/-- Every entry that a call adds to the table is added by the call of a
`NODE_VAR_DECL` node made in the run, when the table holds as many entries as the
position of the entry says. -/
theorem generateCode_entries : ∀ (node : ASTNode) (s : GenState) (i : Nat),
    s.symbol_table.length ≤ i → i < (generateCode node s).2.symbol_table.length →
    ∃ p text children t, Calls (.node node) s p (.mk .NODE_VAR_DECL text children) t ∧
      t.symbol_table.length = i ∧ i < 100
  | .mk .NODE_PROGRAM text children, s, i, h1, h2 => by
    rw [generateCode] at h2
    obtain ⟨p, tx, ch, t, hc, hr⟩ := generateChildren_entries children s i h1 h2
    exact ⟨p, tx, ch, t, Calls.program hc, hr⟩
  | .mk .NODE_VAR_DECL text children, s, i, h1, h2 => by
    by_cases room : s.symbol_table.length < 100
    · rw [generateCode_var_decl text children s room] at h2
      simp only [List.length_append, List.length_singleton] at h2
      exact ⟨[], text, children, s, Calls.self _ s, by omega, by omega⟩
    · rw [generateCode_var_decl_full text children s room] at h2
      simp only at h2
      omega
  | .mk .NODE_ASSIGN text [], s, i, h1, h2 => by
    exfalso
    rw [generateCode] at h2
    cases hg : getSymbolAddress s.symbol_table text <;> rw [hg] at h2 <;>
      simp only at h2 <;> omega
  | .mk .NODE_ASSIGN text (c :: rest), s, i, h1, h2 => by
    rw [generateCode] at h2
    cases hg : getSymbolAddress s.symbol_table text with
    | none =>
      rw [hg] at h2
      simp only at h2
      omega
    | some address =>
      rw [hg] at h2
      simp only at h2
      rw [andThen_table _ _ (fun s1 => rfl)] at h2
      obtain ⟨p, tx, ch, t, hc, hr⟩ := generateCode_entries c s i h1 h2
      exact ⟨_, tx, ch, t, Calls.assign hg hc, hr⟩
  | .mk .NODE_EXPRESSION _ [], s, i, h1, h2 => by
    rw [generateCode] at h2
    · simp only at h2
      omega
    all_goals simp
  | .mk .NODE_EXPRESSION _ [c], s, i, h1, h2 => by
    exfalso
    rw [generateCode] at h2
    split_ifs at h2
    · simp only [emit] at h2
      omega
    · simp only at h2
      omega
    · cases hg : getSymbolAddress s.symbol_table c.text <;> rw [hg] at h2 <;>
        simp only [emit] at h2 <;> omega
  | .mk .NODE_EXPRESSION _ [_, _], s, i, h1, h2 => by
    rw [generateCode] at h2
    · simp only at h2
      omega
    all_goals simp
  | .mk .NODE_EXPRESSION text [l, op, r], s, i, h1, h2 => by
    rw [generateCode] at h2
    rcases hl : generateCode l s with ⟨o, s1⟩
    by_cases hk : i < s1.symbol_table.length
    · obtain ⟨p, tx, ch, t, hc, hr⟩ := generateCode_entries l s i h1 (by rw [hl]; exact hk)
      exact ⟨_, tx, ch, t, Calls.left hc, hr⟩
    · rw [hl] at h2
      by_cases ho : o = .ok
      · subst ho
        rw [andThen_ok, andThen_table _ _
          (fun s2 => by dsimp only; split_ifs <;> rfl)] at h2
        obtain ⟨p, tx, ch, t, hc, hr⟩ := generateCode_entries r (emit "PUSH R0" s1) i
          (by simp only [emit]; omega) h2
        exact ⟨_, tx, ch, t, Calls.right hl hc, hr⟩
      · rw [andThen_table_of_fail _ ho] at h2
        omega
  | .mk .NODE_EXPRESSION _ (_ :: _ :: _ :: _ :: _), s, i, h1, h2 => by
    rw [generateCode] at h2
    · simp only at h2
      omega
    all_goals simp
  | .mk .NODE_IF _ [], s, i, h1, h2 => by
    rw [generateCode] at h2
    simp only at h2
    omega
  | .mk .NODE_IF text [c], s, i, h1, h2 => by
    rcases hc : generateCode c s with ⟨o, s1⟩
    by_cases hk : i < s1.symbol_table.length
    · obtain ⟨p, tx, ch, t, hcalls, hr⟩ := generateCode_entries c s i h1 (by rw [hc]; exact hk)
      exact ⟨_, tx, ch, t, Calls.condition hcalls, hr⟩
    · exfalso
      by_cases ho : o = .ok
      · subst ho
        rw [generateCode_if text c [] s s1 hc] at h2
        simp only [afterJump, emit] at h2
        omega
      · rw [generateCode, hc, andThen_table_of_fail _ ho] at h2
        omega
  | .mk .NODE_IF text (c :: b :: rest), s, i, h1, h2 => by
    rcases hc : generateCode c s with ⟨o, s1⟩
    by_cases hk : i < s1.symbol_table.length
    · obtain ⟨p, tx, ch, t, hcalls, hr⟩ := generateCode_entries c s i h1 (by rw [hc]; exact hk)
      exact ⟨_, tx, ch, t, Calls.condition hcalls, hr⟩
    · by_cases ho : o = .ok
      · subst ho
        rw [generateCode_if text c (b :: rest) s s1 hc] at h2
        simp only at h2
        rw [andThen_table _ _ (fun s4 => rfl)] at h2
        obtain ⟨p, tx, ch, t, hcalls, hr⟩ := generateCode_entries b (afterJump s1) i
          (by simp only [afterJump, emit]; omega) h2
        exact ⟨_, tx, ch, t, Calls.ifBlock hc hcalls, hr⟩
      · rw [generateCode, hc, andThen_table_of_fail _ ho] at h2
        omega
  | .mk .NODE_BLOCK text children, s, i, h1, h2 => by
    rw [generateCode] at h2
    obtain ⟨p, tx, ch, t, hc, hr⟩ := generateChildren_entries children s i h1 h2
    exact ⟨p, tx, ch, t, Calls.block hc, hr⟩
  | .mk .NODE_UNKNOWN _ _, s, i, h1, h2 => by
    rw [generateCode] at h2
    simp only at h2
    omega

theorem generateChildren_entries : ∀ (children : List ASTNode) (s : GenState) (i : Nat),
    s.symbol_table.length ≤ i → i < (generateChildren children s).2.symbol_table.length →
    ∃ p text ch t, Calls (.children children) s p (.mk .NODE_VAR_DECL text ch) t ∧
      t.symbol_table.length = i ∧ i < 100
  | [], s, i, h1, h2 => by
    rw [generateChildren] at h2
    simp only at h2
    omega
  | c :: cs, s, i, h1, h2 => by
    rw [generateChildren] at h2
    rcases hc : generateCode c s with ⟨o, s1⟩
    by_cases hk : i < s1.symbol_table.length
    · obtain ⟨p, tx, ch, t, hcalls, hr⟩ := generateCode_entries c s i h1 (by rw [hc]; exact hk)
      exact ⟨_, tx, ch, t, Calls.first hcalls, hr⟩
    · rw [hc] at h2
      by_cases ho : o = .ok
      · subst ho
        rw [andThen_ok] at h2
        obtain ⟨p, tx, ch, t, hcalls, hr⟩ := generateChildren_entries cs s1 i (by omega) h2
        cases hcalls with
        | first h' => exact ⟨_, tx, ch, t, Calls.later hc (Calls.first h'), hr⟩
        | later hc' h' => exact ⟨_, tx, ch, t, Calls.later hc (Calls.later hc' h'), hr⟩
      · rw [andThen_table_of_fail _ ho] at h2
        omega

end

/-- A one-child Expression node whose operand text begins with a digit and has at most
39 characters prints the load-immediate of the text and returns. -/
theorem generateCode_loadi (t : String) (c : ASTNode) (s : GenState)
    (hd : firstIsDigit c.text = true) (hlen : c.text.length ≤ 39) :
    generateCode (.mk .NODE_EXPRESSION t [c]) s
      = (.ok, emit ("LOADI R0, " ++ c.text) s) := by
  rw [generateCode, if_pos hd, if_pos (by omega)]

/-- With an operand text of 40 characters or more, the line does not fit the 50 bytes
of `instruction`: nothing is printed and the run ends with the write past the buffer. -/
theorem generateCode_loadi_overflow (t : String) (c : ASTNode) (s : GenState)
    (hd : firstIsDigit c.text = true) (hlen : 40 ≤ c.text.length) :
    generateCode (.mk .NODE_EXPRESSION t [c]) s = (.undefinedBehaviour, s) := by
  rw [generateCode, if_pos hd, if_neg (by omega)]

end Vicharak
